import Mathlib

/-!
# A shallow embedding of the bitcask key-value store

The development follows the Go packages of the repository:

* `record`      : the record codec (`record/record.go`, `record/pos.go`);
* `file_manage` : one segment file behind a handle (`file_manage/file_io.go`);
* `index`       : the ordered in-memory index (`index/btree.go`);
* `wal`         : append and replay over one segment (`wal/wal.go`);
* `bitcask`     : the engine (`bitcask.go`).

Bytes are `Fin 256`.  Go integers are natural numbers; every place where the
source narrows to `uint32` carries an explicit `% 2 ^ 32`.  A Go run-time
panic is a value of `GoPanic`, a Go `error` is a value of `GoError`.
-/

/-- One byte. -/
abbrev Byte := Fin 256

/-- The Go conversion `byte(n)` of an unsigned integer: the low eight bits. -/
def byte (n : Nat) : Byte := ⟨n % 256, Nat.mod_lt n (by decide)⟩

/-- Run-time panics of the Go code, as values. -/
inductive GoPanic where
  | sliceBounds
  | indexRange
  | nilDeref
  deriving DecidableEq, Repr

/-- The errors that the modelled code returns. -/
inductive GoError where
  | eof
  | keyEmpty
  | posNil
  | keyNotFound
  | crcFailed
  | walNotFound
  | fuel
  deriving DecidableEq, Repr

deriving instance DecidableEq for Except

/-! ## Go slices -/

namespace GoSlice

/-- The expression `make([]byte, n)`. -/
def make (n : Nat) : List Byte := List.replicate n 0

/-- The bytes of `s[lo:hi]`, for bounds that are in range. -/
def sub (s : List Byte) (lo hi : Nat) : List Byte := (s.take hi).drop lo

/-- The slice expression `s[lo:hi]` on a slice whose capacity is its length:
it panics unless `lo ≤ hi ≤ len(s)`. -/
def slice (s : List Byte) (lo hi : Nat) : Except GoPanic (List Byte) :=
  if lo ≤ hi ∧ hi ≤ s.length then .ok (sub s lo hi) else .error .sliceBounds

/-- The built-in `copy(dst, src)`: the new contents of `dst`. -/
def copy (dst src : List Byte) : List Byte := src.take dst.length ++ dst.drop src.length

/-- The buffer `buf` after its window `buf[lo:hi]` has been given the
contents `w` (writes through a sub-slice land in the backing buffer). -/
def store (buf : List Byte) (lo hi : Nat) (w : List Byte) : List Byte :=
  buf.take lo ++ w ++ buf.drop hi

end GoSlice

/-! ## `encoding/binary` and `hash/crc32` -/

namespace binary

/-- The function `binary.BigEndian.PutUint32(b, v)` on a four-byte window `b`. -/
def PutUint32 (b : List Byte) (v : Nat) : List Byte :=
  (((b.set 0 (byte (v >>> 24))).set 1 (byte (v >>> 16))).set 2 (byte (v >>> 8))).set 3 (byte v)

/-- The function `binary.BigEndian.Uint32(b)`: it reads the first four bytes
and panics on a shorter slice. -/
def Uint32 (b : List Byte) : Except GoPanic Nat :=
  match b with
  | b0 :: b1 :: b2 :: b3 :: _ =>
      .ok (b3.val ||| b2.val <<< 8 ||| b1.val <<< 16 ||| b0.val <<< 24)
  | _ => .error .indexRange

end binary

namespace crc32

/-- The reflected CRC-32/IEEE polynomial. -/
def IEEE : Nat := 0xEDB88320

/-- One shift of the reflected CRC register. -/
def step (c : Nat) : Nat :=
  if c % 2 = 1 then (c / 2) ^^^ IEEE else c / 2

/-- The register after one more message byte. -/
def update (c : Nat) (b : Byte) : Nat :=
  step (step (step (step (step (step (step (step (c ^^^ b.val))))))))

/-- Modelled from the spec: `crc32.ChecksumIEEE` of Go's standard library,
which is not part of the repository.  The spec names it CRC-32/IEEE, the
polynomial-0xEDB88320 32-bit checksum: register preset to all ones, bytes fed
least significant bit first, result complemented. -/
def ChecksumIEEE (data : List Byte) : Nat :=
  data.foldl update 0xFFFFFFFF ^^^ 0xFFFFFFFF

end crc32

/-! ## Package `record` -/

namespace record

/-- The type `RecordType`, a byte. -/
abbrev RecordType := Byte

def RecordTypeNormal : RecordType := 0
def RecordTypeDeleted : RecordType := 1
def RecordTypeCheckpoint : RecordType := 2
def RecordTypeTransactionBegin : RecordType := 3
def RecordTypeTransactionCommit : RecordType := 4
def RecordTypeTransactionRollback : RecordType := 5

/-- The struct `Header`. -/
structure Header where
  Key : List Byte
  Value : List Byte
  RecordType : RecordType
  deriving DecidableEq, Repr

/-- The struct `Pos`. -/
structure Pos where
  FileID : Nat
  Offset : Nat
  Size : Nat
  deriving DecidableEq, Repr

open GoSlice in
/-- The method `Header.ToBytes`: a zeroed buffer of the total length is filled
field by field, then the checksum of everything before the last four bytes is
stored in them.  The two `uint32(len(..))` conversions truncate. -/
def Header.ToBytes (h : Header) : List Byte :=
  let headerLength := 1 + 4 + 4 + h.Key.length + h.Value.length + 4
  let buf0 := make headerLength
  let buf1 := buf0.set 0 h.RecordType
  let buf2 := store buf1 1 5 (binary.PutUint32 (sub buf1 1 5) (h.Key.length % 2 ^ 32))
  let buf3 := store buf2 5 9 (binary.PutUint32 (sub buf2 5 9) (h.Value.length % 2 ^ 32))
  let buf4 := store buf3 9 (9 + h.Key.length)
    (copy (sub buf3 9 (9 + h.Key.length)) h.Key)
  let buf5 := store buf4 (9 + h.Key.length) (9 + h.Key.length + h.Value.length)
    (copy (sub buf4 (9 + h.Key.length) (9 + h.Key.length + h.Value.length)) h.Value)
  let crc := crc32.ChecksumIEEE (sub buf5 0 (headerLength - 4))
  store buf5 (headerLength - 4) headerLength
    (binary.PutUint32 (sub buf5 (headerLength - 4) headerLength) crc)

open GoSlice in
/-- The function `FromBytes`.  The result `.ok none` is the nil header,
`.error` a run-time panic.  `keySize`, `valueSize`, `expectedLen` and every
slice bound computed from them are `uint32` values, so each sum is taken
modulo `2 ^ 32`, as is `uint32(len(data))`. -/
def FromBytes (data : List Byte) : Except GoPanic (Option Header) :=
  if data.length < 9 then .ok none
  else
    match data.head? with
    | none => .error .indexRange
    | some recordType =>
    match slice data 1 5 >>= binary.Uint32 with
    | .error e => .error e
    | .ok keySize =>
    match slice data 5 9 >>= binary.Uint32 with
    | .error e => .error e
    | .ok valueSize =>
    let expectedLen := (9 + keySize + valueSize + 4) % 2 ^ 32
    if data.length % 2 ^ 32 < expectedLen then .ok none
    else
      match slice data 9 ((9 + keySize) % 2 ^ 32) with
      | .error e => .error e
      | .ok keySrc =>
      match slice data ((9 + keySize) % 2 ^ 32) ((9 + keySize + valueSize) % 2 ^ 32) with
      | .error e => .error e
      | .ok valueSrc =>
      let key := copy (make keySize) keySrc
      let value := copy (make valueSize) valueSrc
      match slice data ((9 + keySize + valueSize) % 2 ^ 32) data.length >>= binary.Uint32 with
      | .error e => .error e
      | .ok crc =>
      match slice data 0 ((9 + keySize + valueSize) % 2 ^ 32) with
      | .error e => .error e
      | .ok body =>
      if crc ≠ crc32.ChecksumIEEE body then .ok none
      else .ok (some { Key := key, Value := value, RecordType := recordType })

end record

/-! ## Package `file_manage` -/

namespace file_manage

/-- An open `os.File`: the bytes of the file on disk and the position of the
handle's cursor.  Each segment file is held by one handle at a time, so the
handle carries the bytes. -/
structure OsFile where
  bytes : List Byte
  cursor : Nat
  deriving DecidableEq, Repr

/-- The call `os.OpenFile(path, os.O_RDWR|os.O_CREATE, 0666)`: the file is
created empty when it does not exist, and the cursor of the new handle is at
position zero (the flags hold no `O_APPEND`). -/
def OsFile.open (existing : Option (List Byte)) : OsFile :=
  { bytes := existing.getD [], cursor := 0 }

/-- The method `os.File.Write`: the data land at the cursor, over what is
there, the file grows when they reach past its end, and the cursor advances.
Returns the handle and the number of bytes written. -/
def OsFile.Write (f : OsFile) (data : List Byte) : OsFile × Nat :=
  ({ bytes := f.bytes.take f.cursor ++ List.replicate (f.cursor - f.bytes.length) 0
        ++ data ++ f.bytes.drop (f.cursor + data.length),
     cursor := f.cursor + data.length }, data.length)

/-- The method `os.File.ReadAt(buf, off)` with `len(buf) = n`: a read that
cannot fill the buffer reports `io.EOF`; an empty buffer is always filled.
The cursor is not used and not moved. -/
def OsFile.ReadAt (f : OsFile) (n off : Nat) : Except GoError (List Byte) :=
  if n = 0 then .ok []
  else if off + n ≤ f.bytes.length then .ok ((f.bytes.drop off).take n)
  else .error .eof

/-- The struct `FileIO` (the path is fixed at opening and not kept here). -/
structure FileIO where
  File : OsFile
  FileID : Nat
  Offset : Nat
  deriving DecidableEq, Repr

/-- The method `FileIO.Write`. -/
def FileIO.Write (f : FileIO) (data : List Byte) : FileIO × Nat :=
  let r := f.File.Write data
  ({ f with File := r.1, Offset := f.Offset + r.2 }, r.2)

/-- The method `FileIO.ReadAt`. -/
def FileIO.ReadAt (f : FileIO) (offset size : Nat) : Except GoError (List Byte) :=
  f.File.ReadAt size offset

/-- The function `NewFileIO`, on the current bytes of the file at the path
(`none` when there is no such file): the initial offset is the file size. -/
def NewFileIO (existing : Option (List Byte)) (fileID : Nat) : FileIO :=
  let fp := OsFile.open existing
  { File := fp, FileID := fileID, Offset := fp.bytes.length }

def FileIO.GetFileID (f : FileIO) : Nat := f.FileID

def FileIO.GetOffset (f : FileIO) : Nat := f.Offset

def FileIO.SetOffset (f : FileIO) (offset : Nat) : FileIO := { f with Offset := offset }

/-- The method `FileIO.Size`: the size of the file on disk. -/
def FileIO.Size (f : FileIO) : Nat := f.File.bytes.length

end file_manage

/-! ## Package `index` -/

namespace index

/-- The struct `indexItem`. -/
structure indexItem where
  key : List Byte
  pos : record.Pos
  deriving DecidableEq, Repr

/-- The test `bytes.Compare(a, b) < 0`: lexicographic order on bytes. -/
def bytesLess : List Byte → List Byte → Bool
  | [], [] => false
  | [], _ :: _ => true
  | _ :: _, [] => false
  | a :: as, b :: bs => if a < b then true else if b < a then false else bytesLess as bs

/-- The method `indexItem.Less`. -/
def indexItem.Less (i than : indexItem) : Bool := bytesLess i.key than.key

/-- Modelled from the spec: the tree of `github.com/google/btree`, which is
not part of the repository, as the ascending list of its items.  Two items
neither of which is `Less` than the other are the same entry. -/
structure BTree where
  items : List indexItem
  deriving DecidableEq, Repr

/-- The entries of `l` after `ReplaceOrInsert(item)`. -/
def replaceOrInsert (item : indexItem) : List indexItem → List indexItem
  | [] => [item]
  | x :: xs =>
    if item.Less x then item :: x :: xs
    else if x.Less item then x :: replaceOrInsert item xs
    else item :: xs

def BTree.New : BTree := { items := [] }

def BTree.ReplaceOrInsert (t : BTree) (item : indexItem) : BTree :=
  { items := replaceOrInsert item t.items }

/-- The method `BTree.Get`: the entry equal to `key`, if there is one. -/
def BTree.Get (t : BTree) (key : List Byte) : Option indexItem :=
  t.items.find? (fun x => !bytesLess key x.key && !bytesLess x.key key)

/-- The method `BTree.Delete`: the removed entry, if there was one, and the
tree without it. -/
def BTree.Delete (t : BTree) (key : List Byte) : Option indexItem × BTree :=
  (t.Get key, { items := t.items.filter (fun x => bytesLess key x.key || bytesLess x.key key) })

def BTree.Len (t : BTree) : Nat := t.items.length

/-- The struct `BTreeIndex`. -/
structure BTreeIndex where
  items : BTree
  deriving DecidableEq, Repr

def NewBTreeIndex : BTreeIndex := { items := BTree.New }

/-- The method `BTreeIndex.Get`. -/
def BTreeIndex.Get (idx : BTreeIndex) (key : List Byte) : Except GoError record.Pos :=
  if key.length = 0 then .error .keyEmpty
  else
    match idx.items.Get key with
    | none => .error .keyNotFound
    | some item => .ok item.pos

/-- The method `BTreeIndex.Put`; `pos = none` is the nil pointer.  The index
is unchanged when an error is returned. -/
def BTreeIndex.Put (idx : BTreeIndex) (key : List Byte) (pos : Option record.Pos) :
    Except GoError BTreeIndex :=
  if key.length = 0 then .error .keyEmpty
  else
    match pos with
    | none => .error .posNil
    | some p => .ok { items := idx.items.ReplaceOrInsert { key := key, pos := p } }

/-- The method `BTreeIndex.Delete`.  The index is unchanged when an error is
returned. -/
def BTreeIndex.Delete (idx : BTreeIndex) (key : List Byte) : Except GoError BTreeIndex :=
  if key.length = 0 then .error .keyEmpty
  else
    match idx.items.Delete key with
    | (none, _) => .error .keyNotFound
    | (some _, t) => .ok { items := t }

def BTreeIndex.Len (idx : BTreeIndex) : Nat := idx.items.Len

/-- The struct `BTreeIterator`; the field `idx` is not read by any method.
`currItem = none` is the nil pointer. -/
structure BTreeIterator where
  currItem : Option indexItem
  items : List indexItem
  currIndex : Int
  deriving DecidableEq, Repr

/-- The index expression `items[i]` of Go on an `int`: it panics outside
`0 ≤ i < len(items)`. -/
def itemAt (items : List indexItem) (i : Int) : Except GoPanic indexItem :=
  if 0 ≤ i then
    match items.get? i.toNat with
    | some item => .ok item
    | none => .error .indexRange
  else .error .indexRange

/-- The function `NewBTreeIterator`: `Ascend` hands over the items of the tree
in ascending order. -/
def NewBTreeIterator (idx : BTreeIndex) : BTreeIterator :=
  let items := idx.items.items
  match items with
  | [] => { currItem := none, items := items, currIndex := -1 }
  | first :: _ => { currItem := some first, items := items, currIndex := 0 }

/-- The method `BTreeIndex.Iterator`. -/
def BTreeIndex.Iterator (idx : BTreeIndex) : BTreeIterator := NewBTreeIterator idx

/-- The method `BTreeIterator.Prev`. -/
def BTreeIterator.Prev (iter : BTreeIterator) : Except GoPanic BTreeIterator :=
  if iter.currIndex > 0 then
    match itemAt iter.items (iter.currIndex - 1) with
    | .error p => .error p
    | .ok item => .ok { iter with currIndex := iter.currIndex - 1, currItem := some item }
  else .ok { iter with currItem := none }

/-- The method `BTreeIterator.Next`. -/
def BTreeIterator.Next (iter : BTreeIterator) : Except GoPanic BTreeIterator :=
  if iter.currIndex < (iter.items.length : Int) - 1 then
    match itemAt iter.items (iter.currIndex + 1) with
    | .error p => .error p
    | .ok item => .ok { iter with currIndex := iter.currIndex + 1, currItem := some item }
  else .ok { iter with currItem := none }

/-- The loop of `BTreeIterator.Seek` over the items from position `i` on. -/
def seekFrom (key : List Byte) : Nat → List indexItem → Option (Nat × indexItem)
  | _, [] => none
  | i, item :: rest => if !bytesLess item.key key then some (i, item) else seekFrom key (i + 1) rest

/-- The method `BTreeIterator.Seek`. -/
def BTreeIterator.Seek (iter : BTreeIterator) (key : List Byte) : BTreeIterator :=
  match seekFrom key 0 iter.items with
  | some (i, item) => { iter with currIndex := (i : Int), currItem := some item }
  | none => { iter with currItem := none }

/-- The method `BTreeIterator.Valid`. -/
def BTreeIterator.Valid (iter : BTreeIterator) : Bool := iter.currItem.isSome

/-- The method `BTreeIterator.Key`; the nil slice is the empty list. -/
def BTreeIterator.Key (iter : BTreeIterator) : List Byte :=
  match iter.currItem with
  | none => []
  | some item => item.key

/-- The method `BTreeIterator.Value`; `none` is the nil pointer. -/
def BTreeIterator.Value (iter : BTreeIterator) : Option record.Pos :=
  match iter.currItem with
  | none => none
  | some item => some item.pos

/-- The method `BTreeIterator.Close`. -/
def BTreeIterator.Close (iter : BTreeIterator) : BTreeIterator :=
  { iter with currItem := none, items := [] }

end index

/-! ## Package `wal` -/

/-- What stops a call: a run-time panic or a returned error. -/
inductive Failure where
  | panic (p : GoPanic)
  | error (e : GoError)
  deriving DecidableEq, Repr

namespace wal

open file_manage

/-- The struct `WAL`, with its field `fileIO` spelled `fileIo`; the only
`FileManager` of the repository is `FileIO`. -/
structure WAL where
  fileIo : FileIO
  deriving DecidableEq, Repr

/-- The function `NewWAL`, on the current bytes of the file at the path. -/
def NewWAL (existing : Option (List Byte)) (fileID : Nat) : WAL :=
  { fileIo := NewFileIO existing fileID }

def WAL.ReadAt (w : WAL) (offset length : Nat) : Except GoError (List Byte) :=
  w.fileIo.ReadAt offset length

def WAL.GetFileID (w : WAL) : Nat := w.fileIo.GetFileID

def WAL.GetOffset (w : WAL) : Nat := w.fileIo.GetOffset

def WAL.SetOffset (w : WAL) (offset : Nat) : WAL := { fileIo := w.fileIo.SetOffset offset }

/-- The method `WAL.Append` (the write and the sync succeed): the handle
after the call and the returned position. -/
def WAL.Append (w : WAL) (key value : List Byte) (typ : record.RecordType) :
    WAL × record.Pos :=
  let header : record.Header := { Key := key, Value := value, RecordType := typ }
  let data := header.ToBytes
  let startOffset := w.fileIo.GetOffset
  let r := w.fileIo.Write data
  ({ fileIo := r.1 }, { FileID := r.1.GetFileID, Offset := startOffset, Size := r.2 })

/-- The body of the loop of `WAL.LoadWal` from `offset` on, run at most `fuel`
times: the offset at which the loop ends and the index at that point.  The
sums `keyLength+valueLength` that bound the slices of the remainder are
`uint32` sums; `reminderDataLength` is an `int64` sum. -/
def WAL.loadLoop (w : WAL) : Nat → Nat → index.BTreeIndex →
    Except Failure (Nat × index.BTreeIndex)
  | 0, _, _ => .error (.error .fuel)
  | fuel + 1, offset, memIndex =>
    let headerLength := 1 + 4 + 4
    match w.ReadAt offset headerLength with
    | .error .eof => .ok (offset, memIndex)
    | .error e => .error (.error e)
    | .ok headerBytes =>
    match headerBytes.head?, binary.Uint32 (GoSlice.sub headerBytes 1 5),
        binary.Uint32 (GoSlice.sub headerBytes 5 9) with
    | some recordType, .ok keyLength, .ok valueLength =>
      let reminderDataLength := keyLength + valueLength + 4
      let offset1 := offset + headerLength
      match w.ReadAt offset1 reminderDataLength with
      | .error e => .error (.error e)
      | .ok reminderData =>
      match GoSlice.slice reminderData 0 keyLength,
          GoSlice.slice reminderData keyLength ((keyLength + valueLength) % 2 ^ 32),
          GoSlice.slice reminderData ((keyLength + valueLength) % 2 ^ 32)
            ((keyLength + valueLength + 4) % 2 ^ 32) >>= binary.Uint32 with
      | .ok key, .ok _, .ok crc =>
        let data := headerBytes ++ reminderData
        let expectCrc := crc32.ChecksumIEEE (GoSlice.sub data 0 (headerLength + reminderDataLength - 4))
        if crc ≠ expectCrc then .error (.error .crcFailed)
        else
          let offset2 := offset1 + reminderDataLength
          let length := headerLength + reminderDataLength
          let pos : record.Pos :=
            { FileID := w.GetFileID, Offset := offset2 - length, Size := length }
          if recordType = record.RecordTypeNormal then
            match memIndex.Put key (some pos) with
            | .error e => .error (.error e)
            | .ok idx => loadLoop w fuel offset2 idx
          else if recordType = record.RecordTypeDeleted then
            match memIndex.Delete key with
            | .error e => .error (.error e)
            | .ok idx => loadLoop w fuel offset2 idx
          else loadLoop w fuel offset2 memIndex
      | _, _, _ => .error (.panic .sliceBounds)
    | _, _, _ => .error (.panic .indexRange)

/-- The method `WAL.LoadWal`: the handle and the index after a replay that
returns no error.  Every turn of the loop but the last moves the offset
forward by at least thirteen bytes inside the file, so the file length bounds
the number of turns. -/
def WAL.LoadWal (w : WAL) (memIndex : index.BTreeIndex) :
    Except Failure (WAL × index.BTreeIndex) :=
  match w.loadLoop (w.fileIo.File.bytes.length + 1) 0 memIndex with
  | .error e => .error e
  | .ok (offset, idx) => .ok (w.SetOffset offset, idx)

end wal

/-! ## Package `bitcask` -/

namespace bitcask

open wal

/-- The struct `Config`, reduced to the option that the engine reads besides
the directory and the index type (always "btree" here). -/
structure Config where
  MaxFileSize : Int
  deriving DecidableEq, Repr

/-- The WAL directory: the bytes of each file `data_NNNNNNNNN.wal`, under
the file id that its name encodes. -/
abbrev Disk := List (Nat × List Byte)

/-- The bytes of the file with the given id, if the directory has it. -/
def Disk.file (d : Disk) (fileId : Nat) : Option (List Byte) :=
  (d.find? (fun e => e.1 = fileId)).map (fun e => e.2)

/-- A Go map from file ids to handles. -/
abbrev WalMap := List (Nat × WAL)

def WalMap.get (m : WalMap) (fileId : Nat) : Option WAL :=
  (m.find? (fun e => e.1 = fileId)).map (fun e => e.2)

def WalMap.set (m : WalMap) (fileId : Nat) (w : WAL) : WalMap :=
  (fileId, w) :: m.filter (fun e => e.1 ≠ fileId)

/-- The struct `Bitcask` of an engine that `NewBitcask` has returned. -/
structure Bitcask where
  config : Config
  olderWal : WalMap
  activeWal : WAL
  curIndex : index.BTreeIndex
  fileId : Nat
  fileIds : List Nat
  deriving DecidableEq, Repr

/-- The loop of `Bitcask.load` over the sorted file ids: each segment is
opened and replayed; the last one becomes the active segment. -/
def loadSegments (config : Config) (disk : Disk) (fileIds : List Nat) :
    List Nat → WalMap → index.BTreeIndex → Except Failure Bitcask
  | [], olderWal, curIndex =>
    .ok { config := config, olderWal := olderWal, activeWal := NewWAL (disk.file 0) 0,
          curIndex := curIndex, fileId := 0, fileIds := fileIds }
  | fileId :: rest, olderWal, curIndex =>
    let currWal := NewWAL (disk.file fileId) fileId
    match currWal.LoadWal curIndex with
    | .error e => .error e
    | .ok (currWal, curIndex) =>
      if rest = [] then
        .ok { config := config, olderWal := olderWal, activeWal := currWal,
              curIndex := curIndex, fileId := fileId, fileIds := fileIds }
      else loadSegments config disk fileIds rest (olderWal.set fileId currWal) curIndex

/-- The function `NewBitcask` together with `Bitcask.load`: the ids of the
segment files are sorted, every segment is replayed in that order, and with
no segment file a new segment 0 is the active one. -/
def NewBitcask (config : Config) (disk : Disk) : Except Failure Bitcask :=
  let fileIds := (disk.map (fun e => e.1)).insertionSort (fun a b => a ≤ b)
  loadSegments config disk fileIds fileIds [] index.NewBTreeIndex

/-- The method `Bitcask.getWalFile`. -/
def Bitcask.getWalFile (b : Bitcask) (fileId : Nat) : Except GoError WAL :=
  if fileId = b.fileId then .ok b.activeWal
  else
    match b.olderWal.get fileId with
    | none => .error .walNotFound
    | some targetWal => .ok targetWal

/-- The method `Bitcask.checkOverFlow`. -/
def Bitcask.checkOverFlow (b : Bitcask) : Bool :=
  decide ((b.activeWal.GetOffset : Int) > b.config.MaxFileSize)

/-- The bytes of the segment file with the given id while the engine runs:
every segment file of the directory is held by a handle of the engine. -/
def Bitcask.file (b : Bitcask) (fileId : Nat) : Option (List Byte) :=
  if fileId = b.activeWal.GetFileID then some b.activeWal.fileIo.File.bytes
  else (b.olderWal.get fileId).map (fun w => w.fileIo.File.bytes)

/-- The method `Bitcask.tryCreateNewWalFile` (sync and open succeed). -/
def Bitcask.tryCreateNewWalFile (b : Bitcask) : Bitcask :=
  if !b.checkOverFlow then b
  else
    let newWal := NewWAL (b.file (b.fileId + 1)) (b.fileId + 1)
    { b with olderWal := b.olderWal.set b.fileId b.activeWal,
             fileId := b.fileId + 1,
             activeWal := newWal }

/-- The method `Bitcask.Put`: the engine after the call and the returned error. -/
def Bitcask.Put (b : Bitcask) (key value : List Byte) : Bitcask × Option GoError :=
  let r := b.activeWal.Append key value record.RecordTypeNormal
  let b1 := { b with activeWal := r.1 }
  match b1.curIndex.Put key (some r.2) with
  | .error e => (b1, some e)
  | .ok idx => (({ b1 with curIndex := idx } : Bitcask).tryCreateNewWalFile, none)

/-- The method `Bitcask.Del`: the engine after the call and the returned error. -/
def Bitcask.Del (b : Bitcask) (key : List Byte) : Bitcask × Option GoError :=
  let r := b.activeWal.Append key [] record.RecordTypeDeleted
  let b1 := { b with activeWal := r.1 }
  match b1.curIndex.Delete key with
  | .error e => (b1, some e)
  | .ok idx => (({ b1 with curIndex := idx } : Bitcask).tryCreateNewWalFile, none)

/-- The method `Bitcask.Get`: `.ok (some v)` is `(v, true)`, `.ok none` is
`(nil, false)`.  The field access on the header that `FromBytes` returns
panics when that header is nil. -/
def Bitcask.Get (b : Bitcask) (key : List Byte) : Except GoPanic (Option (List Byte)) :=
  match b.curIndex.Get key with
  | .error _ => .ok none
  | .ok pos =>
    match b.getWalFile pos.FileID with
    | .error _ => .ok none
    | .ok walFile =>
      match walFile.ReadAt pos.Offset pos.Size with
      | .error _ => .ok none
      | .ok value =>
        match record.FromBytes value with
        | .error p => .error p
        | .ok none => .error .nilDeref
        | .ok (some header) =>
          if header.RecordType = record.RecordTypeDeleted then .ok none
          else .ok (some header.Value)

/-- The method `Bitcask.Close`: what the directory holds once the handles
are closed. -/
def Bitcask.Close (b : Bitcask) : Disk :=
  (b.olderWal.map (fun e => (e.1, e.2.fileIo.File.bytes)))
    ++ [(b.activeWal.GetFileID, b.activeWal.fileIo.File.bytes)]

/-- One call of the write interface. -/
inductive Op where
  | put (key value : List Byte)
  | del (key : List Byte)
  deriving DecidableEq, Repr

/-- The engine after one call. -/
def Bitcask.step (b : Bitcask) : Op → Bitcask
  | .put key value => (b.Put key value).1
  | .del key => (b.Del key).1

/-- The engine after a sequence of calls, whatever each call returns. -/
def Bitcask.run (b : Bitcask) (ops : List Op) : Bitcask := ops.foldl Bitcask.step b

end bitcask

/-! ## Vocabulary of the statements -/

namespace binary

/-- The four bytes of `v`, most significant first. -/
def be4 (v : Nat) : List Byte := [byte (v >>> 24), byte (v >>> 16), byte (v >>> 8), byte v]

/-- The unsigned integer that a byte string denotes, most significant byte
first. -/
def bigEndian (b : List Byte) : Nat := b.foldl (fun acc x => acc * 256 + x.val) 0

end binary

namespace record

/-- The buffer with bit `i` flipped, bits counted from the least significant
bit of byte 0 (bit `i` is bit `i % 8` of byte `i / 8`). -/
def flipBit : List Byte → Nat → List Byte
  | [], _ => []
  | b :: bs, i => if i < 8 then byte (b.val ^^^ 2 ^ i) :: bs else b :: flipBit bs (i - 8)

/-- The buffer with its last four bytes replaced by `c`. -/
def replaceCrc (buf c : List Byte) : List Byte := buf.take (buf.length - 4) ++ c

/-- The length of the encoding of a record with this key and value. -/
def encodedLen (key value : List Byte) : Nat := 13 + key.length + value.length

end record

namespace wal

/-- A sequence of `Append` calls on one handle: the handle after the calls
and the returned positions, in order. -/
def WAL.appendAll (w : WAL) : List (List Byte × List Byte × record.RecordType) →
    WAL × List record.Pos
  | [] => (w, [])
  | r :: rest =>
    let a := w.Append r.1 r.2.1 r.2.2
    let b := WAL.appendAll a.1 rest
    (b.1, a.2 :: b.2)

/-- The positions that consecutive records take from `offset` on in the
segment `fileID`. -/
def consecutive (fileID : Nat) (offset : Nat) :
    List (List Byte × List Byte × record.RecordType) → List record.Pos
  | [] => []
  | r :: rest =>
    { FileID := fileID, Offset := offset, Size := 13 + r.1.length + r.2.1.length }
      :: consecutive fileID (offset + (13 + r.1.length + r.2.1.length)) rest

/-- The handle writes where its cached offset says: the cursor and the cached
offset both stand at the end of the file. -/
def WAL.AtEnd (w : WAL) : Prop :=
  w.fileIo.File.cursor = w.fileIo.File.bytes.length
    ∧ w.fileIo.Offset = w.fileIo.File.bytes.length

end wal

namespace bitcask

/-- The key of a call. -/
def Op.key : Op → List Byte
  | .put key _ => key
  | .del key => key

/-- The most recent call on `key` in a sequence of calls. -/
def lastOp (ops : List Op) (key : List Byte) : Option Op :=
  ops.reverse.find? (fun op => op.key = key)

/-- What `Get(key)` is to return after a sequence of calls: the value of the
most recent `Put` on the key when no `Del` on the key is more recent. -/
def expectedGet (ops : List Op) (key : List Byte) : Option (List Byte) :=
  match lastOp ops key with
  | some (.put _ value) => some value
  | _ => none

end bitcask

namespace bitcask

/-- The contents of a store as a map from keys to values, after one more call. -/
def applyOp (m : List Byte → Option (List Byte)) : Op → List Byte → Option (List Byte)
  | .put key value, j => if j = key then some value else m j
  | .del key, j => if j = key then none else m j

/-- The engine agrees with the map `m` from keys to values: the active handle
writes at the end of the segment with the active id, the sealed segments have
smaller ids, the index holds exactly the keys of `m`, and the position of a
key leads to the bytes of the `Normal` record of that key and its value. -/
structure Bitcask.Sound (b : Bitcask) (m : List Byte → Option (List Byte)) : Prop where
  active_id : b.activeWal.fileIo.FileID = b.fileId
  active_end : b.activeWal.AtEnd
  older_lt : ∀ id w, b.olderWal.get id = some w → id < b.fileId
  absent : ∀ k, b.curIndex.items.Get k = none → m k = none
  present : ∀ k item, b.curIndex.items.Get k = some item →
    ∃ v w, m k = some v ∧ b.getWalFile item.pos.FileID = .ok w
      ∧ w.ReadAt item.pos.Offset item.pos.Size
          = .ok (record.Header.ToBytes
              { Key := k, Value := v, RecordType := record.RecordTypeNormal })
  empty : m [] = none

/-- The engine that `NewBitcask` returns on an empty directory. -/
def freshEngine (config : Config) : Bitcask :=
  { config := config, olderWal := [], activeWal := wal.NewWAL none 0,
    curIndex := index.NewBTreeIndex, fileId := 0, fileIds := [] }

/-- The record that the index entry of `key` leads to: the position of the
key, the segment with the file id of the position, the bytes of the position
in that segment, and what `FromBytes` makes of them. -/
def Bitcask.indexedRecord (b : Bitcask) (key : List Byte) :
    Except GoError (Except GoPanic (Option record.Header)) :=
  match b.curIndex.Get key with
  | .error e => .error e
  | .ok pos =>
    match b.getWalFile pos.FileID with
    | .error e => .error e
    | .ok walFile =>
      match walFile.ReadAt pos.Offset pos.Size with
      | .error e => .error e
      | .ok value => .ok (record.FromBytes value)

/-- The engine that `NewBitcask` returns on the directory that the engine
`b` leaves when it is closed. -/
def Bitcask.reopen (b : Bitcask) : Except Failure Bitcask := NewBitcask b.config b.Close

end bitcask

/-! ## Vocabulary of the statements on replay -/

namespace wal

/-- The bytes of a segment that holds the encodings of these records, in
order. -/
def encodeAll : List record.Header → List Byte
  | [] => []
  | r :: rest => r.ToBytes ++ encodeAll rest

/-- What replay does to the index for one record that starts at `offset` in
the segment `fileID`: a `Normal` record maps its key to its position, a
tombstone removes its key, any other type changes nothing.  The index calls
can return an error. -/
def applyRecord (fileID offset : Nat) (r : record.Header) (idx : index.BTreeIndex) :
    Except GoError index.BTreeIndex :=
  if r.RecordType = record.RecordTypeNormal then
    idx.Put r.Key (some { FileID := fileID, Offset := offset,
                          Size := 13 + r.Key.length + r.Value.length })
  else if r.RecordType = record.RecordTypeDeleted then idx.Delete r.Key
  else .ok idx

/-- The index updated in order by records that lie one after the other from
`offset` on, up to the first index call that returns an error. -/
def replay (fileID : Nat) : Nat → List record.Header → index.BTreeIndex →
    Except GoError index.BTreeIndex
  | _, [], idx => .ok idx
  | offset, r :: rest, idx =>
    match applyRecord fileID offset r idx with
    | .error e => .error e
    | .ok idx1 => replay fileID (offset + (13 + r.Key.length + r.Value.length)) rest idx1

/-- The index with the update of one record: the key of a `Normal` record is
mapped to the position of the record, the key of a tombstone is removed. -/
def updateOne (fileID offset : Nat) (r : record.Header) (idx : index.BTreeIndex) :
    index.BTreeIndex :=
  if r.RecordType = record.RecordTypeNormal then
    { items := idx.items.ReplaceOrInsert
        { key := r.Key, pos := { FileID := fileID, Offset := offset,
                                 Size := 13 + r.Key.length + r.Value.length } } }
  else if r.RecordType = record.RecordTypeDeleted then { items := (idx.items.Delete r.Key).2 }
  else idx

/-- The index updated in order by consecutive records. -/
def updateAll (fileID : Nat) : Nat → List record.Header → index.BTreeIndex →
    index.BTreeIndex
  | _, [], idx => idx
  | offset, r :: rest, idx =>
    updateAll fileID (offset + (13 + r.Key.length + r.Value.length)) rest
      (updateOne fileID offset r idx)

/-- Every record has a non-empty key, and the key of each tombstone is in the
index when the tombstone is reached. -/
def Replayable (fileID : Nat) : Nat → List record.Header → index.BTreeIndex → Prop
  | _, [], _ => True
  | offset, r :: rest, idx =>
    r.Key ≠ []
    ∧ (r.RecordType = record.RecordTypeDeleted → (idx.items.Get r.Key).isSome = true)
    ∧ Replayable fileID (offset + (13 + r.Key.length + r.Value.length)) rest
        (updateOne fileID offset r idx)

/-- Every record is shorter than `2^32` bytes when encoded. -/
def AllSmall (recs : List record.Header) : Prop :=
  ∀ r ∈ recs, 13 + r.Key.length + r.Value.length < 2 ^ 32

end wal


/-! ## Vocabulary of the statements on rotation and recovery -/

namespace bitcask

open wal

/-- One call of the write interface: the engine after the call and the error
that the call returns. -/
def Bitcask.call (b : Bitcask) : Op → Bitcask × Option GoError
  | .put key value => b.Put key value
  | .del key => b.Del key

/-- The active segment after the append of a call, before the index update
and the rotation check. -/
def Bitcask.appended (b : Bitcask) : Op → WAL
  | .put key value => (b.activeWal.Append key value record.RecordTypeNormal).1
  | .del key => (b.activeWal.Append key [] record.RecordTypeDeleted).1

/-- The engine states that are reached from `NewBitcask`, on a directory
whose segment files have distinct ids, through `Put` and `Del` calls. -/
inductive Reachable : Bitcask → Prop
  | opened (config : Config) (disk : Disk) (b : Bitcask) :
    (disk.map (fun e => e.1)).Nodup → NewBitcask config disk = .ok b → Reachable b
  | call (b : Bitcask) (op : Op) : Reachable b → Reachable (b.call op).1

/-- The active handle is the handle of the active id, and every id of the
sealed-segments map is below the active id. -/
def Bitcask.Ordered (b : Bitcask) : Prop :=
  b.activeWal.GetFileID = b.fileId ∧ ∀ id, (b.olderWal.get id).isSome = true → id < b.fileId

/-- The length of the encoded record that a call appends. -/
def Op.recordLen : Op → Nat
  | .put key value => 13 + key.length + value.length
  | .del key => 13 + key.length

/-- The largest encoded record size that a sequence of calls writes. -/
def largestRecord (ops : List Op) : Nat := (ops.map Op.recordLen).foldl max 0

/-- The engine after each call of a sequence, in order. -/
def Bitcask.trace (b : Bitcask) : List Op → List Bitcask
  | [] => []
  | op :: ops => (b.call op).1 :: Bitcask.trace (b.call op).1 ops

end bitcask

/-! ## A directory with two segments -/

namespace bitcask

open wal

/-- A directory with segment 5 (the record of key "b", value "2") and segment
2 (the record of key "a", value "1"), listed in this order. -/
def twoSegments : Disk :=
  [(5, record.Header.ToBytes ⟨[98], [50], 0⟩), (2, record.Header.ToBytes ⟨[97], [49], 0⟩)]

/-- The engine after recovery on `twoSegments` with `MaxFileSize = 10`. -/
def twoSegmentsEngine : Bitcask :=
  { config := ⟨10⟩,
    olderWal := [(2, (NewWAL (some (record.Header.ToBytes ⟨[97], [49], 0⟩)) 2).SetOffset 15)],
    activeWal := (NewWAL (some (record.Header.ToBytes ⟨[98], [50], 0⟩)) 5).SetOffset 15,
    curIndex := ⟨⟨[⟨[97], ⟨2, 0, 15⟩⟩, ⟨[98], ⟨5, 0, 15⟩⟩]⟩⟩,
    fileId := 5,
    fileIds := [2, 5] }

end bitcask

/-! ## Vocabulary of the statements on the index -/

namespace index

/-- One call that changes the index. -/
inductive IndexOp where
  | put (key : List Byte) (pos : record.Pos)
  | delete (key : List Byte)
  deriving DecidableEq, Repr

/-- The key of a call. -/
def IndexOp.key : IndexOp → List Byte
  | .put key _ => key
  | .delete key => key

/-- The index after one call, whatever the call returns: a call that returns
an error leaves the index as it is. -/
def BTreeIndex.apply (idx : BTreeIndex) : IndexOp → BTreeIndex
  | .put key pos =>
    match idx.Put key (some pos) with
    | .ok idx1 => idx1
    | .error _ => idx
  | .delete key =>
    match idx.Delete key with
    | .ok idx1 => idx1
    | .error _ => idx

/-- The index after a sequence of calls. -/
def BTreeIndex.runOps (idx : BTreeIndex) (ops : List IndexOp) : BTreeIndex :=
  ops.foldl BTreeIndex.apply idx

/-- The most recent call on `key` in a sequence of calls. -/
def lastIndexOp (ops : List IndexOp) (key : List Byte) : Option IndexOp :=
  ops.reverse.find? (fun op => op.key = key)

/-- The finite map that a sequence of calls describes: the position given to
the most recent `Put` on the key when no `Delete` on the key is more
recent. -/
def expectedPos (ops : List IndexOp) (key : List Byte) : Option record.Pos :=
  match lastIndexOp ops key with
  | some (.put _ pos) => some pos
  | _ => none

/-- The cursor read with `Key` and `Value` and advanced with `Next` while it
is valid, at most `fuel` times: the pairs that were read, in order, and the
cursor at the end. -/
def drain : Nat → BTreeIterator →
    Except GoPanic (List (List Byte × Option record.Pos) × BTreeIterator)
  | 0, iter => .ok ([], iter)
  | fuel + 1, iter =>
    if iter.Valid then
      match iter.Next with
      | .error p => .error p
      | .ok next =>
        match drain fuel next with
        | .error p => .error p
        | .ok (rest, last) => .ok ((iter.Key, iter.Value) :: rest, last)
    else .ok ([], iter)

end index

/-! ## Vocabulary of the statements on cursors -/

namespace index

/-- A cursor on the snapshot of the index `idx`, in any position. -/
def cursorAt (idx : BTreeIndex) (currItem : Option indexItem) (currIndex : Int) :
    BTreeIterator :=
  { currItem := currItem, items := idx.items.items, currIndex := currIndex }

/-- One call that moves a cursor. -/
inductive CursorOp where
  | next
  | prev
  | seek (key : List Byte)
  deriving DecidableEq, Repr

/-- The cursor after one call. -/
def BTreeIterator.step (iter : BTreeIterator) : CursorOp → Except GoPanic BTreeIterator
  | .next => iter.Next
  | .prev => iter.Prev
  | .seek key => .ok (iter.Seek key)

/-- The cursor after a sequence of calls. -/
def BTreeIterator.run (iter : BTreeIterator) : List CursorOp → Except GoPanic BTreeIterator
  | [] => .ok iter
  | op :: ops =>
    match iter.step op with
    | .error p => .error p
    | .ok next => BTreeIterator.run next ops

/-- The index of the tests of the cursor: the keys "a", "b" and "c". -/
def abcIndex : BTreeIndex :=
  NewBTreeIndex.runOps [.put [97] ⟨1, 100, 100⟩, .put [98] ⟨1, 200, 100⟩,
    .put [99] ⟨1, 300, 100⟩]

end index

/-! ## The calls on the index with the index they leave -/

namespace index

/-- The method `BTreeIndex.Put` as a call on the index: the index after the
call and the returned error. -/
def BTreeIndex.putCall (idx : BTreeIndex) (key : List Byte) (pos : Option record.Pos) :
    BTreeIndex × Option GoError :=
  if key.length = 0 then (idx, some .keyEmpty)
  else
    match pos with
    | none => (idx, some .posNil)
    | some p => ({ items := idx.items.ReplaceOrInsert { key := key, pos := p } }, none)

/-- The method `BTreeIndex.Delete` as a call on the index: the index after the
call, which holds the tree after `Delete` of the library, and the returned
error. -/
def BTreeIndex.deleteCall (idx : BTreeIndex) (key : List Byte) : BTreeIndex × Option GoError :=
  if key.length = 0 then (idx, some .keyEmpty)
  else
    let r := idx.items.Delete key
    match r.1 with
    | none => ({ items := r.2 }, some .keyNotFound)
    | some _ => ({ items := r.2 }, none)

end index

/-! ## Vocabulary of the statements on rejected calls -/

namespace bitcask

/-- The record that a call appends. -/
def Op.record : Op → record.Header
  | .put key value => ⟨key, value, record.RecordTypeNormal⟩
  | .del key => ⟨key, [], record.RecordTypeDeleted⟩

end bitcask

/-! ## The names of the segment files -/

namespace bitcask

/-- The character of the decimal digit `d`. -/
def digitChar (d : Nat) : Char := Char.ofNat (48 + d)

/-- The decimal digits of `n`, most significant first, as the formatting loop
of package `fmt` writes them; `fuel` bounds the number of digits. -/
def toDecimal : Nat → Nat → List Char
  | 0, _ => []
  | fuel + 1, n =>
    if n < 10 then [digitChar n] else toDecimal fuel (n / 10) ++ [digitChar (n % 10)]

/-- The verb `%09d` of `fmt.Sprintf` on a non-negative integer: its decimal
digits, padded with zeros on the left to at least nine characters. -/
def sprintf09d (n : Nat) : List Char :=
  List.replicate (9 - (toDecimal (n + 1) n).length) (digitChar 0) ++ toDecimal (n + 1) n

/-- The string "data_". -/
def dataLit : List Char := [Char.ofNat 100, Char.ofNat 97, Char.ofNat 116, Char.ofNat 97,
  Char.ofNat 95]

/-- The string ".wal". -/
def walLit : List Char := [Char.ofNat 46, Char.ofNat 119, Char.ofNat 97, Char.ofNat 108]

/-- The function `getWalFileName`; the file ids of the model are not
negative. -/
def getWalFileName (fileId : Nat) : List Char := dataLit ++ sprintf09d fileId ++ walLit

/-- The value of a decimal digit character, if it is one. -/
def digitVal (c : Char) : Option Nat :=
  if 48 ≤ c.toNat ∧ c.toNat ≤ 57 then some (c.toNat - 48) else none

/-- The digit loop of `strconv.ParseUint` in base 10, from the value `acc`
on: no result when a character is not a decimal digit. -/
def parseDigits : Nat → List Char → Option Nat
  | acc, [] => some acc
  | acc, c :: cs =>
    match digitVal c with
    | none => none
    | some d => parseDigits (acc * 10 + d) cs

/-- The function `strconv.ParseUint(s, 10, 64)`; `none` is an error (empty
string, a character that is no digit, or a value of `2^64` or more). -/
def parseUint (s : List Char) : Option Nat :=
  if s = [] then none
  else
    match parseDigits 0 s with
    | none => none
    | some v => if v < 2 ^ 64 then some v else none

/-- The function `strconv.ParseInt(s, 10, 64)`; `none` is an error. -/
def parseInt (s : List Char) : Option Int :=
  match s with
  | [] => none
  | c :: rest =>
    if c = Char.ofNat 43 then
      match parseUint rest with
      | none => none
      | some v => if v < 2 ^ 63 then some (v : Int) else none
    else if c = Char.ofNat 45 then
      match parseUint rest with
      | none => none
      | some v => if v ≤ 2 ^ 63 then some (-(v : Int)) else none
    else
      match parseUint s with
      | none => none
      | some v => if v < 2 ^ 63 then some (v : Int) else none

/-- The function `strings.TrimPrefix`. -/
def trimStart (s lit : List Char) : List Char :=
  if lit.isPrefixOf s then s.drop lit.length else s

/-- The function `strings.TrimSuffix`. -/
def trimEnd (s lit : List Char) : List Char :=
  if lit.isSuffixOf s then s.take (s.length - lit.length) else s

/-- What the loop of `Bitcask.load` makes of the name of a directory entry
that is a file: `none` when the name is skipped, `some none` when `load`
returns the invalid-name error, and the file id otherwise. -/
def parseWalFileName (name : List Char) : Option (Option Int) :=
  if !dataLit.isPrefixOf name || !walLit.isSuffixOf name then none
  else some (parseInt (trimEnd (trimStart name dataLit) walLit))

end bitcask

/-! ## Vocabulary of the statements on the number of segments -/

namespace utils

/-- The function `GenerateKey`: `fmt.Sprintf("key-%09d", index)` as bytes,
for an index that is not negative. -/
def GenerateKey (index : Nat) : List Byte :=
  ([Char.ofNat 107, Char.ofNat 101, Char.ofNat 121, Char.ofNat 45]
    ++ bitcask.sprintf09d index).map (fun c => byte c.toNat)

end utils

namespace bitcask

open wal

/-- The calls of `TestBitcask`: `Put` of `GenerateKey(i)` for `i` from 0 to
119, each with a value of ten bytes (the test draws them at random; here the
digits "0123456789"). -/
def testPuts : List (List Byte × List Byte) :=
  (List.range 120).map (fun i => (utils.GenerateKey i, [48, 49, 50, 51, 52, 53, 54, 55, 56, 57]))

/-- A segment holds exactly `count` records, each of `size` bytes. -/
def HoldsRecords (bytes : List Byte) (count size : Nat) : Prop :=
  ∃ recs : List record.Header, recs.length = count
    ∧ (∀ x ∈ recs, 13 + x.Key.length + x.Value.length = size) ∧ bytes = encodeAll recs

/-- The engine with active id `a` whose sealed segments 0, .., `a - 1` hold
`q` records of `s` bytes each and whose active segment holds `r` such
records and is written at its end. -/
structure Bitcask.Filled (b : Bitcask) (s q a r : Nat) : Prop where
  file_id : b.fileId = a
  active_id : b.activeWal.GetFileID = a
  active_end : b.activeWal.AtEnd
  active_recs : HoldsRecords b.activeWal.fileIo.File.bytes r s
  sealed_ids : b.olderWal.map (fun e => e.1) = (List.range a).reverse
  sealed_recs : ∀ e ∈ b.olderWal, HoldsRecords e.2.fileIo.File.bytes q s

end bitcask

/-! ## The index and a cursor with the item objects that they share

The tree of the index and the `items` slice of a cursor hold pointers to
`indexItem` objects: `NewBTreeIterator` copies the pointers, not the objects.
Here the objects live in a heap and a pointer is an address in it. -/

namespace index

/-- The index with its items as objects: the heap holds every `indexItem`
that `Put` has made, at its address, and the tree holds the addresses of its
items in ascending key order. -/
structure PtrIndex where
  heap : List indexItem
  tree : List Nat
  deriving DecidableEq, Repr

/-- The struct `BTreeIterator` with pointers for items. -/
structure PtrIterator where
  currItem : Option Nat
  items : List Nat
  currIndex : Int
  deriving DecidableEq, Repr

/-- The key of the object at an address. -/
def keyAt (heap : List indexItem) (a : Nat) : List Byte :=
  match heap.get? a with
  | some item => item.key
  | none => []

/-- The position of the object at an address. -/
def posAt (heap : List indexItem) (a : Nat) : Option record.Pos :=
  match heap.get? a with
  | some item => some item.pos
  | none => none

/-- The addresses of the tree after `ReplaceOrInsert` of the object at `a`;
the keys are compared through the pointers. -/
def insertPtr (heap : List indexItem) (a : Nat) : List Nat → List Nat
  | [] => [a]
  | x :: xs =>
    if bytesLess (keyAt heap a) (keyAt heap x) then a :: x :: xs
    else if bytesLess (keyAt heap x) (keyAt heap a) then x :: insertPtr heap a xs
    else a :: xs

/-- The function `NewBTreeIndex`. -/
def PtrIndex.New : PtrIndex := { heap := [], tree := [] }

/-- The method `BTreeIndex.Put` with a position that is not nil: a new
`indexItem` object is made and its address goes into the tree. -/
def PtrIndex.Put (o : PtrIndex) (key : List Byte) (pos : record.Pos) :
    PtrIndex × Option GoError :=
  if key.length = 0 then (o, some .keyEmpty)
  else
    let heap := o.heap ++ [{ key := key, pos := pos }]
    ({ heap := heap, tree := insertPtr heap o.heap.length o.tree }, none)

/-- The method `BTreeIndex.Delete`; the item that it makes for the lookup is
not kept. -/
def PtrIndex.Delete (o : PtrIndex) (key : List Byte) : PtrIndex × Option GoError :=
  if key.length = 0 then (o, some .keyEmpty)
  else
    let found := o.tree.find?
      (fun x => !bytesLess key (keyAt o.heap x) && !bytesLess (keyAt o.heap x) key)
    let tree := o.tree.filter
      (fun x => bytesLess key (keyAt o.heap x) || bytesLess (keyAt o.heap x) key)
    match found with
    | none => ({ o with tree := tree }, some .keyNotFound)
    | some _ => ({ o with tree := tree }, none)

/-- The index after one call, whatever the call returns. -/
def PtrIndex.apply (o : PtrIndex) : IndexOp → PtrIndex
  | .put key pos => (o.Put key pos).1
  | .delete key => (o.Delete key).1

/-- The index after a sequence of calls. -/
def PtrIndex.runOps (o : PtrIndex) (ops : List IndexOp) : PtrIndex := ops.foldl PtrIndex.apply o

/-- The function `NewBTreeIterator`: the pointers of the tree are appended to
a new slice. -/
def PtrIndex.Iterator (o : PtrIndex) : PtrIterator :=
  match o.tree with
  | [] => { currItem := none, items := [], currIndex := -1 }
  | first :: rest => { currItem := some first, items := first :: rest, currIndex := 0 }

/-- The index expression `items[i]` on pointers. -/
def ptrAt (items : List Nat) (i : Int) : Except GoPanic Nat :=
  if 0 ≤ i then
    match items.get? i.toNat with
    | some a => .ok a
    | none => .error .indexRange
  else .error .indexRange

/-- The method `BTreeIterator.Prev`. -/
def PtrIterator.Prev (iter : PtrIterator) : Except GoPanic PtrIterator :=
  if iter.currIndex > 0 then
    match ptrAt iter.items (iter.currIndex - 1) with
    | .error p => .error p
    | .ok a => .ok { iter with currIndex := iter.currIndex - 1, currItem := some a }
  else .ok { iter with currItem := none }

/-- The method `BTreeIterator.Next`. -/
def PtrIterator.Next (iter : PtrIterator) : Except GoPanic PtrIterator :=
  if iter.currIndex < (iter.items.length : Int) - 1 then
    match ptrAt iter.items (iter.currIndex + 1) with
    | .error p => .error p
    | .ok a => .ok { iter with currIndex := iter.currIndex + 1, currItem := some a }
  else .ok { iter with currItem := none }

/-- The loop of `BTreeIterator.Seek`, which reads the keys through the
pointers. -/
def seekPtrFrom (heap : List indexItem) (key : List Byte) : Nat → List Nat → Option (Nat × Nat)
  | _, [] => none
  | i, a :: rest =>
    if !bytesLess (keyAt heap a) key then some (i, a) else seekPtrFrom heap key (i + 1) rest

/-- The method `BTreeIterator.Seek`. -/
def PtrIterator.Seek (iter : PtrIterator) (heap : List indexItem) (key : List Byte) :
    PtrIterator :=
  match seekPtrFrom heap key 0 iter.items with
  | some (i, a) => { iter with currIndex := (i : Int), currItem := some a }
  | none => { iter with currItem := none }

/-- The method `BTreeIterator.Valid`. -/
def PtrIterator.Valid (iter : PtrIterator) : Bool := iter.currItem.isSome

/-- The method `BTreeIterator.Key`. -/
def PtrIterator.Key (iter : PtrIterator) (heap : List indexItem) : List Byte :=
  match iter.currItem with
  | none => []
  | some a => keyAt heap a

/-- The method `BTreeIterator.Value`. -/
def PtrIterator.Value (iter : PtrIterator) (heap : List indexItem) : Option record.Pos :=
  match iter.currItem with
  | none => none
  | some a => posAt heap a

/-- The cursor after one call, made while the heap is `heap`. -/
def PtrIterator.step (iter : PtrIterator) (heap : List indexItem) :
    CursorOp → Except GoPanic PtrIterator
  | .next => iter.Next
  | .prev => iter.Prev
  | .seek key => .ok (iter.Seek heap key)

/-- The current pointer of the cursor is one of its items and its index is in
their range or one before: so it is after `Iterator()` and after every call
on the cursor. -/
structure PtrIterator.Sane (iter : PtrIterator) : Prop where
  current : ∀ a, iter.currItem = some a → a ∈ iter.items
  index : -1 ≤ iter.currIndex ∧ iter.currIndex < (iter.items.length : Int)

/-- A call on the index or on the cursor. -/
inductive WorldOp where
  | onIndex (op : IndexOp)
  | onCursor (op : CursorOp)
  deriving DecidableEq, Repr

def WorldOp.isCursor : WorldOp → Bool
  | .onIndex _ => false
  | .onCursor _ => true

/-- What the cursor yields in a sequence of calls on the index and on the
cursor: after each call on the cursor, what `Valid`, `Key` and `Value`
return. -/
def readings : PtrIndex → PtrIterator → List WorldOp →
    Except GoPanic (List (Bool × List Byte × Option record.Pos))
  | _, _, [] => .ok []
  | o, iter, .onIndex op :: rest => readings (o.apply op) iter rest
  | o, iter, .onCursor op :: rest =>
    match iter.step o.heap op with
    | .error p => .error p
    | .ok next =>
      match readings o next rest with
      | .error p => .error p
      | .ok obs => .ok ((next.Valid, next.Key o.heap, next.Value o.heap) :: obs)

/-- The index of the other sections that an index with objects stands for:
each pointer of the tree replaced by the object it points to. -/
def PtrIndex.deref (o : PtrIndex) : BTreeIndex :=
  { items := { items := o.tree.filterMap (fun a => o.heap.get? a) } }

/-- The cursor of the other sections that a cursor with pointers stands
for. -/
def PtrIterator.deref (iter : PtrIterator) (heap : List indexItem) : BTreeIterator :=
  { currItem := iter.currItem.bind (fun a => heap.get? a),
    items := iter.items.filterMap (fun a => heap.get? a),
    currIndex := iter.currIndex }

end index

/-! ## The file id as an `int64` -/

namespace bitcask

/-- The statement `b.fileId++` of `tryCreateNewWalFile` on the `int64` file
id: the increment wraps at `2^63 - 1`.  The engine of this file counts its
ids in the natural numbers, which is the same while the ids stay below
`2^63`. -/
def nextFileId (fileId : Int) : Int := (fileId + 1 + 2 ^ 63) % 2 ^ 64 - 2 ^ 63

/-- A directory in which two file names give the id 12, such as `data_12.wal`
beside `data_000000012.wal`; both files are empty. -/
def duplicateIds : Disk := [(12, []), (12, [])]

end bitcask

/-! # Theorems -/

/-! ## Slices and big-endian integers -/

namespace GoSlice

theorem sub_mid (p w s : List Byte) (lo hi : Nat) (hlo : lo = p.length)
    (hhi : hi = p.length + w.length) : sub (p ++ w ++ s) lo hi = w := by
  subst hlo hhi
  simp [sub, List.take_append_eq_append_take, List.take_of_length_le]

theorem store_mid (p w s w' : List Byte) (lo hi : Nat) (hlo : lo = p.length)
    (hhi : hi = p.length + w.length) : store (p ++ w ++ s) lo hi w' = p ++ w' ++ s := by
  subst hlo hhi
  simp [store, List.take_append_eq_append_take, List.take_of_length_le,
    List.drop_append_eq_append_drop, List.drop_of_length_le]

theorem sub_end (p w : List Byte) (lo hi : Nat) (hlo : lo = p.length)
    (hhi : hi = p.length + w.length) : sub (p ++ w) lo hi = w := by
  simpa using sub_mid p w [] lo hi hlo hhi

theorem store_end (p w w' : List Byte) (lo hi : Nat) (hlo : lo = p.length)
    (hhi : hi = p.length + w.length) : store (p ++ w) lo hi w' = p ++ w' := by
  simpa using store_mid p w [] w' lo hi hlo hhi

theorem sub_start (w s : List Byte) (hi : Nat) (hhi : hi = w.length) :
    sub (w ++ s) 0 hi = w := by
  subst hhi
  simp [sub]

theorem copy_full (dst src : List Byte) (h : dst.length = src.length) : copy dst src = src := by
  simp [copy, h]

theorem slice_ok (s : List Byte) (lo hi : Nat) (h1 : lo ≤ hi) (h2 : hi ≤ s.length) :
    GoSlice.slice s lo hi = .ok (sub s lo hi) := by
  simp [GoSlice.slice, h1, h2]

end GoSlice

namespace binary

theorem byte_val (n : Nat) : (byte n).val = n % 256 := rfl

theorem be4_length (v : Nat) : (be4 v).length = 4 := rfl

theorem PutUint32_four (b0 b1 b2 b3 : Byte) (v : Nat) :
    PutUint32 [b0, b1, b2, b3] v = be4 v := by
  simp [PutUint32, be4]

theorem Uint32_be4 (v : Nat) (rest : List Byte) :
    Uint32 (be4 v ++ rest) = .ok (v % 2 ^ 32) := by
  simp only [be4, Uint32, List.cons_append, List.nil_append, byte_val]
  congr 1
  apply Nat.eq_of_testBit_eq
  intro i
  have h256 : (256 : Nat) = 2 ^ 8 := rfl
  simp only [h256, Nat.testBit_or, Nat.testBit_shiftLeft, Nat.testBit_mod_two_pow,
    Nat.testBit_shiftRight]
  have e8 : 8 ≤ i → 8 + (i - 8) = i := fun h => by omega
  have e16 : 16 ≤ i → 16 + (i - 16) = i := fun h => by omega
  have e24 : 24 ≤ i → 24 + (i - 24) = i := fun h => by omega
  by_cases h1 : i < 8
  · simp [h1, show ¬ 8 ≤ i by omega, show ¬ 16 ≤ i by omega, show ¬ 24 ≤ i by omega,
      show i < 32 by omega]
  · by_cases h2 : i < 16
    · simp [h1, e8 (by omega), show 8 ≤ i by omega, show ¬ 16 ≤ i by omega,
        show ¬ 24 ≤ i by omega, show i < 32 by omega, show i - 8 < 8 by omega]
    · by_cases h3 : i < 24
      · simp [h1, e16 (by omega), show 8 ≤ i by omega, show 16 ≤ i by omega,
          show ¬ 24 ≤ i by omega, show i < 32 by omega, show ¬ i - 8 < 8 by omega,
          show i - 16 < 8 by omega]
      · by_cases h4 : i < 32
        · simp [h1, h4, e24 (by omega), show 8 ≤ i by omega, show 16 ≤ i by omega,
            show 24 ≤ i by omega, show ¬ i - 8 < 8 by omega, show ¬ i - 16 < 8 by omega,
            show i - 24 < 8 by omega]
        · simp [h1, h4, show 8 ≤ i by omega, show 16 ≤ i by omega,
            show 24 ≤ i by omega, show ¬ i - 8 < 8 by omega, show ¬ i - 16 < 8 by omega,
            show ¬ i - 24 < 8 by omega]

theorem bigEndian_four (b0 b1 b2 b3 : Byte) :
    bigEndian [b0, b1, b2, b3]
      = b0.val * 2 ^ 24 + b1.val * 2 ^ 16 + b2.val * 2 ^ 8 + b3.val := by
  simp only [bigEndian, List.foldl]
  omega

theorem bigEndian_be4 (v : Nat) : bigEndian (be4 v) = v % 2 ^ 32 := by
  simp only [be4, bigEndian_four, byte_val, Nat.shiftRight_eq_div_pow]
  omega

theorem be4_bigEndian (b0 b1 b2 b3 : Byte) : be4 (bigEndian [b0, b1, b2, b3]) = [b0, b1, b2, b3] := by
  have h0 := b0.isLt
  have h1 := b1.isLt
  have h2 := b2.isLt
  have h3 := b3.isLt
  simp only [be4, bigEndian_four, Nat.shiftRight_eq_div_pow]
  congr 1
  · apply Fin.ext; simp only [byte_val]; omega
  congr 1
  · apply Fin.ext; simp only [byte_val]; omega
  congr 1
  · apply Fin.ext; simp only [byte_val]; omega
  congr 1
  · apply Fin.ext; simp only [byte_val]; omega

theorem bigEndian_four_lt (b0 b1 b2 b3 : Byte) : bigEndian [b0, b1, b2, b3] < 2 ^ 32 := by
  have h0 := b0.isLt
  have h1 := b1.isLt
  have h2 := b2.isLt
  have h3 := b3.isLt
  rw [bigEndian_four]
  omega

/-- On four bytes `Uint32` reads the big-endian integer. -/
theorem Uint32_four (b0 b1 b2 b3 : Byte) (rest : List Byte) :
    Uint32 ([b0, b1, b2, b3] ++ rest) = .ok (bigEndian [b0, b1, b2, b3]) := by
  have h := Uint32_be4 (bigEndian [b0, b1, b2, b3]) rest
  rw [be4_bigEndian, Nat.mod_eq_of_lt (bigEndian_four_lt b0 b1 b2 b3)] at h
  exact h

theorem four_bytes (c : List Byte) (hc : c.length = 4) :
    ∃ b0 b1 b2 b3, c = [b0, b1, b2, b3] := by
  match c, hc with
  | [b0, b1, b2, b3], _ => exact ⟨b0, b1, b2, b3, rfl⟩

theorem Uint32_of_length (c rest : List Byte) (hc : c.length = 4) :
    Uint32 (c ++ rest) = .ok (bigEndian c) := by
  obtain ⟨b0, b1, b2, b3, rfl⟩ := four_bytes c hc
  exact Uint32_four b0 b1 b2 b3 rest

theorem bigEndian_inj (c d : List Byte) (hc : c.length = 4) (hd : d.length = 4)
    (h : bigEndian c = bigEndian d) : c = d := by
  obtain ⟨b0, b1, b2, b3, rfl⟩ := four_bytes c hc
  obtain ⟨a0, a1, a2, a3, rfl⟩ := four_bytes d hd
  rw [← be4_bigEndian b0 b1 b2 b3, ← be4_bigEndian a0 a1 a2 a3, h]

end binary

/-! ## The checksum -/

namespace crc32

theorem step_lt (c : Nat) (h : c < 2 ^ 32) : step c < 2 ^ 32 := by
  unfold step
  split
  · exact Nat.xor_lt_two_pow (by omega) (by decide)
  · omega

theorem update_lt (c : Nat) (b : Byte) (h : c < 2 ^ 32) : update c b < 2 ^ 32 := by
  unfold update
  have hb : c ^^^ b.val < 2 ^ 32 := Nat.xor_lt_two_pow h (by have := b.isLt; omega)
  exact step_lt _ (step_lt _ (step_lt _ (step_lt _ (step_lt _ (step_lt _ (step_lt _
    (step_lt _ hb)))))))

theorem foldl_update_lt (data : List Byte) (c : Nat) (h : c < 2 ^ 32) :
    data.foldl update c < 2 ^ 32 := by
  induction data generalizing c with
  | nil => exact h
  | cons b rest ih => exact ih _ (update_lt c b h)

theorem ChecksumIEEE_lt (data : List Byte) : ChecksumIEEE data < 2 ^ 32 := by
  unfold ChecksumIEEE
  exact Nat.xor_lt_two_pow (foldl_update_lt data _ (by decide)) (by decide)

/-- With the top bit of the polynomial set, a shifted register xored with it
has bit 31 set. -/
theorem xor_IEEE_ge (x : Nat) (hx : x < 2 ^ 31) : 2 ^ 31 ≤ x ^^^ IEEE := by
  apply Nat.testBit_implies_ge
  rw [Nat.testBit_xor, Nat.testBit_lt_two_pow hx]
  decide

/-- One shift of the register loses no information. -/
theorem step_inj (c d : Nat) (hc : c < 2 ^ 32) (hd : d < 2 ^ 32) (h : step c = step d) :
    c = d := by
  unfold step at h
  have gc := xor_IEEE_ge (c / 2) (by omega)
  have gd := xor_IEEE_ge (d / 2) (by omega)
  split at h <;> split at h
  · have := Nat.xor_left_inj.mp h
    omega
  · omega
  · omega
  · omega

theorem update_inj (c d : Nat) (x y : Byte) (hc : c < 2 ^ 32) (hd : d < 2 ^ 32)
    (h : update c x = update d y) : c ^^^ x.val = d ^^^ y.val := by
  unfold update at h
  have hx : c ^^^ x.val < 2 ^ 32 := Nat.xor_lt_two_pow hc (by have := x.isLt; omega)
  have hy : d ^^^ y.val < 2 ^ 32 := Nat.xor_lt_two_pow hd (by have := y.isLt; omega)
  have s1 := step_lt _ hx
  have t1 := step_lt _ hy
  have s2 := step_lt _ s1
  have t2 := step_lt _ t1
  have s3 := step_lt _ s2
  have t3 := step_lt _ t2
  have s4 := step_lt _ s3
  have t4 := step_lt _ t3
  have s5 := step_lt _ s4
  have t5 := step_lt _ t4
  have s6 := step_lt _ s5
  have t6 := step_lt _ t5
  have s7 := step_lt _ s6
  have t7 := step_lt _ t6
  exact step_inj _ _ hx hy (step_inj _ _ s1 t1 (step_inj _ _ s2 t2 (step_inj _ _ s3 t3
    (step_inj _ _ s4 t4 (step_inj _ _ s5 t5 (step_inj _ _ s6 t6 (step_inj _ _ s7 t7 h)))))))

theorem foldl_update_inj (data : List Byte) (c d : Nat) (hc : c < 2 ^ 32) (hd : d < 2 ^ 32)
    (h : data.foldl update c = data.foldl update d) : c = d := by
  induction data generalizing c d with
  | nil => exact h
  | cons b rest ih =>
    have := ih _ _ (update_lt c b hc) (update_lt d b hd) h
    exact Nat.xor_left_inj.mp (update_inj c d b b hc hd this)

/-- Two messages that differ in exactly one byte have different checksums. -/
theorem ChecksumIEEE_one_byte (p s : List Byte) (x y : Byte) (hxy : x ≠ y) :
    ChecksumIEEE (p ++ x :: s) ≠ ChecksumIEEE (p ++ y :: s) := by
  intro h
  unfold ChecksumIEEE at h
  have h1 := Nat.xor_left_inj.mp h
  rw [List.foldl_append, List.foldl_append, List.foldl_cons, List.foldl_cons] at h1
  have hp : List.foldl update 0xFFFFFFFF p < 2 ^ 32 := foldl_update_lt p _ (by decide)
  have h2 := foldl_update_inj s _ _ (update_lt _ x hp) (update_lt _ y hp) h1
  have h3 := Nat.xor_right_inj.mp (update_inj _ _ x y hp hp h2)
  exact hxy (Fin.ext h3)

end crc32

/-! ## The record codec -/

namespace record
open GoSlice

/-- The layout of an encoded record, as one concatenation. -/
theorem ToBytes_eq (h : Header) :
    h.ToBytes = [h.RecordType] ++ binary.be4 (h.Key.length % 2 ^ 32)
      ++ binary.be4 (h.Value.length % 2 ^ 32) ++ h.Key ++ h.Value
      ++ binary.be4 (crc32.ChecksumIEEE ([h.RecordType] ++ binary.be4 (h.Key.length % 2 ^ 32)
      ++ binary.be4 (h.Value.length % 2 ^ 32) ++ h.Key ++ h.Value)) := by
  obtain ⟨k, v, t⟩ := h
  have z4 : List.replicate 4 (0 : Byte) = [0, 0, 0, 0] := rfl
  have h0 : make (1 + 4 + 4 + k.length + v.length + 4)
      = [0] ++ [0, 0, 0, 0] ++ ([0, 0, 0, 0] ++ make k.length ++ make v.length ++ [0, 0, 0, 0]) := by
    simp only [make]
    rw [List.replicate_add, List.replicate_add, List.replicate_add, List.replicate_add,
      List.replicate_add, z4]
    simp
  have l4 : ∀ n, (binary.be4 n).length = 4 := fun _ => rfl
  have lm : ∀ n, (make n).length = n := fun n => by simp [make]
  simp only [Header.ToBytes]
  rw [h0]
  have e1 : ([0] ++ [0, 0, 0, 0] ++ ([0, 0, 0, 0] ++ make k.length ++ make v.length
      ++ [0, 0, 0, 0]) : List Byte).set 0 t
      = [t] ++ [0, 0, 0, 0] ++ ([0, 0, 0, 0] ++ make k.length ++ make v.length ++ [0, 0, 0, 0]) := rfl
  rw [e1, sub_mid [t] [0, 0, 0, 0] _ 1 5 rfl rfl, binary.PutUint32_four,
    store_mid [t] [0, 0, 0, 0] _ _ 1 5 rfl rfl]
  have e2 : [t] ++ binary.be4 (k.length % 2 ^ 32)
      ++ ([0, 0, 0, 0] ++ make k.length ++ make v.length ++ [0, 0, 0, 0])
      = ([t] ++ binary.be4 (k.length % 2 ^ 32)) ++ [0, 0, 0, 0]
        ++ (make k.length ++ make v.length ++ [0, 0, 0, 0]) := by simp
  rw [e2, sub_mid _ [0, 0, 0, 0] _ 5 9 (by simp [l4]) (by simp [l4]), binary.PutUint32_four,
    store_mid _ [0, 0, 0, 0] _ _ 5 9 (by simp [l4]) (by simp [l4])]
  have e3 : [t] ++ binary.be4 (k.length % 2 ^ 32) ++ binary.be4 (v.length % 2 ^ 32)
      ++ (make k.length ++ make v.length ++ [0, 0, 0, 0])
      = ([t] ++ binary.be4 (k.length % 2 ^ 32) ++ binary.be4 (v.length % 2 ^ 32))
        ++ make k.length ++ (make v.length ++ [0, 0, 0, 0]) := by simp
  rw [e3, sub_mid _ (make k.length) _ 9 (9 + k.length) (by simp [l4]) (by simp [l4, lm]),
    copy_full _ _ (lm _),
    store_mid _ (make k.length) _ _ 9 (9 + k.length) (by simp [l4]) (by simp [l4, lm])]
  have e4 : [t] ++ binary.be4 (k.length % 2 ^ 32) ++ binary.be4 (v.length % 2 ^ 32) ++ k
      ++ (make v.length ++ [0, 0, 0, 0])
      = ([t] ++ binary.be4 (k.length % 2 ^ 32) ++ binary.be4 (v.length % 2 ^ 32) ++ k)
        ++ make v.length ++ [0, 0, 0, 0] := by simp
  rw [e4, sub_mid _ (make v.length) _ (9 + k.length) (9 + k.length + v.length)
      (by simp [l4]; omega) (by simp [l4, lm]; omega),
    copy_full _ _ (lm _),
    store_mid _ (make v.length) _ _ (9 + k.length) (9 + k.length + v.length)
      (by simp [l4]; omega) (by simp [l4, lm]; omega)]
  have e5 : sub ([t] ++ binary.be4 (k.length % 2 ^ 32) ++ binary.be4 (v.length % 2 ^ 32) ++ k
      ++ v ++ [0, 0, 0, 0]) 0 (1 + 4 + 4 + k.length + v.length + 4 - 4)
      = [t] ++ binary.be4 (k.length % 2 ^ 32) ++ binary.be4 (v.length % 2 ^ 32) ++ k ++ v := by
    exact sub_start ([t] ++ binary.be4 (k.length % 2 ^ 32)
      ++ binary.be4 (v.length % 2 ^ 32) ++ k ++ v) [0, 0, 0, 0]
      (1 + 4 + 4 + k.length + v.length + 4 - 4) (by simp [l4]; omega)
  rw [e5, sub_end _ [0, 0, 0, 0] _ _ (by simp [l4]; omega) (by simp [l4]; omega),
    binary.PutUint32_four,
    store_end _ [0, 0, 0, 0] _ _ _ (by simp [l4]; omega) (by simp [l4]; omega)]

theorem ToBytes_length (h : Header) : h.ToBytes.length = encodedLen h.Key h.Value := by
  rw [ToBytes_eq]
  simp [binary.be4_length, encodedLen]
  omega

/-- What `FromBytes` does on a buffer that starts with a framed record whose
length fields hold the lengths of `k` and `v`: the four bytes `c` after the
value are compared with the checksum of what precedes them; the bytes `rest`
after them are not looked at. -/
theorem FromBytes_frame (t : Byte) (k v c rest : List Byte)
    (hk : 13 + k.length + v.length < 2 ^ 32) (hc : c.length = 4)
    (hr : 13 + k.length + v.length ≤ (13 + k.length + v.length + rest.length) % 2 ^ 32) :
    FromBytes ([t] ++ binary.be4 k.length ++ binary.be4 v.length ++ k ++ v ++ c ++ rest)
      = if binary.bigEndian c
            ≠ crc32.ChecksumIEEE ([t] ++ binary.be4 k.length ++ binary.be4 v.length ++ k ++ v)
        then .ok none else .ok (some { Key := k, Value := v, RecordType := t }) := by
  have l4 : ∀ n, (binary.be4 n).length = 4 := fun _ => rfl
  have hlen : ([t] ++ binary.be4 k.length ++ binary.be4 v.length ++ k ++ v ++ c ++ rest).length
      = 13 + k.length + v.length + rest.length := by simp [l4, hc]; omega
  have hks : GoSlice.slice ([t] ++ binary.be4 k.length ++ binary.be4 v.length ++ k ++ v ++ c
      ++ rest) 1 5 = .ok (binary.be4 k.length) := by
    rw [slice_ok _ _ _ (by omega) (by omega)]
    have := sub_mid [t] (binary.be4 k.length) (binary.be4 v.length ++ k ++ v ++ c ++ rest)
      1 5 rfl rfl
    simp only [List.append_assoc] at this ⊢
    rw [this]
  have hvs : GoSlice.slice ([t] ++ binary.be4 k.length ++ binary.be4 v.length ++ k ++ v ++ c
      ++ rest) 5 9 = .ok (binary.be4 v.length) := by
    rw [slice_ok _ _ _ (by omega) (by omega)]
    have := sub_mid ([t] ++ binary.be4 k.length) (binary.be4 v.length) (k ++ v ++ c ++ rest)
      5 9 (by simp [l4]) (by simp [l4])
    simp only [List.append_assoc] at this ⊢
    rw [this]
  have hkm : k.length % 2 ^ 32 = k.length := Nat.mod_eq_of_lt (by omega)
  have hvm : v.length % 2 ^ 32 = v.length := Nat.mod_eq_of_lt (by omega)
  have u1 : binary.Uint32 (binary.be4 k.length) = .ok k.length := by
    have := binary.Uint32_be4 k.length []
    rw [hkm, List.append_nil] at this
    exact this
  have u2 : binary.Uint32 (binary.be4 v.length) = .ok v.length := by
    have := binary.Uint32_be4 v.length []
    rw [hvm, List.append_nil] at this
    exact this
  have m1 : (9 + k.length) % 2 ^ 32 = 9 + k.length := Nat.mod_eq_of_lt (by omega)
  have m2 : (9 + k.length + v.length) % 2 ^ 32 = 9 + k.length + v.length :=
    Nat.mod_eq_of_lt (by omega)
  have m3 : (9 + k.length + v.length + 4) % 2 ^ 32 = 9 + k.length + v.length + 4 :=
    Nat.mod_eq_of_lt (by omega)
  have hkey : GoSlice.slice ([t] ++ binary.be4 k.length ++ binary.be4 v.length ++ k ++ v ++ c
      ++ rest) 9 (9 + k.length) = .ok k := by
    rw [slice_ok _ _ _ (by omega) (by omega)]
    have := sub_mid ([t] ++ binary.be4 k.length ++ binary.be4 v.length) k (v ++ c ++ rest) 9
      (9 + k.length) (by simp [l4]) (by simp [l4])
    simp only [List.append_assoc] at this ⊢
    rw [this]
  have hval : GoSlice.slice ([t] ++ binary.be4 k.length ++ binary.be4 v.length ++ k ++ v ++ c
      ++ rest) (9 + k.length) (9 + k.length + v.length) = .ok v := by
    rw [slice_ok _ _ _ (by omega) (by omega)]
    have := sub_mid ([t] ++ binary.be4 k.length ++ binary.be4 v.length ++ k) v (c ++ rest)
      (9 + k.length) (9 + k.length + v.length) (by simp [l4]; omega) (by simp [l4]; omega)
    simp only [List.append_assoc] at this ⊢
    rw [this]
  have hcrc : GoSlice.slice ([t] ++ binary.be4 k.length ++ binary.be4 v.length ++ k ++ v ++ c
      ++ rest) (9 + k.length + v.length) (13 + k.length + v.length + rest.length)
      = .ok (c ++ rest) := by
    rw [slice_ok _ _ _ (by omega) (by omega)]
    have := sub_end ([t] ++ binary.be4 k.length ++ binary.be4 v.length ++ k ++ v) (c ++ rest)
      (9 + k.length + v.length) (13 + k.length + v.length + rest.length)
      (by simp [l4]; omega) (by simp [l4, hc]; omega)
    simp only [List.append_assoc] at this ⊢
    rw [this]
  have hbody : GoSlice.slice ([t] ++ binary.be4 k.length ++ binary.be4 v.length ++ k ++ v ++ c
      ++ rest) 0 (9 + k.length + v.length)
      = .ok ([t] ++ binary.be4 k.length ++ binary.be4 v.length ++ k ++ v) := by
    rw [slice_ok _ _ _ (by omega) (by omega)]
    have := sub_start ([t] ++ binary.be4 k.length ++ binary.be4 v.length ++ k ++ v)
      (c ++ rest) (9 + k.length + v.length) (by simp [l4]; omega)
    simp only [List.append_assoc] at this ⊢
    rw [this]
  have ck : copy (make k.length) k = k := copy_full _ _ (by simp [make])
  have cv : copy (make v.length) v = v := copy_full _ _ (by simp [make])
  have hhead : ([t] ++ binary.be4 k.length ++ binary.be4 v.length ++ k ++ v ++ c ++ rest).head?
      = some t := rfl
  have hu : binary.Uint32 (c ++ rest) = .ok (binary.bigEndian c) :=
    binary.Uint32_of_length c rest hc
  generalize [t] ++ binary.be4 k.length ++ binary.be4 v.length ++ k ++ v ++ c ++ rest = data at *
  unfold FromBytes
  rw [hlen, if_neg (by omega)]
  simp only [hhead, hks, hvs, u1, u2, bind, Except.bind, m1, m2, m3, hkey, hval]
  rw [if_neg (by omega)]
  simp only [hcrc, hbody, ck, cv, hu]

end record

namespace record
open GoSlice

theorem flipBit_length (l : List Byte) (i : Nat) : (flipBit l i).length = l.length := by
  induction l generalizing i with
  | nil => rfl
  | cons b bs ih =>
    unfold flipBit
    split
    · rfl
    · simp [ih]

theorem flipBit_append (a b : List Byte) (i : Nat) :
    flipBit (a ++ b) i
      = if i < 8 * a.length then flipBit a i ++ b else a ++ flipBit b (i - 8 * a.length) := by
  induction a generalizing i with
  | nil => simp
  | cons x xs ih =>
    have hc : (x :: xs) ++ b = x :: (xs ++ b) := rfl
    rw [hc, List.length_cons]
    by_cases h8 : i < 8
    · rw [if_pos (by omega)]
      simp [flipBit, h8]
    · have e1 : flipBit (x :: (xs ++ b)) i = x :: flipBit (xs ++ b) (i - 8) := by
        simp [flipBit, h8]
      have e2 : flipBit (x :: xs) i = x :: flipBit xs (i - 8) := by
        simp [flipBit, h8]
      rw [e1, e2, ih]
      by_cases h : i - 8 < 8 * xs.length
      · rw [if_pos h, if_pos (by omega)]
        rfl
      · rw [if_neg h, if_neg (by omega)]
        have : i - 8 - 8 * xs.length = i - 8 * (xs.length + 1) := by omega
        rw [this]
        rfl

theorem flipped_byte_ne : ∀ (b : Byte) (i : Fin 8), byte (b.val ^^^ 2 ^ i.val) ≠ b := by
  decide!

/-- Flipping one bit of a buffer changes exactly one of its bytes. -/
theorem flipBit_decomp (l : List Byte) (i : Nat) (hi : i < 8 * l.length) :
    ∃ p x y s, l = p ++ x :: s ∧ flipBit l i = p ++ y :: s ∧ x ≠ y := by
  induction l generalizing i with
  | nil => simp at hi
  | cons b bs ih =>
    by_cases h8 : i < 8
    · refine ⟨[], b, byte (b.val ^^^ 2 ^ i), bs, rfl, ?_, ?_⟩
      · simp [flipBit, h8]
      · exact fun h => flipped_byte_ne b ⟨i, h8⟩ h.symm
    · obtain ⟨p, x, y, s, h1, h2, h3⟩ := ih (i - 8) (by simp at hi; omega)
      refine ⟨b :: p, x, y, s, by simp [h1], ?_, h3⟩
      simp [flipBit, h8, h2]

theorem one_byte_ne (p s : List Byte) (x y : Byte) (h : x ≠ y) : p ++ x :: s ≠ p ++ y :: s := by
  intro e
  have := List.append_cancel_left e
  exact h (List.cons.inj this).1

end record

/-! ## Claims on the record codec -/

namespace record
open GoSlice

/-- C4: for every type tag, key and value whose encoded length
`13 + len(key) + len(value)` is below `2^32`, `FromBytes(ToBytes(h))` is a
non-nil header with the record type, key and value of `h`. -/
theorem FromBytes_ToBytes_roundtrip (h : Header)
    (hlen : 13 + h.Key.length + h.Value.length < 2 ^ 32) :
    FromBytes h.ToBytes = .ok (some h) := by
  rw [ToBytes_eq, Nat.mod_eq_of_lt (show h.Key.length < 2 ^ 32 by omega),
    Nat.mod_eq_of_lt (show h.Value.length < 2 ^ 32 by omega)]
  have hf := FromBytes_frame h.RecordType h.Key h.Value (binary.be4 (crc32.ChecksumIEEE
    ([h.RecordType] ++ binary.be4 h.Key.length ++ binary.be4 h.Value.length ++ h.Key
      ++ h.Value))) [] hlen rfl (by simp; omega)
  rw [List.append_nil] at hf
  rw [hf, binary.bigEndian_be4, Nat.mod_eq_of_lt (crc32.ChecksumIEEE_lt _)]
  simp

/-- C4 at the record with type tag 255, key "key" and value "value". -/
theorem FromBytes_ToBytes_roundtrip_witness :
    FromBytes (Header.ToBytes ⟨[107, 101, 121], [118, 97, 108, 117, 101], 255⟩)
      = .ok (some ⟨[107, 101, 121], [118, 97, 108, 117, 101], 255⟩) :=
  FromBytes_ToBytes_roundtrip _ (by decide)

/-- C8: for a record whose key and value lengths are below `2^32`, `ToBytes`
has `9 + len(key) + len(value) + 4` bytes; byte 0 is the type tag, bytes 1..4
and 5..8 are the big-endian key and value lengths, then come the key and the
value, and the last four bytes are the big-endian CRC-32/IEEE of all the
bytes before them. -/
theorem ToBytes_layout (h : Header) (hk : h.Key.length < 2 ^ 32)
    (hv : h.Value.length < 2 ^ 32) :
    h.ToBytes.length = 9 + h.Key.length + h.Value.length + 4
    ∧ sub h.ToBytes 0 1 = [h.RecordType]
    ∧ (sub h.ToBytes 1 5).length = 4
    ∧ binary.bigEndian (sub h.ToBytes 1 5) = h.Key.length
    ∧ (sub h.ToBytes 5 9).length = 4
    ∧ binary.bigEndian (sub h.ToBytes 5 9) = h.Value.length
    ∧ sub h.ToBytes 9 (9 + h.Key.length) = h.Key
    ∧ sub h.ToBytes (9 + h.Key.length) (9 + h.Key.length + h.Value.length) = h.Value
    ∧ (sub h.ToBytes (9 + h.Key.length + h.Value.length)
        (9 + h.Key.length + h.Value.length + 4)).length = 4
    ∧ binary.bigEndian (sub h.ToBytes (9 + h.Key.length + h.Value.length)
        (9 + h.Key.length + h.Value.length + 4))
      = crc32.ChecksumIEEE (sub h.ToBytes 0 (9 + h.Key.length + h.Value.length)) := by
  have l4 : ∀ n, (binary.be4 n).length = 4 := fun _ => rfl
  have hlen := ToBytes_length h
  unfold encodedLen at hlen
  rw [ToBytes_eq] at hlen ⊢
  rw [Nat.mod_eq_of_lt hk, Nat.mod_eq_of_lt hv] at hlen ⊢
  have s0 : sub ([h.RecordType] ++ binary.be4 h.Key.length ++ binary.be4 h.Value.length
      ++ h.Key ++ h.Value ++ binary.be4 (crc32.ChecksumIEEE ([h.RecordType]
      ++ binary.be4 h.Key.length ++ binary.be4 h.Value.length ++ h.Key ++ h.Value))) 0 1
      = [h.RecordType] := by
    have := sub_start [h.RecordType] (binary.be4 h.Key.length ++ binary.be4 h.Value.length
      ++ h.Key ++ h.Value ++ binary.be4 (crc32.ChecksumIEEE ([h.RecordType]
      ++ binary.be4 h.Key.length ++ binary.be4 h.Value.length ++ h.Key ++ h.Value))) 1 rfl
    simp only [List.append_assoc] at this ⊢
    rw [this]
  have s1 : sub ([h.RecordType] ++ binary.be4 h.Key.length ++ binary.be4 h.Value.length
      ++ h.Key ++ h.Value ++ binary.be4 (crc32.ChecksumIEEE ([h.RecordType]
      ++ binary.be4 h.Key.length ++ binary.be4 h.Value.length ++ h.Key ++ h.Value))) 1 5
      = binary.be4 h.Key.length := by
    have := sub_mid [h.RecordType] (binary.be4 h.Key.length) (binary.be4 h.Value.length
      ++ h.Key ++ h.Value ++ binary.be4 (crc32.ChecksumIEEE ([h.RecordType]
      ++ binary.be4 h.Key.length ++ binary.be4 h.Value.length ++ h.Key ++ h.Value))) 1 5
      rfl rfl
    simp only [List.append_assoc] at this ⊢
    rw [this]
  have s2 : sub ([h.RecordType] ++ binary.be4 h.Key.length ++ binary.be4 h.Value.length
      ++ h.Key ++ h.Value ++ binary.be4 (crc32.ChecksumIEEE ([h.RecordType]
      ++ binary.be4 h.Key.length ++ binary.be4 h.Value.length ++ h.Key ++ h.Value))) 5 9
      = binary.be4 h.Value.length := by
    have := sub_mid ([h.RecordType] ++ binary.be4 h.Key.length) (binary.be4 h.Value.length)
      (h.Key ++ h.Value ++ binary.be4 (crc32.ChecksumIEEE ([h.RecordType]
      ++ binary.be4 h.Key.length ++ binary.be4 h.Value.length ++ h.Key ++ h.Value))) 5 9
      (by simp [l4]) (by simp [l4])
    simp only [List.append_assoc] at this ⊢
    rw [this]
  have s3 : sub ([h.RecordType] ++ binary.be4 h.Key.length ++ binary.be4 h.Value.length
      ++ h.Key ++ h.Value ++ binary.be4 (crc32.ChecksumIEEE ([h.RecordType]
      ++ binary.be4 h.Key.length ++ binary.be4 h.Value.length ++ h.Key ++ h.Value))) 9
      (9 + h.Key.length) = h.Key := by
    have := sub_mid ([h.RecordType] ++ binary.be4 h.Key.length ++ binary.be4 h.Value.length)
      h.Key (h.Value ++ binary.be4 (crc32.ChecksumIEEE ([h.RecordType]
      ++ binary.be4 h.Key.length ++ binary.be4 h.Value.length ++ h.Key ++ h.Value))) 9
      (9 + h.Key.length) (by simp [l4]) (by simp [l4])
    simp only [List.append_assoc] at this ⊢
    rw [this]
  have s4 : sub ([h.RecordType] ++ binary.be4 h.Key.length ++ binary.be4 h.Value.length
      ++ h.Key ++ h.Value ++ binary.be4 (crc32.ChecksumIEEE ([h.RecordType]
      ++ binary.be4 h.Key.length ++ binary.be4 h.Value.length ++ h.Key ++ h.Value)))
      (9 + h.Key.length) (9 + h.Key.length + h.Value.length) = h.Value :=
    sub_mid ([h.RecordType] ++ binary.be4 h.Key.length ++ binary.be4 h.Value.length ++ h.Key)
      h.Value _ _ _ (by simp [l4]; omega) (by simp [l4]; omega)
  have s5 : sub ([h.RecordType] ++ binary.be4 h.Key.length ++ binary.be4 h.Value.length
      ++ h.Key ++ h.Value ++ binary.be4 (crc32.ChecksumIEEE ([h.RecordType]
      ++ binary.be4 h.Key.length ++ binary.be4 h.Value.length ++ h.Key ++ h.Value)))
      (9 + h.Key.length + h.Value.length) (9 + h.Key.length + h.Value.length + 4)
      = binary.be4 (crc32.ChecksumIEEE ([h.RecordType]
      ++ binary.be4 h.Key.length ++ binary.be4 h.Value.length ++ h.Key ++ h.Value)) :=
    sub_end ([h.RecordType] ++ binary.be4 h.Key.length ++ binary.be4 h.Value.length ++ h.Key
      ++ h.Value) _ _ _ (by simp [l4]; omega) (by simp [l4]; omega)
  have s6 : sub ([h.RecordType] ++ binary.be4 h.Key.length ++ binary.be4 h.Value.length
      ++ h.Key ++ h.Value ++ binary.be4 (crc32.ChecksumIEEE ([h.RecordType]
      ++ binary.be4 h.Key.length ++ binary.be4 h.Value.length ++ h.Key ++ h.Value)))
      0 (9 + h.Key.length + h.Value.length)
      = [h.RecordType] ++ binary.be4 h.Key.length ++ binary.be4 h.Value.length ++ h.Key
        ++ h.Value :=
    sub_start _ _ _ (by simp [l4]; omega)
  rw [s0, s1, s2, s3, s4, s5, s6, binary.bigEndian_be4, binary.bigEndian_be4,
    binary.bigEndian_be4, Nat.mod_eq_of_lt hk, Nat.mod_eq_of_lt hv,
    Nat.mod_eq_of_lt (crc32.ChecksumIEEE_lt _)]
  exact ⟨by omega, rfl, rfl, rfl, rfl, rfl, rfl, rfl, rfl, rfl⟩

/-- C8 at the record with type tag 0, key "key" and value "value". -/
theorem ToBytes_layout_witness :
    (Header.ToBytes ⟨[107, 101, 121], [118, 97, 108, 117, 101], 0⟩).length = 9 + 3 + 5 + 4
    ∧ binary.bigEndian (sub (Header.ToBytes ⟨[107, 101, 121], [118, 97, 108, 117, 101], 0⟩)
        1 5) = 3 :=
  have h := ToBytes_layout ⟨[107, 101, 121], [118, 97, 108, 117, 101], 0⟩
    (by decide) (by decide)
  ⟨h.1, h.2.2.2.1⟩

/-- C6, the failing input: thirteen bytes whose key length field holds
`0xFFFFFFFF`.  The buffer is shorter than `9 + key_len + value_len + 4`, but
the `uint32` sum wraps to 12, the length test passes, and the slice
`data[9:9+keySize]`, with `9 + keySize` wrapped to 8, panics. -/
theorem FromBytes_wrapped_length_panics :
    ([0, 255, 255, 255, 255, 0, 0, 0, 0, 0, 0, 0, 0] : List Byte).length
        < 9 + binary.bigEndian [255, 255, 255, 255] + binary.bigEndian [0, 0, 0, 0] + 4
    ∧ FromBytes [0, 255, 255, 255, 255, 0, 0, 0, 0, 0, 0, 0, 0] = .error .sliceBounds := by
  decide!

end record

namespace record
open GoSlice

/-- A framed record whose checksum bytes are right for a body that differs in
exactly one byte is rejected. -/
theorem FromBytes_body_changed (t : Byte) (k v : List Byte) (crc : Nat) (p s : List Byte)
    (x y : Byte) (hk : 13 + k.length + v.length < 2 ^ 32) (hxy : x ≠ y)
    (hbody : [t] ++ binary.be4 k.length ++ binary.be4 v.length ++ k ++ v = p ++ y :: s)
    (hcrc : crc = crc32.ChecksumIEEE (p ++ x :: s)) :
    FromBytes ([t] ++ binary.be4 k.length ++ binary.be4 v.length ++ k ++ v ++ binary.be4 crc)
      = .ok none := by
  have hf := FromBytes_frame t k v (binary.be4 crc) [] hk rfl (by simp; omega)
  rw [List.append_nil] at hf
  rw [hf, binary.bigEndian_be4, hbody, hcrc, Nat.mod_eq_of_lt (crc32.ChecksumIEEE_lt _),
    if_pos (crc32.ChecksumIEEE_one_byte p s x y hxy)]

/-- A framed record whose four checksum bytes are not those of its body is
rejected. -/
theorem FromBytes_crc_changed (t : Byte) (k v c : List Byte)
    (hk : 13 + k.length + v.length < 2 ^ 32) (hc : c.length = 4)
    (hne : c ≠ binary.be4 (crc32.ChecksumIEEE
      ([t] ++ binary.be4 k.length ++ binary.be4 v.length ++ k ++ v))) :
    FromBytes ([t] ++ binary.be4 k.length ++ binary.be4 v.length ++ k ++ v ++ c)
      = .ok none := by
  have hf := FromBytes_frame t k v c [] hk hc (by simp; omega)
  rw [List.append_nil] at hf
  rw [hf, if_pos]
  intro h
  apply hne
  apply binary.bigEndian_inj c (binary.be4 _) hc rfl
  rw [h, binary.bigEndian_be4, Nat.mod_eq_of_lt (crc32.ChecksumIEEE_lt _)]

/-- C5, counterexample: the record with key "k" whose value is the four
checksum bytes of the header-and-key prefix with value length 0.  Flipping
bit 2 of byte 8 turns the value length 4 into 0; the buffer then decodes as
a record with key "k" and an empty value, the old value serving as checksum. -/
theorem flipBit_in_length_accepted :
    66 < 8 * (Header.ToBytes ⟨[107], [242, 182, 3, 3], 0⟩).length
    ∧ FromBytes (flipBit (Header.ToBytes ⟨[107], [242, 182, 3, 3], 0⟩) 66)
        = .ok (some ⟨[107], [], 0⟩) := by
  decide!

/-- C5, amended: for every record whose encoded length is below `2^32` and
every bit position in the type byte, the key, the value or the CRC (all
positions outside the two length fields, bytes 1..8), flipping that bit of
`ToBytes(h)` yields a buffer on which `FromBytes` returns nil. -/
theorem flipBit_outside_lengths_rejected (h : Header)
    (hlen : 13 + h.Key.length + h.Value.length < 2 ^ 32) (i : Nat)
    (hi : i < 8 * h.ToBytes.length) (hpos : i < 8 ∨ 72 ≤ i) :
    FromBytes (flipBit h.ToBytes i) = .ok none := by
  obtain ⟨k, v, t⟩ := h
  simp only at hlen
  have l4 : ∀ n, (binary.be4 n).length = 4 := fun _ => rfl
  have hL := ToBytes_length ⟨k, v, t⟩
  rw [hL] at hi
  simp only [encodedLen] at hi
  rw [ToBytes_eq]
  simp only
  rw [Nat.mod_eq_of_lt (show k.length < 2 ^ 32 by omega),
    Nat.mod_eq_of_lt (show v.length < 2 ^ 32 by omega)]
  rcases hpos with h8 | h72
  · -- the type byte
    have e : flipBit ([t] ++ binary.be4 k.length ++ binary.be4 v.length ++ k ++ v
        ++ binary.be4 (crc32.ChecksumIEEE ([t] ++ binary.be4 k.length ++ binary.be4 v.length
          ++ k ++ v))) i
        = [byte (t.val ^^^ 2 ^ i)] ++ binary.be4 k.length ++ binary.be4 v.length ++ k ++ v
        ++ binary.be4 (crc32.ChecksumIEEE ([t] ++ binary.be4 k.length ++ binary.be4 v.length
          ++ k ++ v)) := by
      simp only [List.append_assoc, List.singleton_append, flipBit, h8, if_true]
      simp
    rw [e]
    refine FromBytes_body_changed _ k v _ [] (binary.be4 k.length ++ binary.be4 v.length
      ++ k ++ v) t (byte (t.val ^^^ 2 ^ i)) hlen
      (fun h => flipped_byte_ne t ⟨i, h8⟩ h.symm) ?_ ?_
    · simp
    · simp
  · -- past the length fields
    have e : flipBit (([t] ++ binary.be4 k.length ++ binary.be4 v.length) ++ (k ++ (v
        ++ binary.be4 (crc32.ChecksumIEEE ([t] ++ binary.be4 k.length ++ binary.be4 v.length
          ++ k ++ v))))) i
        = ([t] ++ binary.be4 k.length ++ binary.be4 v.length) ++ flipBit (k ++ (v
        ++ binary.be4 (crc32.ChecksumIEEE ([t] ++ binary.be4 k.length ++ binary.be4 v.length
          ++ k ++ v)))) (i - 72) := by
      rw [flipBit_append, if_neg (by simp [l4]; omega)]
      simp [l4]
    have a : [t] ++ binary.be4 k.length ++ binary.be4 v.length ++ k ++ v
        ++ binary.be4 (crc32.ChecksumIEEE ([t] ++ binary.be4 k.length ++ binary.be4 v.length
          ++ k ++ v))
        = ([t] ++ binary.be4 k.length ++ binary.be4 v.length) ++ (k ++ (v
        ++ binary.be4 (crc32.ChecksumIEEE ([t] ++ binary.be4 k.length ++ binary.be4 v.length
          ++ k ++ v)))) := by simp
    rw [a, e, flipBit_append]
    by_cases hk : i - 72 < 8 * k.length
    · -- a key byte
      rw [if_pos hk]
      obtain ⟨p, x, y, s, h1, h2, h3⟩ := flipBit_decomp k (i - 72) hk
      have hkl : (flipBit k (i - 72)).length = k.length := flipBit_length _ _
      have := FromBytes_body_changed t (flipBit k (i - 72)) v
        (crc32.ChecksumIEEE ([t] ++ binary.be4 k.length ++ binary.be4 v.length ++ k ++ v))
        ([t] ++ binary.be4 k.length ++ binary.be4 v.length ++ p) (s ++ v) x y
        (by rw [hkl]; exact hlen) h3 (by rw [hkl, h2]; simp)
        (by rw [h1]; simp)
      rw [hkl] at this
      simp only [List.append_assoc] at this ⊢
      exact this
    · rw [if_neg hk, flipBit_append]
      by_cases hv : i - 72 - 8 * k.length < 8 * v.length
      · -- a value byte
        rw [if_pos hv]
        obtain ⟨p, x, y, s, h1, h2, h3⟩ := flipBit_decomp v (i - 72 - 8 * k.length) hv
        have hvl : (flipBit v (i - 72 - 8 * k.length)).length = v.length := flipBit_length _ _
        have := FromBytes_body_changed t k (flipBit v (i - 72 - 8 * k.length))
          (crc32.ChecksumIEEE ([t] ++ binary.be4 k.length ++ binary.be4 v.length ++ k ++ v))
          ([t] ++ binary.be4 k.length ++ binary.be4 v.length ++ k ++ p) s x y
          (by rw [hvl]; exact hlen) h3 (by rw [hvl, h2]; simp)
          (by rw [h1]; simp)
        rw [hvl] at this
        simp only [List.append_assoc] at this ⊢
        exact this
      · -- a checksum byte
        rw [if_neg hv]
        obtain ⟨p, x, y, s, h1, h2, h3⟩ := flipBit_decomp (binary.be4 (crc32.ChecksumIEEE
          ([t] ++ binary.be4 k.length ++ binary.be4 v.length ++ k ++ v)))
          (i - 72 - 8 * k.length - 8 * v.length) (by simp [l4]; omega)
        have := FromBytes_crc_changed t k v (flipBit (binary.be4 (crc32.ChecksumIEEE
          ([t] ++ binary.be4 k.length ++ binary.be4 v.length ++ k ++ v)))
          (i - 72 - 8 * k.length - 8 * v.length)) hlen
          (by rw [flipBit_length]; rfl)
          (by rw [h2, h1]; exact (one_byte_ne p s x y h3).symm)
        simp only [List.append_assoc] at this ⊢
        exact this

/-- C5, amended, at the record with key "k" and value "v": bit 0 of the type
byte, bit 3 of the key byte and the lowest bit of the last CRC byte. -/
theorem flipBit_outside_lengths_rejected_witness :
    FromBytes (flipBit (Header.ToBytes ⟨[107], [118], 0⟩) 0) = .ok none
    ∧ FromBytes (flipBit (Header.ToBytes ⟨[107], [118], 0⟩) 75) = .ok none
    ∧ FromBytes (flipBit (Header.ToBytes ⟨[107], [118], 0⟩) 112) = .ok none :=
  ⟨flipBit_outside_lengths_rejected _ (by decide) 0 (by decide) (by decide),
   flipBit_outside_lengths_rejected _ (by decide) 75 (by decide) (by decide),
   flipBit_outside_lengths_rejected _ (by decide) 112 (by decide) (by decide)⟩

end record

namespace record
open GoSlice

theorem replaceCrc_ToBytes (h : Header) (c : List Byte) :
    replaceCrc h.ToBytes c
      = [h.RecordType] ++ binary.be4 (h.Key.length % 2 ^ 32)
        ++ binary.be4 (h.Value.length % 2 ^ 32) ++ h.Key ++ h.Value ++ c := by
  unfold replaceCrc
  rw [ToBytes_length, ToBytes_eq]
  congr 1
  apply List.take_left'
  simp [encodedLen, binary.be4_length]
  omega

theorem drop_ToBytes (h : Header) :
    h.ToBytes.drop (h.ToBytes.length - 4)
      = binary.be4 (crc32.ChecksumIEEE ([h.RecordType] ++ binary.be4 (h.Key.length % 2 ^ 32)
        ++ binary.be4 (h.Value.length % 2 ^ 32) ++ h.Key ++ h.Value)) := by
  rw [ToBytes_length, ToBytes_eq]
  apply List.drop_left'
  simp [encodedLen, binary.be4_length]
  omega

/-- C7, amended: for every record whose encoded length is below `2^32`,
replacing the four trailing CRC bytes of `ToBytes(h)` by any different four
bytes makes `FromBytes` return nil. -/
theorem replaced_crc_rejected (h : Header)
    (hlen : 13 + h.Key.length + h.Value.length < 2 ^ 32) (c : List Byte)
    (hc : c.length = 4) (hne : c ≠ h.ToBytes.drop (h.ToBytes.length - 4)) :
    FromBytes (replaceCrc h.ToBytes c) = .ok none := by
  rw [drop_ToBytes] at hne
  rw [replaceCrc_ToBytes]
  rw [Nat.mod_eq_of_lt (show h.Key.length < 2 ^ 32 by omega),
    Nat.mod_eq_of_lt (show h.Value.length < 2 ^ 32 by omega)] at hne ⊢
  exact FromBytes_crc_changed _ _ _ c hlen hc hne

/-- C7, amended, at the test's record (key "key", value "value"), whose CRC
bytes are `9D C5 F4 B3`: the lowest bit of the last byte is flipped. -/
theorem replaced_crc_rejected_witness :
    FromBytes (replaceCrc (Header.ToBytes ⟨[107, 101, 121], [118, 97, 108, 117, 101], 0⟩)
      [157, 197, 244, 178]) = .ok none :=
  replaced_crc_rejected _ (by decide) _ rfl (by decide!)

/-- With a key of `2^32` bytes the key length field holds 0, and `FromBytes`
takes the first four key bytes for the checksum of the nine header bytes:
whatever stands in the last four bytes, the buffer is accepted. -/
theorem long_key_accepted (pad c : List Byte) (hp : pad.length = 2 ^ 32 - 4)
    (hc : c.length = 4) :
    FromBytes (replaceCrc (Header.ToBytes
      ⟨binary.be4 (crc32.ChecksumIEEE [0, 0, 0, 0, 0, 0, 0, 0, 0]) ++ pad, [], 0⟩) c)
      = .ok (some ⟨[], [], 0⟩) := by
  rw [replaceCrc_ToBytes]
  have hkl : (binary.be4 (crc32.ChecksumIEEE [0, 0, 0, 0, 0, 0, 0, 0, 0]) ++ pad).length
      % 2 ^ 32 = ([] : List Byte).length := by
    rw [List.length_append, hp]
    rfl
  have hvl : ([] : List Byte).length % 2 ^ 32 = ([] : List Byte).length := rfl
  simp only
  rw [hkl, hvl]
  have hf := FromBytes_frame 0 [] [] (binary.be4 (crc32.ChecksumIEEE [0, 0, 0, 0, 0, 0, 0, 0, 0]))
    (pad ++ c) (by decide) rfl (by
      rw [List.length_append, hp, hc]
      decide)
  have e : [(0 : Byte)] ++ binary.be4 ([] : List Byte).length
      ++ binary.be4 ([] : List Byte).length
      ++ (binary.be4 (crc32.ChecksumIEEE [0, 0, 0, 0, 0, 0, 0, 0, 0]) ++ pad) ++ [] ++ c
      = [(0 : Byte)] ++ binary.be4 ([] : List Byte).length
      ++ binary.be4 ([] : List Byte).length ++ [] ++ []
      ++ binary.be4 (crc32.ChecksumIEEE [0, 0, 0, 0, 0, 0, 0, 0, 0]) ++ (pad ++ c) := by
    simp only [List.append_assoc, List.append_nil, List.nil_append]
  rw [e, hf, if_neg]
  rw [binary.bigEndian_be4, Nat.mod_eq_of_lt (crc32.ChecksumIEEE_lt _)]
  exact fun h => h rfl

/-- C7, counterexample: the record whose key is the checksum of nine zero
bytes followed by `2^32 - 4` zero bytes, with an empty value.  Four bytes
that differ from its trailing CRC bytes can be put in their place and the
buffer still decodes. -/
theorem replaced_crc_accepted_on_long_key :
    ∃ c : List Byte, c.length = 4
      ∧ c ≠ (Header.ToBytes ⟨binary.be4 (crc32.ChecksumIEEE [0, 0, 0, 0, 0, 0, 0, 0, 0])
            ++ List.replicate (2 ^ 32 - 4) 0, [], 0⟩).drop
          ((Header.ToBytes ⟨binary.be4 (crc32.ChecksumIEEE [0, 0, 0, 0, 0, 0, 0, 0, 0])
            ++ List.replicate (2 ^ 32 - 4) 0, [], 0⟩).length - 4)
      ∧ FromBytes (replaceCrc (Header.ToBytes
          ⟨binary.be4 (crc32.ChecksumIEEE [0, 0, 0, 0, 0, 0, 0, 0, 0])
            ++ List.replicate (2 ^ 32 - 4) 0, [], 0⟩) c) ≠ .ok none := by
  have hp : (List.replicate (2 ^ 32 - 4) (0 : Byte)).length = 2 ^ 32 - 4 :=
    List.length_replicate _ _
  generalize List.replicate (2 ^ 32 - 4) (0 : Byte) = pad at hp ⊢
  by_cases h0 : ([0, 0, 0, 0] : List Byte)
      = (Header.ToBytes ⟨binary.be4 (crc32.ChecksumIEEE [0, 0, 0, 0, 0, 0, 0, 0, 0]) ++ pad,
          [], 0⟩).drop ((Header.ToBytes ⟨binary.be4 (crc32.ChecksumIEEE
            [0, 0, 0, 0, 0, 0, 0, 0, 0]) ++ pad, [], 0⟩).length - 4)
  · refine ⟨[0, 0, 0, 1], rfl, ?_, ?_⟩
    · rw [← h0]
      decide
    · rw [long_key_accepted pad [0, 0, 0, 1] hp rfl]
      exact fun h => nomatch h
  · refine ⟨[0, 0, 0, 0], rfl, h0, ?_⟩
    rw [long_key_accepted pad [0, 0, 0, 0] hp rfl]
    exact fun h => nomatch h

end record

/-! ## Segment files and the write-ahead log -/

namespace file_manage

theorem OsFile.Write_at_end (f : OsFile) (data : List Byte) (h : f.cursor = f.bytes.length) :
    (f.Write data).1 = { bytes := f.bytes ++ data, cursor := f.bytes.length + data.length } := by
  simp [OsFile.Write, h]

theorem OsFile.ReadAt_append (bytes data : List Byte) (c c' n off : Nat) (x : List Byte)
    (h : OsFile.ReadAt { bytes := bytes, cursor := c } n off = .ok x) :
    OsFile.ReadAt { bytes := bytes ++ data, cursor := c' } n off = .ok x := by
  unfold OsFile.ReadAt at h ⊢
  by_cases hn : n = 0
  · simpa [hn] using h
  · simp only [hn, if_false] at h ⊢
    by_cases hb : off + n ≤ bytes.length
    · simp only [hb, if_true] at h
      have hb' : off + n ≤ (bytes ++ data).length := by simp; omega
      simp only [hb', if_true]
      rw [← h]
      congr 1
      rw [List.drop_append_of_le_length (by omega), List.take_append_of_le_length (by simp; omega)]
    · simp [hb] at h

theorem OsFile.ReadAt_tail (bytes data : List Byte) (c : Nat) (hd : data ≠ []) :
    OsFile.ReadAt { bytes := bytes ++ data, cursor := c } data.length bytes.length
      = .ok data := by
  unfold OsFile.ReadAt
  have : data.length ≠ 0 := by
    intro h
    exact hd (List.length_eq_zero.mp h)
  simp [this]

end file_manage

namespace wal
open file_manage

theorem NewWAL_none_AtEnd (fileID : Nat) : (NewWAL none fileID).AtEnd := by
  simp [WAL.AtEnd, NewWAL, NewFileIO, OsFile.open]

/-- What `Append` returns and leaves, on any handle. -/
theorem Append_pos (w : WAL) (key value : List Byte) (typ : record.RecordType) :
    (w.Append key value typ).2
        = { FileID := w.GetFileID, Offset := w.GetOffset,
            Size := 13 + key.length + value.length }
    ∧ (w.Append key value typ).1.GetOffset = w.GetOffset + (13 + key.length + value.length)
    ∧ (w.Append key value typ).1.GetFileID = w.GetFileID := by
  have hl := record.ToBytes_length { Key := key, Value := value, RecordType := typ }
  simp only [record.encodedLen] at hl
  simp [WAL.Append, FileIO.Write, OsFile.Write, WAL.GetFileID, WAL.GetOffset,
    FileIO.GetFileID, FileIO.GetOffset, hl]

/-- On a handle that writes at the end of its file, `Append` adds the encoded
record to the file and keeps the handle at the end. -/
theorem Append_AtEnd (w : WAL) (key value : List Byte) (typ : record.RecordType)
    (h : w.AtEnd) :
    (w.Append key value typ).1.fileIo.File.bytes
        = w.fileIo.File.bytes
          ++ record.Header.ToBytes { Key := key, Value := value, RecordType := typ }
    ∧ (w.Append key value typ).1.AtEnd
    ∧ (w.Append key value typ).1.fileIo.FileID = w.fileIo.FileID
    ∧ (w.Append key value typ).2
        = { FileID := w.fileIo.FileID, Offset := w.fileIo.File.bytes.length,
            Size := (record.Header.ToBytes
              { Key := key, Value := value, RecordType := typ }).length } := by
  obtain ⟨h1, h2⟩ := h
  simp [WAL.Append, FileIO.Write, OsFile.Write, WAL.AtEnd, FileIO.GetFileID,
    FileIO.GetOffset, h1, h2]

theorem appendAll_consecutive (w : WAL)
    (recs : List (List Byte × List Byte × record.RecordType)) :
    (w.appendAll recs).2 = consecutive w.GetFileID w.GetOffset recs := by
  induction recs generalizing w with
  | nil => rfl
  | cons r rest ih =>
    obtain ⟨h1, h2, h3⟩ := Append_pos w r.1 r.2.1 r.2.2
    simp only [WAL.appendAll, consecutive]
    rw [ih, h1, h2, h3]

/-- C10: on any handle, each `Append` returns the segment's id, the size
`13 + len(key) + len(value)` and the tail before the call, and moves the tail
forward by that size; so the positions of a sequence of calls are consecutive
from the tail at the first call, which is 0 on a new file. -/
theorem Append_positions (w : WAL) (key value : List Byte) (typ : record.RecordType)
    (recs : List (List Byte × List Byte × record.RecordType)) (fileID : Nat) :
    (w.Append key value typ).2
        = { FileID := w.GetFileID, Offset := w.GetOffset,
            Size := 13 + key.length + value.length }
    ∧ (w.Append key value typ).1.GetOffset = w.GetOffset + (13 + key.length + value.length)
    ∧ (w.Append key value typ).1.GetFileID = w.GetFileID
    ∧ (w.appendAll recs).2 = consecutive w.GetFileID w.GetOffset recs
    ∧ (NewWAL none fileID).GetOffset = 0
    ∧ ((NewWAL none fileID).appendAll recs).2 = consecutive fileID 0 recs := by
  obtain ⟨h1, h2, h3⟩ := Append_pos w key value typ
  exact ⟨h1, h2, h3, appendAll_consecutive w recs, rfl, appendAll_consecutive _ recs⟩

/-- On a segment that `NewWAL` has created, the cached tail offset is the
size of the file after every `Append`. -/
theorem appendAll_new_segment (fileID : Nat)
    (recs : List (List Byte × List Byte × record.RecordType)) :
    ((NewWAL none fileID).appendAll recs).1.GetOffset
      = ((NewWAL none fileID).appendAll recs).1.fileIo.Size := by
  have key : ∀ (w : WAL), w.AtEnd → (w.appendAll recs).1.AtEnd := by
    induction recs with
    | nil => exact fun w h => h
    | cons r rest ih =>
      intro w h
      exact ih _ (Append_AtEnd w r.1 r.2.1 r.2.2 h).2.1
  exact (key _ (NewWAL_none_AtEnd fileID)).2

/-- C9, the failing input: a segment file that holds one record (key "a",
value "1", 15 bytes) is opened with `NewWAL` and the record (key "b",
value "2") is appended.  The write lands at the cursor of the new handle,
position 0, over the old record: the cached tail offset is 30 and the file
is 15 bytes long. -/
theorem Append_on_reopened_segment :
    ((NewWAL (some (record.Header.ToBytes ⟨[97], [49], 0⟩)) 3).Append [98] [50] 0).1.GetOffset
      = 30
    ∧ ((NewWAL (some (record.Header.ToBytes ⟨[97], [49], 0⟩)) 3).Append [98] [50] 0).1.fileIo.Size
      = 15
    ∧ ((NewWAL (some (record.Header.ToBytes ⟨[97], [49], 0⟩)) 3).Append [98] [50]
        0).1.fileIo.File.bytes = record.Header.ToBytes ⟨[98], [50], 0⟩ := by
  decide!

end wal

/-! ## The index -/

namespace index

theorem bytesLess_irrefl (a : List Byte) : bytesLess a a = false := by
  induction a with
  | nil => rfl
  | cons x xs ih => simp [bytesLess, ih]

theorem eq_of_not_bytesLess (a b : List Byte) (h1 : bytesLess a b = false)
    (h2 : bytesLess b a = false) : a = b := by
  induction a generalizing b with
  | nil =>
    cases b with
    | nil => rfl
    | cons y ys => simp [bytesLess] at h1
  | cons x xs ih =>
    cases b with
    | nil => simp [bytesLess] at h2
    | cons y ys =>
      simp only [bytesLess] at h1 h2
      by_cases hxy : x < y
      · simp [hxy] at h1
      · by_cases hyx : y < x
        · simp [hyx] at h2
        · simp only [hxy, hyx, if_false] at h1 h2
          have : x = y := le_antisymm (not_lt.mp hyx) (not_lt.mp hxy)
          rw [this, ih ys h1 h2]

/-- Two keys are the same entry of the tree exactly when they are equal. -/
theorem same_entry_iff (a b : List Byte) :
    (!bytesLess a b && !bytesLess b a) = decide (a = b) := by
  by_cases h : a = b
  · subst h
    simp [bytesLess_irrefl]
  · simp only [h, decide_False]
    cases h1 : bytesLess a b
    · cases h2 : bytesLess b a
      · exact absurd (eq_of_not_bytesLess a b h1 h2) h
      · rfl
    · rfl

theorem BTree.Get_eq (t : BTree) (key : List Byte) :
    t.Get key = t.items.find? (fun x => decide (key = x.key)) := by
  unfold BTree.Get
  congr 1
  funext x
  exact same_entry_iff key x.key

theorem BTree.Get_key (t : BTree) (key : List Byte) (item : indexItem)
    (h : t.Get key = some item) : item.key = key := by
  rw [BTree.Get_eq] at h
  have := List.find?_some h
  exact (by simpa using this : key = item.key).symm

theorem find_replaceOrInsert (l : List indexItem) (k j : List Byte) (p : record.Pos) :
    (replaceOrInsert { key := k, pos := p } l).find? (fun x => decide (j = x.key))
      = if j = k then some { key := k, pos := p }
        else l.find? (fun x => decide (j = x.key)) := by
  induction l with
  | nil =>
    by_cases h : j = k <;> simp [replaceOrInsert, List.find?, h]
  | cons x xs ih =>
    unfold replaceOrInsert
    by_cases h1 : indexItem.Less { key := k, pos := p } x
    · rw [if_pos h1]
      by_cases h : j = k <;> simp [List.find?, h]
    · rw [if_neg h1]
      by_cases h2 : x.Less { key := k, pos := p }
      · rw [if_pos h2]
        have hne : k ≠ x.key := by
          intro e
          simp only [indexItem.Less] at h2
          rw [e, bytesLess_irrefl] at h2
          exact absurd h2 (by decide)
        by_cases hx : j = x.key
        · have : j ≠ k := fun e => hne (e ▸ hx)
          have hxk : x.key ≠ k := fun e => hne e.symm
          simp [List.find?, hx, hxk]
        · simp [List.find?, hx, ih]
      · rw [if_neg h2]
        have he : k = x.key := by
          simp only [indexItem.Less, Bool.not_eq_true] at h1 h2
          exact eq_of_not_bytesLess _ _ h1 h2
        by_cases h : j = k
        · simp [List.find?, h]
        · have : j ≠ x.key := fun e => h (e.trans he.symm)
          simp [List.find?, h, this]

theorem BTree.Get_ReplaceOrInsert (t : BTree) (k j : List Byte) (p : record.Pos) :
    (t.ReplaceOrInsert { key := k, pos := p }).Get j
      = if j = k then some { key := k, pos := p } else t.Get j := by
  rw [BTree.Get_eq, BTree.Get_eq]
  exact find_replaceOrInsert t.items k j p

theorem BTree.Get_Delete (t : BTree) (k j : List Byte) :
    (t.Delete k).2.Get j = if j = k then none else t.Get j := by
  rw [BTree.Get_eq, BTree.Get_eq]
  simp only [BTree.Delete]
  have hf : (fun x : indexItem => bytesLess k x.key || bytesLess x.key k)
      = fun x => !decide (k = x.key) := by
    funext x
    have := same_entry_iff k x.key
    rw [← this]
    cases bytesLess k x.key <;> cases bytesLess x.key k <;> rfl
  rw [hf, List.find?_filter]
  by_cases hj : j = k
  · subst hj
    rw [if_pos rfl, List.find?_eq_none]
    intro x _
    simp
  · rw [if_neg hj]
    congr 1
    funext x
    by_cases hx : j = x.key
    · have : k ≠ x.key := fun e => hj (hx.trans e.symm)
      simp [hx, this]
    · simp [hx]

/-- The position that the index holds for a key. -/
theorem BTreeIndex.Get_ok (idx : BTreeIndex) (key : List Byte) (hk : key ≠ []) :
    idx.Get key = match idx.items.Get key with
      | none => .error .keyNotFound
      | some item => .ok item.pos := by
  have : key.length ≠ 0 := fun h => hk (List.length_eq_zero.mp h)
  simp [BTreeIndex.Get, this]

theorem BTreeIndex.Get_empty (idx : BTreeIndex) : idx.Get [] = .error .keyEmpty := rfl

theorem BTreeIndex.Put_ok (idx : BTreeIndex) (key : List Byte) (p : record.Pos)
    (hk : key ≠ []) :
    idx.Put key (some p) = .ok { items := idx.items.ReplaceOrInsert { key := key, pos := p } } := by
  have : key.length ≠ 0 := fun h => hk (List.length_eq_zero.mp h)
  simp [BTreeIndex.Put, this]

theorem BTreeIndex.Delete_ok (idx : BTreeIndex) (key : List Byte) (hk : key ≠ []) :
    idx.Delete key = match idx.items.Get key with
      | none => .error .keyNotFound
      | some _ => .ok { items := (idx.items.Delete key).2 } := by
  have : key.length ≠ 0 := fun h => hk (List.length_eq_zero.mp h)
  simp only [BTreeIndex.Delete, this, if_false, BTree.Delete]
  cases idx.items.Get key <;> rfl

end index

/-! ## The engine on an empty directory -/

namespace bitcask
open wal file_manage

theorem WalMap.get_set (m : WalMap) (fileId j : Nat) (w : WAL) :
    (WalMap.set m fileId w).get j = if j = fileId then some w else m.get j := by
  unfold WalMap.get WalMap.set
  by_cases h : j = fileId
  · subst h
    simp [List.find?]
  · have h' : ¬ fileId = j := fun e => h e.symm
    simp only [List.find?, h', decide_False, h, if_false]
    rw [List.find?_filter]
    congr 2
    funext e
    by_cases he : e.1 = j
    · have : e.1 ≠ fileId := fun x => h (he.symm.trans x)
      simp [he, h]
    · simp [he]

theorem lastOp_append (ops : List Op) (op : Op) (key : List Byte) :
    lastOp (ops ++ [op]) key = if op.key = key then some op else lastOp ops key := by
  simp only [lastOp, List.reverse_append, List.reverse_cons, List.reverse_nil,
    List.nil_append, List.singleton_append, List.find?]
  by_cases h : op.key = key <;> simp [h]

theorem foldl_applyOp (ops : List Op) (key : List Byte) :
    ops.foldl applyOp (fun _ => none) key = expectedGet ops key := by
  induction ops using List.reverseRecOn with
  | nil => rfl
  | append_singleton ops op ih =>
    rw [List.foldl_append, List.foldl_cons, List.foldl_nil]
    unfold expectedGet at ih ⊢
    rw [lastOp_append]
    cases op with
    | put k v =>
      by_cases h : key = k
      · subst h
        simp [applyOp, Op.key]
      · have h' : ¬ k = key := fun e => h e.symm
        simp only [applyOp, Op.key, h, h', if_false]
        exact ih
    | del k =>
      by_cases h : key = k
      · subst h
        simp [applyOp, Op.key]
      · have h' : ¬ k = key := fun e => h e.symm
        simp only [applyOp, Op.key, h, h', if_false]
        exact ih

/-- A read that succeeds on a handle at the end of its file succeeds with
the same bytes after an `Append` on that handle. -/
theorem ReadAt_after_Append (w : WAL) (key value : List Byte) (typ : record.RecordType)
    (h : w.AtEnd) (o s : Nat) (x : List Byte) (hr : w.ReadAt o s = .ok x) :
    (w.Append key value typ).1.ReadAt o s = .ok x := by
  have hb := (Append_AtEnd w key value typ h).1
  unfold WAL.ReadAt FileIO.ReadAt at hr ⊢
  have := OsFile.ReadAt_append w.fileIo.File.bytes
    (record.Header.ToBytes { Key := key, Value := value, RecordType := typ })
    w.fileIo.File.cursor (w.Append key value typ).1.fileIo.File.cursor s o x hr
  rw [← hb] at this
  exact this

theorem ToBytes_ne_nil (h : record.Header) : h.ToBytes ≠ [] := by
  intro e
  have := record.ToBytes_length h
  rw [e] at this
  simp [record.encodedLen] at this
  omega

/-- The record that `Append` has written can be read at the position that
`Append` has returned. -/
theorem ReadAt_appended (w : WAL) (key value : List Byte) (typ : record.RecordType)
    (h : w.AtEnd) :
    (w.Append key value typ).1.ReadAt (w.Append key value typ).2.Offset
        (w.Append key value typ).2.Size
      = .ok (record.Header.ToBytes { Key := key, Value := value, RecordType := typ }) := by
  obtain ⟨hb, _, _, hp⟩ := Append_AtEnd w key value typ h
  rw [hp]
  unfold WAL.ReadAt FileIO.ReadAt
  have := OsFile.ReadAt_tail w.fileIo.File.bytes
    (record.Header.ToBytes { Key := key, Value := value, RecordType := typ })
    (w.Append key value typ).1.fileIo.File.cursor (ToBytes_ne_nil _)
  rw [← hb] at this
  exact this

end bitcask

namespace bitcask
open wal file_manage

theorem getWalFile_ok (b : Bitcask) (id : Nat) (w : WAL) (h : b.getWalFile id = .ok w) :
    (id = b.fileId ∧ w = b.activeWal) ∨ (id ≠ b.fileId ∧ b.olderWal.get id = some w) := by
  unfold Bitcask.getWalFile at h
  by_cases hid : id = b.fileId
  · rw [if_pos hid] at h
    exact Or.inl ⟨hid, (Except.ok.inj h).symm⟩
  · rw [if_neg hid] at h
    cases ho : b.olderWal.get id with
    | none => rw [ho] at h; exact nomatch h
    | some w' =>
      rw [ho] at h
      exact Or.inr ⟨hid, by rw [← Except.ok.inj h]⟩

theorem getWalFile_active (b : Bitcask) : b.getWalFile b.fileId = .ok b.activeWal := by
  simp [Bitcask.getWalFile]

theorem getWalFile_older (b : Bitcask) (id : Nat) (w : WAL) (hid : id ≠ b.fileId)
    (h : b.olderWal.get id = some w) : b.getWalFile id = .ok w := by
  simp [Bitcask.getWalFile, hid, h]

/-- Appending a record to the active segment keeps the engine in agreement
with the same map. -/
theorem Sound.append (b : Bitcask) (m : List Byte → Option (List Byte)) (hs : b.Sound m)
    (key value : List Byte) (typ : record.RecordType) :
    Bitcask.Sound { b with activeWal := (b.activeWal.Append key value typ).1 } m := by
  obtain ⟨_, hend, hid, _⟩ := Append_AtEnd b.activeWal key value typ hs.active_end
  refine ⟨?_, hend, hs.older_lt, hs.absent, ?_, hs.empty⟩
  · exact hid.trans hs.active_id
  · intro k item hget
    obtain ⟨v, w, hm, hw, hr⟩ := hs.present k item hget
    rcases getWalFile_ok b _ w hw with ⟨h1, h2⟩ | ⟨h1, h2⟩
    · refine ⟨v, (b.activeWal.Append key value typ).1, hm, ?_, ?_⟩
      · simp [Bitcask.getWalFile, h1]
      · rw [h2] at hr
        exact ReadAt_after_Append b.activeWal key value typ hs.active_end _ _ _ hr
    · exact ⟨v, w, hm, by simp [Bitcask.getWalFile, h1, h2], hr⟩

/-- Rotation keeps the engine in agreement with the same map. -/
theorem Sound.rotate (b : Bitcask) (m : List Byte → Option (List Byte)) (hs : b.Sound m) :
    b.tryCreateNewWalFile.Sound m := by
  unfold Bitcask.tryCreateNewWalFile
  by_cases ho : b.checkOverFlow = true
  · rw [if_neg (by simp [ho])]
    have hfile : b.file (b.fileId + 1) = none := by
      unfold Bitcask.file
      have h1 : b.fileId + 1 ≠ b.activeWal.GetFileID := by
        have := hs.active_id
        simp only [WAL.GetFileID, FileIO.GetFileID]
        omega
      rw [if_neg h1]
      cases hg : b.olderWal.get (b.fileId + 1) with
      | none => rfl
      | some w =>
        have := hs.older_lt _ _ hg
        omega
    rw [hfile]
    refine ⟨rfl, NewWAL_none_AtEnd _, ?_, hs.absent, ?_, hs.empty⟩
    · intro id w hg
      rw [WalMap.get_set] at hg
      by_cases hid : id = b.fileId
      · simp only [hid]
        omega
      · rw [if_neg hid] at hg
        have := hs.older_lt _ _ hg
        simp only
        omega
    · intro k item hget
      obtain ⟨v, w, hm, hw, hr⟩ := hs.present k item hget
      refine ⟨v, w, hm, ?_, hr⟩
      rcases getWalFile_ok b _ w hw with ⟨h1, h2⟩ | ⟨h1, h2⟩
      · apply getWalFile_older
        · simp only [h1]
          omega
        · simp only
          rw [WalMap.get_set, if_pos h1, h2]
      · apply getWalFile_older
        · have := hs.older_lt _ _ h2
          simp only
          omega
        · simp only
          rw [WalMap.get_set, if_neg h1, h2]
  · rw [if_pos (by simpa using ho)]
    exact hs

end bitcask

namespace bitcask
open wal file_manage

/-- `Put` with a non-empty key keeps the engine in agreement with the map,
which gets the new value for the key. -/
theorem Sound.Put (b : Bitcask) (m : List Byte → Option (List Byte)) (hs : b.Sound m)
    (key value : List Byte) (hk : key ≠ []) :
    (b.Put key value).1.Sound (applyOp m (.put key value)) ∧ (b.Put key value).2 = none := by
  have hs1 := Sound.append b m hs key value record.RecordTypeNormal
  obtain ⟨_, _, hid, hp⟩ :=
    Append_AtEnd b.activeWal key value record.RecordTypeNormal hs.active_end
  unfold Bitcask.Put
  simp only
  rw [index.BTreeIndex.Put_ok _ _ _ hk]
  simp only
  refine ⟨Sound.rotate _ _ ⟨hs1.active_id, hs1.active_end, hs1.older_lt, ?_, ?_, ?_⟩, trivial⟩
  · intro j hget
    simp only at hget
    rw [index.BTree.Get_ReplaceOrInsert] at hget
    by_cases hj : j = key
    · rw [if_pos hj] at hget
      exact nomatch hget
    · rw [if_neg hj] at hget
      simp only [applyOp, hj, if_false]
      exact hs1.absent j hget
  · intro j item hget
    simp only at hget
    rw [index.BTree.Get_ReplaceOrInsert] at hget
    by_cases hj : j = key
    · rw [if_pos hj] at hget
      have hitem := Option.some.inj hget
      subst hj
      refine ⟨value, (b.activeWal.Append j value record.RecordTypeNormal).1, ?_, ?_, ?_⟩
      · simp [applyOp]
      · rw [← hitem]
        simp only
        rw [hp]
        simp only [Bitcask.getWalFile]
        rw [if_pos hs.active_id]
      · rw [← hitem]
        exact ReadAt_appended b.activeWal j value record.RecordTypeNormal hs.active_end
    · rw [if_neg hj] at hget
      obtain ⟨v, w, hm, hw, hr⟩ := hs1.present j item hget
      refine ⟨v, w, ?_, hw, hr⟩
      simp only [applyOp, hj, if_false]
      exact hm
  · have : ([] : List Byte) ≠ key := fun e => hk e.symm
    simp only [applyOp, this, if_false]
    exact hs.empty

/-- `Del` with a non-empty key keeps the engine in agreement with the map,
which loses the key, whether the call returns an error or not. -/
theorem Sound.Del (b : Bitcask) (m : List Byte → Option (List Byte)) (hs : b.Sound m)
    (key : List Byte) (hk : key ≠ []) :
    (b.Del key).1.Sound (applyOp m (.del key)) := by
  have hs1 := Sound.append b m hs key [] record.RecordTypeDeleted
  unfold Bitcask.Del
  simp only
  rw [index.BTreeIndex.Delete_ok _ _ hk]
  cases hg : b.curIndex.items.Get key with
  | none =>
    simp only
    have hm : applyOp m (.del key) = m := by
      funext j
      by_cases hj : j = key
      · simp only [applyOp, hj, if_true]
        exact (hs.absent key hg).symm
      · simp only [applyOp, hj, if_false]
    rw [hm]
    exact hs1
  | some it =>
    simp only
    refine Sound.rotate _ _ ⟨hs1.active_id, hs1.active_end, hs1.older_lt, ?_, ?_, ?_⟩
    · intro j hget
      simp only at hget
      rw [index.BTree.Get_Delete] at hget
      by_cases hj : j = key
      · simp only [applyOp, hj, if_true]
      · rw [if_neg hj] at hget
        simp only [applyOp, hj, if_false]
        exact hs1.absent j hget
    · intro j item hget
      simp only at hget
      rw [index.BTree.Get_Delete] at hget
      by_cases hj : j = key
      · rw [if_pos hj] at hget
        exact nomatch hget
      · rw [if_neg hj] at hget
        obtain ⟨v, w, hm, hw, hr⟩ := hs1.present j item hget
        refine ⟨v, w, ?_, hw, hr⟩
        simp only [applyOp, hj, if_false]
        exact hm
    · have : ([] : List Byte) ≠ key := fun e => hk e.symm
      simp only [applyOp, this, if_false]
      exact hs.empty

theorem Sound.step (b : Bitcask) (m : List Byte → Option (List Byte)) (hs : b.Sound m)
    (op : Op) (hk : op.key ≠ []) : (b.step op).Sound (applyOp m op) := by
  cases op with
  | put key value => exact (Sound.Put b m hs key value hk).1
  | del key => exact Sound.Del b m hs key hk

theorem Sound.run (ops : List Op) (b : Bitcask) (m : List Byte → Option (List Byte))
    (hs : b.Sound m) (hk : ∀ op ∈ ops, op.key ≠ []) :
    (b.run ops).Sound (ops.foldl applyOp m) := by
  induction ops generalizing b m with
  | nil => exact hs
  | cons op rest ih =>
    exact ih _ _ (Sound.step b m hs op (hk op (List.mem_cons_self _ _)))
      (fun o ho => hk o (List.mem_cons_of_mem _ ho))

theorem NewBitcask_empty (config : Config) : NewBitcask config [] = .ok (freshEngine config) :=
  rfl

theorem Sound.fresh (config : Config) : (freshEngine config).Sound (fun _ => none) := by
  refine ⟨rfl, NewWAL_none_AtEnd 0, ?_, fun _ _ => rfl, ?_, rfl⟩
  · intro id w h
    exact nomatch h
  · intro k item h
    exact nomatch h

/-- What `Get` returns on an engine that agrees with a map: not-found for a
key that the map lacks, and for a key with value `v` what the decoding of the
encoded record of the key and `v` gives. -/
theorem Sound.Get (b : Bitcask) (m : List Byte → Option (List Byte)) (hs : b.Sound m)
    (key : List Byte) :
    b.Get key = match m key with
      | none => .ok none
      | some v =>
        match record.FromBytes (record.Header.ToBytes
            { Key := key, Value := v, RecordType := record.RecordTypeNormal }) with
        | .error p => .error p
        | .ok none => .error .nilDeref
        | .ok (some header) =>
          if header.RecordType = record.RecordTypeDeleted then .ok none
          else .ok (some header.Value) := by
  by_cases hk : key = []
  · subst hk
    rw [hs.empty]
    rfl
  · unfold Bitcask.Get
    rw [index.BTreeIndex.Get_ok _ _ hk]
    cases hg : b.curIndex.items.Get key with
    | none =>
      rw [hs.absent key hg]
    | some item =>
      obtain ⟨v, w, hm, hw, hr⟩ := hs.present key item hg
      simp only [hm, hw, hr]

end bitcask

/-! ## Claims on the engine -/

namespace bitcask
open wal file_manage

theorem expectedGet_some (ops : List Op) (key value : List Byte)
    (h : expectedGet ops key = some value) : Op.put key value ∈ ops := by
  unfold expectedGet at h
  cases hl : lastOp ops key with
  | none => rw [hl] at h; exact nomatch h
  | some op =>
    rw [hl] at h
    unfold lastOp at hl
    have hmem := List.mem_reverse.mp (List.mem_of_find?_eq_some hl)
    have hkey := List.find?_some hl
    cases op with
    | put k v =>
      simp only [Op.key, decide_eq_true_eq] at hkey
      simp only [Option.some.injEq] at h
      rw [← hkey, ← h]
      exact hmem
    | del k => exact nomatch h

/-- `Get` after any calls with non-empty keys on an engine opened on an empty
directory, in terms of the decoding of the record last written for the key. -/
theorem Get_run_fresh (config : Config) (ops : List Op) (hkeys : ∀ op ∈ ops, op.key ≠ [])
    (key : List Byte) :
    ((freshEngine config).run ops).Get key = match expectedGet ops key with
      | none => .ok none
      | some v =>
        match record.FromBytes (record.Header.ToBytes
            { Key := key, Value := v, RecordType := record.RecordTypeNormal }) with
        | .error p => .error p
        | .ok none => .error .nilDeref
        | .ok (some header) =>
          if header.RecordType = record.RecordTypeDeleted then .ok none
          else .ok (some header.Value) := by
  have hs := Sound.run ops _ _ (Sound.fresh config) hkeys
  rw [Sound.Get _ _ hs key, foldl_applyOp]

/-- C1, amended: for every sequence of `Put` and `Del` calls with non-empty
keys in which every `Put` writes a record of encoded length
`13 + len(key) + len(value)` below `2^32`, applied to an engine opened on an
empty directory (any `MaxFileSize`), `NewBitcask` succeeds and `Get(k)`
returns `(v, true)` for the value `v` of the most recent `Put(k, v)` when no
`Del(k)` is more recent, and `(nil, false)` otherwise. -/
theorem Get_after_writes (config : Config) (ops : List Op)
    (hkeys : ∀ op ∈ ops, op.key ≠ [])
    (hsmall : ∀ key value, Op.put key value ∈ ops → 13 + key.length + value.length < 2 ^ 32)
    (key : List Byte) :
    ∃ b, NewBitcask config [] = .ok b ∧ (b.run ops).Get key = .ok (expectedGet ops key) := by
  refine ⟨freshEngine config, NewBitcask_empty config, ?_⟩
  rw [Get_run_fresh config ops hkeys key]
  cases he : expectedGet ops key with
  | none => rfl
  | some v =>
    have hlen := hsmall key v (expectedGet_some ops key v he)
    simp only
    rw [record.FromBytes_ToBytes_roundtrip _ hlen]
    simp only
    rw [if_neg (by decide)]

/-- C1, amended, on a run with an overwrite, a delete and two rotations
(`MaxFileSize = 20`). -/
theorem Get_after_writes_witness :
    ∃ b, NewBitcask ⟨20⟩ [] = .ok b
      ∧ (b.run [.put [97] [49], .put [98] [50], .put [99] [51], .del [98],
          .put [97] [57]]).Get [97] = .ok (some [57]) :=
  Get_after_writes ⟨20⟩ [.put [97] [49], .put [98] [50], .put [99] [51], .del [98],
    .put [97] [57]] (by decide) (by
      intro key value h
      simp only [List.mem_cons, Op.put.injEq, List.mem_singleton, List.not_mem_nil,
        or_false] at h
      rcases h with ⟨rfl, rfl⟩ | ⟨rfl, rfl⟩ | ⟨rfl, rfl⟩ | h | ⟨rfl, rfl⟩
      · decide
      · decide
      · decide
      · exact nomatch h
      · decide) [97]

/-- A record with a one-byte key and a value of `2^32` bytes that starts with
four zero bytes does not decode: the value length field holds 0 and the four
zero bytes are read as the checksum. -/
theorem FromBytes_long_value (pad : List Byte) (hp : pad.length = 2 ^ 32 - 4) :
    record.FromBytes (record.Header.ToBytes
      { Key := [1], Value := [0, 0, 0, 0] ++ pad, RecordType := record.RecordTypeNormal })
      = .ok none := by
  rw [record.ToBytes_eq]
  simp only
  have hkl : ([1] : List Byte).length % 2 ^ 32 = ([1] : List Byte).length := rfl
  have hvl : (([0, 0, 0, 0] : List Byte) ++ pad).length % 2 ^ 32 = ([] : List Byte).length := by
    rw [List.length_append, hp]
    rfl
  rw [hkl, hvl]
  generalize crc32.ChecksumIEEE ([record.RecordTypeNormal] ++ binary.be4 ([1] : List Byte).length
    ++ binary.be4 ([] : List Byte).length ++ [1] ++ ([0, 0, 0, 0] ++ pad)) = crc
  have hf := record.FromBytes_frame record.RecordTypeNormal [1] [] [0, 0, 0, 0]
    (pad ++ binary.be4 crc) (by decide) rfl (by
      rw [List.length_append, hp, binary.be4_length]
      decide)
  have e : [record.RecordTypeNormal] ++ binary.be4 ([1] : List Byte).length
      ++ binary.be4 ([] : List Byte).length ++ [1] ++ ([0, 0, 0, 0] ++ pad) ++ binary.be4 crc
      = [record.RecordTypeNormal] ++ binary.be4 ([1] : List Byte).length
      ++ binary.be4 ([] : List Byte).length ++ [1] ++ [] ++ [0, 0, 0, 0]
      ++ (pad ++ binary.be4 crc) := by
    simp only [List.append_assoc, List.append_nil, List.nil_append]
  rw [e, hf, if_pos]
  decide!

/-- After `Put` of the key `[1]` with a value of `2^32` bytes that starts with
four zero bytes, `Get` of that key panics. -/
theorem Get_after_long_Put (pad : List Byte) (hp : pad.length = 2 ^ 32 - 4) :
    ∃ b, NewBitcask ⟨0⟩ [] = .ok b
      ∧ (b.run [.put [1] ([0, 0, 0, 0] ++ pad)]).Get [1] = .error .nilDeref
      ∧ expectedGet [.put [1] ([0, 0, 0, 0] ++ pad)] [1] = some ([0, 0, 0, 0] ++ pad) := by
  have he : expectedGet [.put [1] ([0, 0, 0, 0] ++ pad)] [1] = some ([0, 0, 0, 0] ++ pad) := by
    simp [expectedGet, lastOp, Op.key]
  refine ⟨freshEngine ⟨0⟩, NewBitcask_empty _, ?_, he⟩
  rw [Get_run_fresh ⟨0⟩ _ (by
    intro op h
    simp only [List.mem_singleton] at h
    subst h
    exact fun e => nomatch e) [1], he]
  simp only
  rw [FromBytes_long_value pad hp]

/-- C1, counterexample: on an engine opened on an empty directory, after
`Put` of the key `[1]` with a value of `2^32` zero bytes, `Get` of that key
does not return the value: the stored record does not decode, `FromBytes`
returns nil, and `Get` dereferences it. -/
theorem Get_panics_after_long_Put :
    ∃ b, NewBitcask ⟨0⟩ [] = .ok b
      ∧ (b.run [.put [1] ([0, 0, 0, 0] ++ List.replicate (2 ^ 32 - 4) 0)]).Get [1]
          = .error .nilDeref
      ∧ expectedGet [.put [1] ([0, 0, 0, 0] ++ List.replicate (2 ^ 32 - 4) 0)] [1]
          = some ([0, 0, 0, 0] ++ List.replicate (2 ^ 32 - 4) 0) :=
  Get_after_long_Put (List.replicate (2 ^ 32 - 4) 0) (List.length_replicate _ _)

end bitcask

namespace bitcask
open wal file_manage

/-- On an engine opened on an empty directory, after calls with non-empty
keys whose `Put` records are shorter than `2^32` bytes, the index entry of
every key leads to the `Normal` record of that key and its last value. -/
theorem indexedRecord_fresh (config : Config) (ops : List Op)
    (hkeys : ∀ op ∈ ops, op.key ≠ [])
    (hsmall : ∀ key value, Op.put key value ∈ ops → 13 + key.length + value.length < 2 ^ 32)
    (key : List Byte) (pos : record.Pos)
    (hget : ((freshEngine config).run ops).curIndex.Get key = .ok pos) :
    ∃ value, expectedGet ops key = some value
      ∧ ((freshEngine config).run ops).indexedRecord key
        = .ok (.ok (some ⟨key, value, record.RecordTypeNormal⟩)) := by
  have hs := Sound.run ops _ _ (Sound.fresh config) hkeys
  have hk : key ≠ [] := by
    intro e
    rw [e, index.BTreeIndex.Get_empty] at hget
    exact nomatch hget
  unfold Bitcask.indexedRecord
  rw [index.BTreeIndex.Get_ok _ _ hk] at hget ⊢
  cases hg : ((freshEngine config).run ops).curIndex.items.Get key with
  | none => rw [hg] at hget; exact nomatch hget
  | some item =>
    obtain ⟨v, w, hm, hw, hr⟩ := hs.present key item hg
    rw [foldl_applyOp] at hm
    refine ⟨v, hm, ?_⟩
    simp only [hw, hr]
    rw [record.FromBytes_ToBytes_roundtrip _ (hsmall key v (expectedGet_some ops key v hm))]

/-- C3, the failing input: the directory holds segment 0 with the record
(key "a", value "1") that an earlier engine has written; `NewBitcask` on it
and `Put("b", "2")`.  The write lands at offset 0 of the reopened segment,
over the record of "a": the index entry of "a" leads to bytes that decode to
a record whose key is "b", and the entry of "b" to bytes past the end of the
file. -/
theorem index_entry_of_other_key_after_reopen :
    ((freshEngine ⟨100⟩).run [.put [97] [49]]).reopen.map
        (fun b => (b.run [.put [98] [50]]).curIndex.Get [97]) = .ok (.ok ⟨0, 0, 15⟩)
    ∧ ((freshEngine ⟨100⟩).run [.put [97] [49]]).reopen.map
        (fun b => (b.run [.put [98] [50]]).indexedRecord [97])
      = .ok (.ok (.ok (some ⟨[98], [50], 0⟩)))
    ∧ ((freshEngine ⟨100⟩).run [.put [97] [49]]).reopen.map
        (fun b => (b.run [.put [98] [50]]).curIndex.Get [98]) = .ok (.ok ⟨0, 15, 15⟩)
    ∧ ((freshEngine ⟨100⟩).run [.put [97] [49]]).reopen.map
        (fun b => (b.run [.put [98] [50]]).indexedRecord [98]) = .ok (.error .eof) := by
  decide!

/-- C2, the failing input: the same directory and call as for C3.  Before
the engine is closed `Get("a")` returns "2" and `Get("b")` returns not-found;
after closing and `NewBitcask` on the directory `Get("a")` returns not-found
and `Get("b")` returns "2". -/
theorem Get_differs_after_second_reopen :
    ((freshEngine ⟨100⟩).run [.put [97] [49]]).reopen.map
        (fun b => (b.run [.put [98] [50]]).Get [97]) = .ok (.ok (some [50]))
    ∧ ((freshEngine ⟨100⟩).run [.put [97] [49]]).reopen.map
        (fun b => (b.run [.put [98] [50]]).Get [98]) = .ok (.ok none)
    ∧ ((freshEngine ⟨100⟩).run [.put [97] [49]]).reopen.map
        (fun b => (b.run [.put [98] [50]]).reopen.map (fun b2 => b2.Get [97]))
      = .ok (.ok (.ok none))
    ∧ ((freshEngine ⟨100⟩).run [.put [97] [49]]).reopen.map
        (fun b => (b.run [.put [98] [50]]).reopen.map (fun b2 => b2.Get [98]))
      = .ok (.ok (.ok (some [50]))) := by
  decide!

/-- After `Del` of a key that the index does not hold, on an engine opened on
an empty directory, the segment holds a tombstone that replay rejects:
`NewBitcask` on the closed directory returns an error. -/
theorem reopen_fails_after_Del_of_absent_key :
    ((freshEngine ⟨100⟩).Del [97]).2 = some .keyNotFound
    ∧ ((freshEngine ⟨100⟩).run [.del [97]]).reopen = .error (.error .keyNotFound) := by
  decide!

end bitcask

/-! ## Replay -/

namespace wal
open file_manage

theorem OsFile.ReadAt_mid (a x b : List Byte) (c : Nat) (hx : x ≠ []) :
    OsFile.ReadAt { bytes := a ++ x ++ b, cursor := c } x.length a.length = .ok x := by
  unfold OsFile.ReadAt
  have h0 : x.length ≠ 0 := fun h => hx (List.length_eq_zero.mp h)
  rw [if_neg h0, if_pos (by simp)]
  congr 1
  rw [List.append_assoc, List.drop_left, List.take_left]

theorem OsFile.ReadAt_short (bytes : List Byte) (c n off : Nat) (hn : n ≠ 0)
    (h : bytes.length < off + n) :
    OsFile.ReadAt { bytes := bytes, cursor := c } n off = .error .eof := by
  unfold OsFile.ReadAt
  rw [if_neg hn, if_neg (by simp; omega)]

theorem WAL.ReadAt_within (w : WAL) (a x b : List Byte) (hx : x ≠ [])
    (hb : w.fileIo.File.bytes = a ++ x ++ b) (off n : Nat) (ho : off = a.length)
    (hn : n = x.length) : w.ReadAt off n = .ok x := by
  subst ho hn
  unfold WAL.ReadAt FileIO.ReadAt
  have := OsFile.ReadAt_mid a x b w.fileIo.File.cursor hx
  rw [← hb] at this
  exact this

theorem WAL.ReadAt_past_end (w : WAL) (off n : Nat) (hn : n ≠ 0)
    (h : w.fileIo.File.bytes.length < off + n) : w.ReadAt off n = .error .eof := by
  unfold WAL.ReadAt FileIO.ReadAt
  exact OsFile.ReadAt_short _ _ _ _ hn h

theorem Uint32_be4_of_lt (n : Nat) (h : n < 2 ^ 32) : binary.Uint32 (binary.be4 n) = .ok n := by
  have := binary.Uint32_be4 n []
  rw [List.append_nil, Nat.mod_eq_of_lt h] at this
  exact this

/-- The loop of `LoadWal` stops without an error where fewer than nine bytes
are left. -/
theorem loadLoop_short_header (w : WAL) (fuel offset : Nat) (idx : index.BTreeIndex)
    (h : w.fileIo.File.bytes.length < offset + 9) :
    w.loadLoop (fuel + 1) offset idx = .ok (offset, idx) := by
  unfold WAL.loadLoop
  simp only
  rw [WAL.ReadAt_past_end w offset (1 + 4 + 4) (by decide) (by omega)]

/-- One turn of the loop of `LoadWal` on a framed record whose length fields
hold the lengths of `k` and `v` and whose four checksum bytes are `c`. -/
theorem loadLoop_frame (w : WAL) (pre tail : List Byte) (t : Byte) (k v c : List Byte)
    (fuel : Nat) (idx : index.BTreeIndex)
    (hb : w.fileIo.File.bytes
      = pre ++ ([t] ++ binary.be4 k.length ++ binary.be4 v.length ++ (k ++ v ++ c)) ++ tail)
    (hk : 13 + k.length + v.length < 2 ^ 32) (hc : c.length = 4) :
    w.loadLoop (fuel + 1) pre.length idx
      = if binary.bigEndian c
            ≠ crc32.ChecksumIEEE ([t] ++ binary.be4 k.length ++ binary.be4 v.length ++ k ++ v)
        then .error (.error .crcFailed)
        else
          match applyRecord w.GetFileID pre.length ⟨k, v, t⟩ idx with
          | .error e => .error (.error e)
          | .ok idx1 => w.loadLoop fuel (pre.length + (13 + k.length + v.length)) idx1 := by
  have l4 : ∀ n, (binary.be4 n).length = 4 := fun _ => rfl
  have hh : w.ReadAt pre.length (1 + 4 + 4)
      = .ok ([t] ++ binary.be4 k.length ++ binary.be4 v.length) := by
    apply WAL.ReadAt_within w pre _ (k ++ v ++ c ++ tail) (by simp) _ _ _ rfl (by simp [l4])
    rw [hb]
    simp only [List.append_assoc]
  have hr : w.ReadAt (pre.length + (1 + 4 + 4)) (k.length + v.length + 4) = .ok (k ++ v ++ c) := by
    apply WAL.ReadAt_within w (pre ++ ([t] ++ binary.be4 k.length ++ binary.be4 v.length))
      _ tail _ _ _ _ (by simp [l4]) (by simp [hc]; omega)
    · intro e
      have := congrArg List.length e
      simp [hc] at this
    · rw [hb]
      simp only [List.append_assoc]
  have s1 : GoSlice.sub ([t] ++ binary.be4 k.length ++ binary.be4 v.length) 1 5
      = binary.be4 k.length := GoSlice.sub_mid [t] _ _ 1 5 rfl rfl
  have s2 : GoSlice.sub ([t] ++ binary.be4 k.length ++ binary.be4 v.length) 5 9
      = binary.be4 v.length :=
    GoSlice.sub_end ([t] ++ binary.be4 k.length) _ 5 9 (by simp [l4]) (by simp [l4])
  have hhead : ([t] ++ binary.be4 k.length ++ binary.be4 v.length).head? = some t := rfl
  have m1 : (k.length + v.length) % 2 ^ 32 = k.length + v.length :=
    Nat.mod_eq_of_lt (by omega)
  have m2 : (k.length + v.length + 4) % 2 ^ 32 = k.length + v.length + 4 :=
    Nat.mod_eq_of_lt (by omega)
  have hlen : (k ++ v ++ c).length = k.length + v.length + 4 := by simp [hc]; omega
  have g1 : GoSlice.slice (k ++ v ++ c) 0 k.length = .ok k := by
    rw [GoSlice.slice_ok _ _ _ (by omega) (by omega)]
    have := GoSlice.sub_start k (v ++ c) k.length rfl
    simp only [List.append_assoc] at this ⊢
    rw [this]
  have g2 : GoSlice.slice (k ++ v ++ c) k.length (k.length + v.length) = .ok v := by
    rw [GoSlice.slice_ok _ _ _ (by omega) (by omega)]
    rw [GoSlice.sub_mid k v c _ _ rfl rfl]
  have g3 : GoSlice.slice (k ++ v ++ c) (k.length + v.length) (k.length + v.length + 4)
      = .ok c := by
    rw [GoSlice.slice_ok _ _ _ (by omega) (by omega)]
    rw [GoSlice.sub_end (k ++ v) c _ _ (by simp) (by simp [hc])]
  have hu : binary.Uint32 c = .ok (binary.bigEndian c) := by
    have := binary.Uint32_of_length c [] hc
    rw [List.append_nil] at this
    exact this
  have hbody : GoSlice.sub ([t] ++ binary.be4 k.length ++ binary.be4 v.length ++ (k ++ v ++ c))
      0 (13 + k.length + v.length - 4)
      = [t] ++ binary.be4 k.length ++ binary.be4 v.length ++ k ++ v := by
    have := GoSlice.sub_start ([t] ++ binary.be4 k.length ++ binary.be4 v.length ++ k ++ v) c
      (13 + k.length + v.length - 4) (by simp [l4]; omega)
    simp only [List.append_assoc] at this ⊢
    rw [this]
  have hoff : pre.length + (1 + 4 + 4) + (k.length + v.length + 4)
      = pre.length + (13 + k.length + v.length) := by omega
  have hpos : pre.length + (13 + k.length + v.length) - (13 + k.length + v.length)
      = pre.length := by omega
  have hsz : 1 + 4 + 4 + (k.length + v.length + 4) = 13 + k.length + v.length := by omega
  rw [WAL.loadLoop]
  simp only [hh, hhead, s1, s2, Uint32_be4_of_lt _ (show k.length < 2 ^ 32 by omega),
    Uint32_be4_of_lt _ (show v.length < 2 ^ 32 by omega), hr, m1, m2, g1, g2, g3, hu,
    bind, Except.bind, hoff, hsz, hbody, hpos, applyRecord]
  by_cases hcrc : binary.bigEndian c
      = crc32.ChecksumIEEE ([t] ++ binary.be4 k.length ++ binary.be4 v.length ++ k ++ v)
  · simp only [hcrc, ne_eq, not_true_eq_false, if_false]
    by_cases h1 : t = record.RecordTypeNormal
    · simp only [h1, if_true]
    · simp only [h1, if_false]
      by_cases h2 : t = record.RecordTypeDeleted
      · simp only [h2, if_true]
      · simp only [h2, if_false]
  · simp only [hcrc, ne_eq, not_false_eq_true, if_true]

end wal

namespace wal
open file_manage

theorem encodeAll_length_ge (recs : List record.Header) :
    13 * recs.length ≤ (encodeAll recs).length := by
  induction recs with
  | nil => simp [encodeAll]
  | cons r rest ih =>
    have := record.ToBytes_length r
    simp only [record.encodedLen] at this
    simp only [encodeAll, List.length_append, List.length_cons, this]
    omega

theorem ToBytes_frame (r : record.Header) (hs : 13 + r.Key.length + r.Value.length < 2 ^ 32) :
    r.ToBytes = [r.RecordType] ++ binary.be4 r.Key.length ++ binary.be4 r.Value.length
      ++ (r.Key ++ r.Value ++ binary.be4 (crc32.ChecksumIEEE ([r.RecordType]
        ++ binary.be4 r.Key.length ++ binary.be4 r.Value.length ++ r.Key ++ r.Value))) := by
  rw [record.ToBytes_eq, Nat.mod_eq_of_lt (show r.Key.length < 2 ^ 32 by omega),
    Nat.mod_eq_of_lt (show r.Value.length < 2 ^ 32 by omega)]
  simp only [List.append_assoc]

/-- One turn of the loop of `LoadWal` on the encoding of a record shorter than
`2^32` bytes. -/
theorem loadLoop_record (w : WAL) (pre tail : List Byte) (r : record.Header) (fuel : Nat)
    (idx : index.BTreeIndex) (hb : w.fileIo.File.bytes = pre ++ r.ToBytes ++ tail)
    (hs : 13 + r.Key.length + r.Value.length < 2 ^ 32) :
    w.loadLoop (fuel + 1) pre.length idx
      = match applyRecord w.GetFileID pre.length r idx with
        | .error e => .error (.error e)
        | .ok idx1 =>
          w.loadLoop fuel (pre.length + (13 + r.Key.length + r.Value.length)) idx1 := by
  rw [ToBytes_frame r hs] at hb
  rw [loadLoop_frame w pre tail r.RecordType r.Key r.Value _ fuel idx hb hs rfl,
    binary.bigEndian_be4, Nat.mod_eq_of_lt (crc32.ChecksumIEEE_lt _), if_neg (by simp)]

/-- The loop of `LoadWal` over consecutive encoded records, each shorter than
`2^32` bytes: the index is updated in order, and the loop goes on behind the
last record unless an index call has returned an error. -/
theorem loadLoop_records (w : WAL) (recs : List record.Header) (pre tail : List Byte)
    (fuel : Nat) (idx : index.BTreeIndex)
    (hb : w.fileIo.File.bytes = pre ++ encodeAll recs ++ tail) (hs : AllSmall recs) :
    w.loadLoop (recs.length + fuel) pre.length idx
      = match replay w.GetFileID pre.length recs idx with
        | .error e => .error (.error e)
        | .ok idx1 => w.loadLoop fuel (pre.length + (encodeAll recs).length) idx1 := by
  induction recs generalizing pre idx with
  | nil => simp [replay, encodeAll]
  | cons r rest ih =>
    have hr : 13 + r.Key.length + r.Value.length < 2 ^ 32 := hs r (List.mem_cons_self _ _)
    have hrest : AllSmall rest := fun x hx => hs x (List.mem_cons_of_mem _ hx)
    have hb1 : w.fileIo.File.bytes = pre ++ r.ToBytes ++ (encodeAll rest ++ tail) := by
      rw [hb]
      simp only [encodeAll, List.append_assoc]
    have hb2 : w.fileIo.File.bytes = (pre ++ r.ToBytes) ++ encodeAll rest ++ tail := by
      rw [hb]
      simp only [encodeAll, List.append_assoc]
    have hl : (pre ++ r.ToBytes).length = pre.length + (13 + r.Key.length + r.Value.length) := by
      rw [List.length_append, record.ToBytes_length]
      rfl
    have hf : (r :: rest).length + fuel = (rest.length + fuel) + 1 := by
      simp only [List.length_cons]
      omega
    rw [hf, loadLoop_record w pre _ r _ idx hb1 hr]
    simp only [replay]
    cases applyRecord w.GetFileID pre.length r idx with
    | error e => rfl
    | ok idx1 =>
      simp only
      have := ih (pre ++ r.ToBytes) idx1 hb2 hrest
      rw [hl] at this
      rw [this]
      have hlen : pre.length + (13 + r.Key.length + r.Value.length) + (encodeAll rest).length
          = pre.length + (encodeAll (r :: rest)).length := by
        simp only [encodeAll, List.length_append, record.ToBytes_length, record.encodedLen]
        omega
      rw [hlen]

/-- `LoadWal` on a segment that starts with encoded records, each shorter than
`2^32` bytes: the records are replayed in order, and unless an index call
returns an error the loop goes on behind them with fuel left. -/
theorem LoadWal_records (w : WAL) (recs : List record.Header) (tail : List Byte)
    (idx : index.BTreeIndex) (hb : w.fileIo.File.bytes = encodeAll recs ++ tail)
    (hs : AllSmall recs) :
    ∃ fuel, w.LoadWal idx
      = match replay w.GetFileID 0 recs idx with
        | .error e => .error (.error e)
        | .ok idx1 =>
          match w.loadLoop (fuel + 1) (encodeAll recs).length idx1 with
          | .error e => .error e
          | .ok (offset, idx2) => .ok (w.SetOffset offset, idx2) := by
  have hge := encodeAll_length_ge recs
  have hlen : w.fileIo.File.bytes.length = (encodeAll recs).length + tail.length := by
    rw [hb, List.length_append]
  refine ⟨w.fileIo.File.bytes.length - recs.length, ?_⟩
  have hf : w.fileIo.File.bytes.length + 1
      = recs.length + (w.fileIo.File.bytes.length - recs.length + 1) := by omega
  unfold WAL.LoadWal
  rw [hf]
  have := loadLoop_records w recs [] tail (w.fileIo.File.bytes.length - recs.length + 1) idx
    (by rw [hb]; simp) hs
  simp only [List.length_nil, Nat.zero_add] at this
  rw [this]
  cases replay w.GetFileID 0 recs idx <;> rfl

/-- With non-empty keys and every tombstone's key present when it is reached,
no index call of the replay returns an error. -/
theorem replay_of_Replayable (fileID offset : Nat) (recs : List record.Header)
    (idx : index.BTreeIndex) (h : Replayable fileID offset recs idx) :
    replay fileID offset recs idx = .ok (updateAll fileID offset recs idx) := by
  induction recs generalizing offset idx with
  | nil => rfl
  | cons r rest ih =>
    obtain ⟨hk, hd, hrest⟩ := h
    have ha : applyRecord fileID offset r idx = .ok (updateOne fileID offset r idx) := by
      unfold applyRecord updateOne
      by_cases h1 : r.RecordType = record.RecordTypeNormal
      · rw [if_pos h1, if_pos h1, index.BTreeIndex.Put_ok _ _ _ hk]
      · rw [if_neg h1, if_neg h1]
        by_cases h2 : r.RecordType = record.RecordTypeDeleted
        · rw [if_pos h2, if_pos h2, index.BTreeIndex.Delete_ok _ _ hk]
          have := hd h2
          cases hg : idx.items.Get r.Key with
          | none => rw [hg] at this; exact absurd this (by decide)
          | some it => rfl
        · rw [if_neg h2, if_neg h2]
    simp only [replay, updateAll, ha]
    exact ih _ _ hrest

/-- C11, amended: for every segment whose bytes are the concatenation of the
encodings of records with non-empty keys, each of encoded length below `2^32`,
in which each tombstone's key is in the index when it is reached, `LoadWal` on
an index returns no error, leaves the index updated in order by the records
(`Normal`: the key maps to the segment id, the start offset of the record and
its encoded length; tombstone: the key is removed; other types: no change),
and sets the tail of the segment to the total byte length. -/
theorem LoadWal_replays (w : WAL) (recs : List record.Header) (idx : index.BTreeIndex)
    (hb : w.fileIo.File.bytes = encodeAll recs) (hs : AllSmall recs)
    (hr : Replayable w.GetFileID 0 recs idx) :
    w.LoadWal idx
      = .ok (w.SetOffset (encodeAll recs).length, updateAll w.GetFileID 0 recs idx) := by
  obtain ⟨fuel, h⟩ := LoadWal_records w recs [] idx (by rw [hb]; simp) hs
  rw [h, replay_of_Replayable _ _ _ _ hr]
  simp only
  rw [loadLoop_short_header w fuel _ _ (by rw [hb]; omega)]

end wal

/-! ## Claims on replay -/

namespace wal
open file_manage

/-- C11, amended, on a segment with a `Normal` record for the key "a", a
tombstone for "a" and a `Normal` record for "b". -/
theorem LoadWal_replays_witness :
    (NewWAL (some (encodeAll [⟨[97], [49], 0⟩, ⟨[97], [], 1⟩, ⟨[98], [50], 0⟩])) 4).LoadWal
        index.NewBTreeIndex
      = .ok ((NewWAL (some (encodeAll [⟨[97], [49], 0⟩, ⟨[97], [], 1⟩,
            ⟨[98], [50], 0⟩])) 4).SetOffset 44,
          ⟨⟨[⟨[98], ⟨4, 29, 15⟩⟩]⟩⟩) :=
  LoadWal_replays (NewWAL (some (encodeAll [⟨[97], [49], 0⟩, ⟨[97], [], 1⟩,
      ⟨[98], [50], 0⟩])) 4) [⟨[97], [49], 0⟩, ⟨[97], [], 1⟩, ⟨[98], [50], 0⟩]
    index.NewBTreeIndex rfl
    (by
      intro r hr
      simp only [List.mem_cons, List.mem_singleton, List.not_mem_nil, or_false] at hr
      rcases hr with rfl | rfl | rfl <;> decide)
    ⟨by decide, fun h => absurd h (by decide), by decide, fun _ => by decide, by decide,
      fun h => absurd h (by decide), trivial⟩

/-- A segment that holds the one record with key `[1]` and a value of `2^32`
bytes that starts with four zero bytes: replay reads the value length 0 and
the four zero bytes as the checksum, and returns the CRC error. -/
theorem LoadWal_long_value (pad : List Byte) (hp : pad.length = 2 ^ 32 - 4)
    (idx : index.BTreeIndex) :
    (NewWAL (some (encodeAll [⟨[1], [0, 0, 0, 0] ++ pad, record.RecordTypeNormal⟩])) 0).LoadWal
      idx = .error (.error .crcFailed) := by
  have hvl : (([0, 0, 0, 0] : List Byte) ++ pad).length % 2 ^ 32 = ([] : List Byte).length := by
    rw [List.length_append, hp]
    rfl
  have hkl : ([1] : List Byte).length % 2 ^ 32 = ([1] : List Byte).length := rfl
  have hb : (NewWAL (some (encodeAll [⟨[1], [0, 0, 0, 0] ++ pad,
      record.RecordTypeNormal⟩])) 0).fileIo.File.bytes
      = [] ++ ([record.RecordTypeNormal] ++ binary.be4 ([1] : List Byte).length
        ++ binary.be4 ([] : List Byte).length ++ ([1] ++ [] ++ [0, 0, 0, 0]))
        ++ (pad ++ binary.be4 (crc32.ChecksumIEEE ([record.RecordTypeNormal]
          ++ binary.be4 ([1] : List Byte).length ++ binary.be4 ([] : List Byte).length
          ++ [1] ++ ([0, 0, 0, 0] ++ pad)))) := by
    show encodeAll [⟨[1], [0, 0, 0, 0] ++ pad, record.RecordTypeNormal⟩] = _
    simp only [encodeAll]
    rw [record.ToBytes_eq]
    simp only
    rw [hkl, hvl]
    simp only [List.append_assoc, List.append_nil, List.nil_append]
  unfold WAL.LoadWal
  have := loadLoop_frame _ [] _ record.RecordTypeNormal [1] [] [0, 0, 0, 0]
    (NewWAL (some (encodeAll [⟨[1], [0, 0, 0, 0] ++ pad,
      record.RecordTypeNormal⟩])) 0).fileIo.File.bytes.length idx hb (by decide) rfl
  rw [List.length_nil] at this
  rw [this, if_pos (by decide!)]

/-- C11, counterexample: the segment holds the encoding of one `Normal` record
with the non-empty key `[1]` and a value of `2^32` zero bytes; `LoadWal` on the
empty index returns an error. -/
theorem LoadWal_rejects_long_record :
    (NewWAL (some (encodeAll [⟨[1], [0, 0, 0, 0] ++ List.replicate (2 ^ 32 - 4) 0,
        record.RecordTypeNormal⟩])) 0).LoadWal index.NewBTreeIndex
      = .error (.error .crcFailed) :=
  LoadWal_long_value (List.replicate (2 ^ 32 - 4) 0) (List.length_replicate _ _) _

end wal

namespace wal
open file_manage

/-- One turn of the loop of `LoadWal` on a record cut short behind its
nine-byte header: the read of the rest of the record reports `io.EOF`, which
is returned as an error. -/
theorem loadLoop_truncated (w : WAL) (pre : List Byte) (r : record.Header) (m fuel : Nat)
    (idx : index.BTreeIndex) (hb : w.fileIo.File.bytes = pre ++ r.ToBytes.take m)
    (hs : 13 + r.Key.length + r.Value.length < 2 ^ 32) (h9 : 9 ≤ m)
    (hm : m < r.ToBytes.length) :
    w.loadLoop (fuel + 1) pre.length idx = .error (.error .eof) := by
  have l4 : ∀ n, (binary.be4 n).length = 4 := fun _ => rfl
  rw [record.ToBytes_length] at hm
  simp only [record.encodedLen] at hm
  have hsplit : r.ToBytes.take m
      = ([r.RecordType] ++ binary.be4 r.Key.length ++ binary.be4 r.Value.length)
        ++ (r.Key ++ r.Value ++ binary.be4 (crc32.ChecksumIEEE ([r.RecordType]
          ++ binary.be4 r.Key.length ++ binary.be4 r.Value.length ++ r.Key
          ++ r.Value))).take (m - 9) := by
    rw [ToBytes_frame r hs, List.take_append_eq_append_take, List.take_of_length_le]
    · simp [l4]
    · simp [l4]
      exact h9
  have hlen : w.fileIo.File.bytes.length = pre.length + m := by
    rw [hb, List.length_append, List.length_take, record.ToBytes_length]
    simp only [record.encodedLen]
    omega
  have hh : w.ReadAt pre.length (1 + 4 + 4)
      = .ok ([r.RecordType] ++ binary.be4 r.Key.length ++ binary.be4 r.Value.length) := by
    apply WAL.ReadAt_within w pre _ ((r.Key ++ r.Value ++ binary.be4 (crc32.ChecksumIEEE
      ([r.RecordType] ++ binary.be4 r.Key.length ++ binary.be4 r.Value.length ++ r.Key
        ++ r.Value))).take (m - 9)) (by simp) _ _ _ rfl (by simp [l4])
    rw [hb, hsplit]
    simp only [List.append_assoc]
  have s1 : GoSlice.sub ([r.RecordType] ++ binary.be4 r.Key.length
      ++ binary.be4 r.Value.length) 1 5 = binary.be4 r.Key.length :=
    GoSlice.sub_mid [r.RecordType] _ _ 1 5 rfl rfl
  have s2 : GoSlice.sub ([r.RecordType] ++ binary.be4 r.Key.length
      ++ binary.be4 r.Value.length) 5 9 = binary.be4 r.Value.length :=
    GoSlice.sub_end ([r.RecordType] ++ binary.be4 r.Key.length) _ 5 9 (by simp [l4])
      (by simp [l4])
  have hhead : ([r.RecordType] ++ binary.be4 r.Key.length
      ++ binary.be4 r.Value.length).head? = some r.RecordType := rfl
  have hr : w.ReadAt (pre.length + (1 + 4 + 4)) (r.Key.length + r.Value.length + 4)
      = .error .eof := WAL.ReadAt_past_end w _ _ (by omega) (by omega)
  rw [WAL.loadLoop]
  simp only [hh, hhead, s1, s2, Uint32_be4_of_lt _ (show r.Key.length < 2 ^ 32 by omega),
    Uint32_be4_of_lt _ (show r.Value.length < 2 ^ 32 by omega), hr]

/-- C12, counterexample: a segment that holds only the first byte of an
encoded record, and a segment that holds one encoded record followed by the
first eight bytes of another.  The read of the nine header bytes reports
`io.EOF`, which ends the loop: `LoadWal` returns no error and sets the tail
behind the last complete record. -/
theorem LoadWal_ignores_short_header :
    (NewWAL (some ((record.Header.ToBytes ⟨[97], [49], 0⟩).take 1)) 0).LoadWal
        index.NewBTreeIndex
      = .ok ((NewWAL (some ((record.Header.ToBytes ⟨[97], [49], 0⟩).take 1)) 0).SetOffset 0,
          index.NewBTreeIndex)
    ∧ (NewWAL (some (encodeAll [⟨[97], [49], 0⟩]
          ++ (record.Header.ToBytes ⟨[98], [50], 0⟩).take 8)) 0).LoadWal index.NewBTreeIndex
      = .ok ((NewWAL (some (encodeAll [⟨[97], [49], 0⟩]
          ++ (record.Header.ToBytes ⟨[98], [50], 0⟩).take 8)) 0).SetOffset 15,
          ⟨⟨[⟨[97], ⟨0, 0, 15⟩⟩]⟩⟩) := by
  decide!

/-- C12, amended: for every segment whose bytes are a (possibly empty)
sequence of encoded records followed by a proper prefix of one more encoded
record that holds at least the nine header bytes, all records shorter than
`2^32` bytes, `LoadWal` returns an error. -/
theorem LoadWal_truncated (w : WAL) (recs : List record.Header) (r : record.Header) (m : Nat)
    (idx : index.BTreeIndex)
    (hb : w.fileIo.File.bytes = encodeAll recs ++ r.ToBytes.take m)
    (hs : AllSmall recs) (hr : 13 + r.Key.length + r.Value.length < 2 ^ 32)
    (h9 : 9 ≤ m) (hm : m < r.ToBytes.length) :
    ∃ e, w.LoadWal idx = .error (.error e) := by
  obtain ⟨fuel, h⟩ := LoadWal_records w recs _ idx hb hs
  rw [h]
  cases replay w.GetFileID 0 recs idx with
  | error e => exact ⟨e, rfl⟩
  | ok idx1 =>
    simp only
    rw [loadLoop_truncated w (encodeAll recs) r m fuel idx1 hb hr h9 hm]
    exact ⟨.eof, rfl⟩

/-- C12, amended, on a segment with one record and the first twelve bytes of
another. -/
theorem LoadWal_truncated_witness :
    ∃ e, (NewWAL (some (encodeAll [⟨[97], [49], 0⟩]
        ++ (record.Header.ToBytes ⟨[98], [50], 0⟩).take 12)) 0).LoadWal index.NewBTreeIndex
      = .error (.error e) :=
  LoadWal_truncated _ [⟨[97], [49], 0⟩] ⟨[98], [50], 0⟩ 12 _ rfl
    (by
      intro r hr
      simp only [List.mem_singleton] at hr
      subst hr
      decide)
    (by decide) (by decide) (by decide)

/-- With a proper prefix of one to eight bytes behind the records, `LoadWal`
returns what the replay of the records returns and sets the tail behind
them. -/
theorem LoadWal_short_tail (w : WAL) (recs : List record.Header) (tail : List Byte)
    (idx : index.BTreeIndex) (hb : w.fileIo.File.bytes = encodeAll recs ++ tail)
    (hs : AllSmall recs) (ht : tail.length < 9) :
    w.LoadWal idx
      = match replay w.GetFileID 0 recs idx with
        | .error e => .error (.error e)
        | .ok idx1 => .ok (w.SetOffset (encodeAll recs).length, idx1) := by
  obtain ⟨fuel, h⟩ := LoadWal_records w recs tail idx hb hs
  rw [h]
  cases replay w.GetFileID 0 recs idx with
  | error e => rfl
  | ok idx1 =>
    simp only
    rw [loadLoop_short_header w fuel _ _ (by rw [hb, List.length_append]; omega)]

end wal

/-! ## Changed checksum bytes in a segment -/

namespace wal
open file_manage

/-- Replay stops with the CRC error at a record whose four checksum bytes
have been replaced by different ones, when no index call on the records
before it has returned an error first. -/
theorem LoadWal_changed_crc (w : WAL) (recs1 recs2 : List record.Header) (r : record.Header)
    (c : List Byte) (idx : index.BTreeIndex)
    (hb : w.fileIo.File.bytes
      = encodeAll recs1 ++ record.replaceCrc r.ToBytes c ++ encodeAll recs2)
    (hs : AllSmall recs1) (hr : 13 + r.Key.length + r.Value.length < 2 ^ 32)
    (hc : c.length = 4) (hne : c ≠ r.ToBytes.drop (r.ToBytes.length - 4)) :
    w.LoadWal idx
      = match replay w.GetFileID 0 recs1 idx with
        | .error e => .error (.error e)
        | .ok _ => .error (.error .crcFailed) := by
  rw [record.drop_ToBytes, Nat.mod_eq_of_lt (show r.Key.length < 2 ^ 32 by omega),
    Nat.mod_eq_of_lt (show r.Value.length < 2 ^ 32 by omega)] at hne
  rw [record.replaceCrc_ToBytes, Nat.mod_eq_of_lt (show r.Key.length < 2 ^ 32 by omega),
    Nat.mod_eq_of_lt (show r.Value.length < 2 ^ 32 by omega)] at hb
  obtain ⟨fuel, h⟩ := LoadWal_records w recs1 _ idx
    (by rw [hb, List.append_assoc]) hs
  rw [h]
  cases replay w.GetFileID 0 recs1 idx with
  | error e => rfl
  | ok idx1 =>
    simp only
    have hf := loadLoop_frame w (encodeAll recs1) (encodeAll recs2) r.RecordType r.Key r.Value c
      fuel idx1 (by rw [hb]; simp only [List.append_assoc]) hr hc
    rw [hf, if_pos]
    intro hbe
    apply hne
    apply binary.bigEndian_inj c _ hc (binary.be4_length _)
    rw [hbe, binary.bigEndian_be4, Nat.mod_eq_of_lt (crc32.ChecksumIEEE_lt _)]

end wal

namespace bitcask
open wal

/-- The loop of `Bitcask.load` returns an error when one of the segments it
is to replay makes `LoadWal` return an error on every index. -/
theorem loadSegments_error (config : Config) (disk : Disk) (fileIds : List Nat) (fileId : Nat)
    (h : ∀ idx, ∃ e, (NewWAL (disk.file fileId) fileId).LoadWal idx = .error e)
    (ids : List Nat) (hm : fileId ∈ ids) (olderWal : WalMap) (curIndex : index.BTreeIndex) :
    ∃ e, loadSegments config disk fileIds ids olderWal curIndex = .error e := by
  induction ids generalizing olderWal curIndex with
  | nil => cases hm
  | cons id rest ih =>
    rw [loadSegments]
    cases hl : (NewWAL (disk.file id) id).LoadWal curIndex with
    | error e => exact ⟨e, rfl⟩
    | ok p =>
      have hid : id ≠ fileId := by
        intro e
        subst e
        obtain ⟨e, he⟩ := h curIndex
        rw [he] at hl
        cases hl
      have hrest : fileId ∈ rest := by
        rcases List.mem_cons.mp hm with e | e
        · exact absurd e.symm hid
        · exact e
      simp only
      rw [if_neg (List.ne_nil_of_mem hrest)]
      exact ih hrest _ _

/-- The function `NewBitcask` returns an error when the directory holds a
segment on which `LoadWal` returns an error on every index. -/
theorem NewBitcask_error (config : Config) (disk : Disk) (fileId : Nat) (bytes : List Byte)
    (hf : disk.file fileId = some bytes)
    (h : ∀ idx, ∃ e, (NewWAL (some bytes) fileId).LoadWal idx = .error e) :
    ∃ e, NewBitcask config disk = .error e := by
  unfold NewBitcask
  apply loadSegments_error config disk _ fileId (by rw [hf]; exact h)
  rw [(List.perm_insertionSort _ _).mem_iff, List.mem_map]
  unfold Disk.file at hf
  cases hfind : disk.find? (fun e => decide (e.1 = fileId)) with
  | none => rw [hfind] at hf; cases hf
  | some e =>
    refine ⟨e, List.mem_of_find?_eq_some hfind, ?_⟩
    simpa using List.find?_some hfind

end bitcask

namespace bitcask
open wal

/-- C13, amended: for every segment made of encoded records in which the four
stored CRC bytes of one record have been replaced by four different bytes,
that record and the records before it shorter than `2^32` bytes, `LoadWal` on
every handle of the segment and every index returns an error, and
`NewBitcask` on every directory that holds the segment returns an error. -/
theorem LoadWal_fails_on_changed_crc (recs1 recs2 : List record.Header) (r : record.Header)
    (c : List Byte) (hs : AllSmall recs1) (hr : 13 + r.Key.length + r.Value.length < 2 ^ 32)
    (hc : c.length = 4) (hne : c ≠ r.ToBytes.drop (r.ToBytes.length - 4)) :
    (∀ (w : WAL) (idx : index.BTreeIndex),
        w.fileIo.File.bytes
            = encodeAll recs1 ++ record.replaceCrc r.ToBytes c ++ encodeAll recs2 →
          ∃ e, w.LoadWal idx = .error (.error e))
      ∧ ∀ (config : Config) (disk : Disk) (fileId : Nat),
          disk.file fileId
              = some (encodeAll recs1 ++ record.replaceCrc r.ToBytes c ++ encodeAll recs2) →
            ∃ e, NewBitcask config disk = .error e := by
  have h1 : ∀ (w : WAL) (idx : index.BTreeIndex),
      w.fileIo.File.bytes
          = encodeAll recs1 ++ record.replaceCrc r.ToBytes c ++ encodeAll recs2 →
        ∃ e, w.LoadWal idx = .error (.error e) := by
    intro w idx hb
    rw [LoadWal_changed_crc w recs1 recs2 r c idx hb hs hr hc hne]
    cases replay w.GetFileID 0 recs1 idx with
    | error e => exact ⟨e, rfl⟩
    | ok idx1 => exact ⟨.crcFailed, rfl⟩
  refine ⟨h1, ?_⟩
  intro config disk fileId hf
  apply NewBitcask_error config disk fileId _ hf
  intro idx
  obtain ⟨e, he⟩ := h1 (NewWAL (some (encodeAll recs1 ++ record.replaceCrc r.ToBytes c
    ++ encodeAll recs2)) fileId) idx rfl
  exact ⟨_, he⟩

/-- C13, amended, on the one-record file of the test (key "key", value
"value", CRC bytes `9D C5 F4 B3`) with the lowest bit of its last byte
flipped. -/
theorem LoadWal_fails_on_changed_crc_witness :
    (∀ (w : WAL) (idx : index.BTreeIndex),
        w.fileIo.File.bytes
            = encodeAll [] ++ record.replaceCrc (record.Header.ToBytes
                ⟨[107, 101, 121], [118, 97, 108, 117, 101], 0⟩) [157, 197, 244, 178]
              ++ encodeAll [] →
          ∃ e, w.LoadWal idx = .error (.error e))
      ∧ ∀ (config : Config) (disk : Disk) (fileId : Nat),
          disk.file fileId
              = some (encodeAll [] ++ record.replaceCrc (record.Header.ToBytes
                  ⟨[107, 101, 121], [118, 97, 108, 117, 101], 0⟩) [157, 197, 244, 178]
                ++ encodeAll []) →
            ∃ e, NewBitcask config disk = .error e :=
  LoadWal_fails_on_changed_crc [] [] ⟨[107, 101, 121], [118, 97, 108, 117, 101], 0⟩
    [157, 197, 244, 178] (fun _ h => nomatch h) (by decide) rfl (by decide!)

/-- With a key of `2^32` bytes the key length field holds 0.  When that key
is the checksum of the nine header bytes followed by the encoding of another
record, replay reads two records and then four bytes, too few for a header:
whatever stands in the last four bytes, `LoadWal` returns no error. -/
theorem LoadWal_long_key (pad c : List Byte) (hp : pad.length = 2 ^ 32 - 17)
    (hc : c.length = 4) (idx : index.BTreeIndex) :
    ∃ w1, (NewWAL (some (record.replaceCrc (record.Header.ToBytes
        ⟨binary.be4 (crc32.ChecksumIEEE [2, 0, 0, 0, 0, 0, 0, 0, 0])
          ++ record.Header.ToBytes ⟨[], pad, 2⟩, [], 2⟩) c)) 0).LoadWal idx = .ok (w1, idx) := by
  have hkl : (binary.be4 (crc32.ChecksumIEEE [2, 0, 0, 0, 0, 0, 0, 0, 0])
      ++ record.Header.ToBytes ⟨[], pad, 2⟩).length % 2 ^ 32 = 0 := by
    rw [List.length_append, record.ToBytes_length]
    simp only [record.encodedLen, binary.be4_length, List.length_nil, hp]
    rfl
  have h1 : record.Header.ToBytes ⟨[], [], 2⟩
      = [2, 0, 0, 0, 0, 0, 0, 0, 0]
        ++ binary.be4 (crc32.ChecksumIEEE [2, 0, 0, 0, 0, 0, 0, 0, 0]) := by
    decide!
  have hseg : record.replaceCrc (record.Header.ToBytes
      ⟨binary.be4 (crc32.ChecksumIEEE [2, 0, 0, 0, 0, 0, 0, 0, 0])
        ++ record.Header.ToBytes ⟨[], pad, 2⟩, [], 2⟩) c
      = encodeAll [⟨[], [], 2⟩, ⟨[], pad, 2⟩] ++ c := by
    rw [record.replaceCrc_ToBytes]
    simp only
    rw [hkl]
    simp only [encodeAll, h1]
    simp only [List.append_assoc, List.append_nil, List.nil_append]
    rfl
  have hl := LoadWal_short_tail (NewWAL (some (record.replaceCrc (record.Header.ToBytes
      ⟨binary.be4 (crc32.ChecksumIEEE [2, 0, 0, 0, 0, 0, 0, 0, 0])
        ++ record.Header.ToBytes ⟨[], pad, 2⟩, [], 2⟩) c)) 0)
    [⟨[], [], 2⟩, ⟨[], pad, 2⟩] c idx hseg
    (by
      intro r hr
      simp only [List.mem_cons, List.mem_singleton, List.not_mem_nil, or_false] at hr
      rcases hr with rfl | rfl
      · decide
      · simp only [List.length_nil, hp]
        decide)
    (by rw [hc]; decide)
  rw [hl]
  have hrep : ∀ fileID, replay fileID 0 [⟨[], [], 2⟩, ⟨[], pad, 2⟩] idx = .ok idx := by
    intro fileID
    simp only [replay, applyRecord]
    rw [if_neg (by decide), if_neg (by decide)]
    simp only
    rw [if_neg (by decide), if_neg (by decide)]
  rw [hrep]
  exact ⟨_, rfl⟩

/-- The stored CRC bytes of a record differ from `[0, 0, 0, 0]` or from
`[0, 0, 0, 1]`. -/
theorem LoadWal_long_key_changed (pad : List Byte) (hp : pad.length = 2 ^ 32 - 17) :
    ∃ c : List Byte, c.length = 4
      ∧ c ≠ (record.Header.ToBytes
            ⟨binary.be4 (crc32.ChecksumIEEE [2, 0, 0, 0, 0, 0, 0, 0, 0])
              ++ record.Header.ToBytes ⟨[], pad, 2⟩, [], 2⟩).drop
          ((record.Header.ToBytes
            ⟨binary.be4 (crc32.ChecksumIEEE [2, 0, 0, 0, 0, 0, 0, 0, 0])
              ++ record.Header.ToBytes ⟨[], pad, 2⟩, [], 2⟩).length - 4)
      ∧ ∃ w1, (NewWAL (some (record.replaceCrc (record.Header.ToBytes
          ⟨binary.be4 (crc32.ChecksumIEEE [2, 0, 0, 0, 0, 0, 0, 0, 0])
            ++ record.Header.ToBytes ⟨[], pad, 2⟩, [], 2⟩) c)) 0).LoadWal index.NewBTreeIndex
          = .ok (w1, index.NewBTreeIndex) := by
  by_cases h0 : ([0, 0, 0, 0] : List Byte)
      = (record.Header.ToBytes
            ⟨binary.be4 (crc32.ChecksumIEEE [2, 0, 0, 0, 0, 0, 0, 0, 0])
              ++ record.Header.ToBytes ⟨[], pad, 2⟩, [], 2⟩).drop
          ((record.Header.ToBytes
            ⟨binary.be4 (crc32.ChecksumIEEE [2, 0, 0, 0, 0, 0, 0, 0, 0])
              ++ record.Header.ToBytes ⟨[], pad, 2⟩, [], 2⟩).length - 4)
  · refine ⟨[0, 0, 0, 1], rfl, ?_, LoadWal_long_key pad [0, 0, 0, 1] hp rfl _⟩
    rw [← h0]
    decide
  · exact ⟨[0, 0, 0, 0], rfl, h0, LoadWal_long_key pad [0, 0, 0, 0] hp rfl _⟩

/-- C13, counterexample: a one-record segment whose record has a key of
`2^32` bytes (the checksum of the header bytes `02 00 .. 00`, then the
encoding of a record with empty key and a value of `2^32 - 17` zero bytes)
and an empty value.  Four bytes that differ from its stored CRC bytes can be
put in their place and `LoadWal` returns no error. -/
theorem LoadWal_accepts_changed_crc_on_long_key :
    ∃ c : List Byte, c.length = 4
      ∧ c ≠ (record.Header.ToBytes
            ⟨binary.be4 (crc32.ChecksumIEEE [2, 0, 0, 0, 0, 0, 0, 0, 0])
              ++ record.Header.ToBytes ⟨[], List.replicate (2 ^ 32 - 17) 0, 2⟩, [], 2⟩).drop
          ((record.Header.ToBytes
            ⟨binary.be4 (crc32.ChecksumIEEE [2, 0, 0, 0, 0, 0, 0, 0, 0])
              ++ record.Header.ToBytes ⟨[], List.replicate (2 ^ 32 - 17) 0, 2⟩, [], 2⟩).length
            - 4)
      ∧ ∃ w1, (NewWAL (some (record.replaceCrc (record.Header.ToBytes
          ⟨binary.be4 (crc32.ChecksumIEEE [2, 0, 0, 0, 0, 0, 0, 0, 0])
            ++ record.Header.ToBytes ⟨[], List.replicate (2 ^ 32 - 17) 0, 2⟩, [], 2⟩) c))
          0).LoadWal index.NewBTreeIndex = .ok (w1, index.NewBTreeIndex) :=
  LoadWal_long_key_changed (List.replicate (2 ^ 32 - 17) 0) (List.length_replicate _ _)

end bitcask

/-! ## Tombstones of absent keys, and index entries that do not decode -/

namespace bitcask
open wal

/-- Replay of a segment whose first record is a tombstone for a key that the
index does not hold returns the not-found error of `Delete`. -/
theorem LoadWal_tombstone_absent (w : WAL) (key : List Byte) (tail : List Byte)
    (idx : index.BTreeIndex)
    (hb : w.fileIo.File.bytes
      = record.Header.ToBytes ⟨key, [], record.RecordTypeDeleted⟩ ++ tail)
    (hk : key ≠ []) (hs : 13 + key.length < 2 ^ 32)
    (ha : idx.items.Get key = none) :
    w.LoadWal idx = .error (.error .keyNotFound) := by
  unfold WAL.LoadWal
  have h := loadLoop_record w [] tail ⟨key, [], record.RecordTypeDeleted⟩
    w.fileIo.File.bytes.length idx (by rw [hb]; rfl) (by simpa using hs)
  rw [List.length_nil] at h
  rw [h]
  have ha2 : applyRecord w.GetFileID 0 ⟨key, [], record.RecordTypeDeleted⟩ idx
      = .error .keyNotFound := by
    unfold applyRecord
    simp only
    rw [if_neg (show record.RecordTypeDeleted ≠ record.RecordTypeNormal by decide),
      if_pos trivial]
    unfold index.BTreeIndex.Delete
    simp only [List.length_eq_zero, hk, if_false]
    unfold index.BTree.Delete
    rw [ha]
  rw [ha2]

/-- C14, the failing input: `Del("a")` on an engine opened on an empty
directory returns the not-found error and leaves segment 0 with the tombstone
of "a".  `LoadWal` on a segment with these bytes and the empty index returns
the not-found error of the index, and `NewBitcask` on the closed directory
returns that error; so it is when a `Normal` record of another key stands
before the tombstone. -/
theorem LoadWal_fails_on_tombstone_of_absent_key :
    ((freshEngine ⟨100⟩).Del [97]).2 = some .keyNotFound
    ∧ ((freshEngine ⟨100⟩).Del [97]).1.Close
      = [(0, record.Header.ToBytes ⟨[97], [], record.RecordTypeDeleted⟩)]
    ∧ (NewWAL (some (record.Header.ToBytes ⟨[97], [], record.RecordTypeDeleted⟩)) 0).LoadWal
        index.NewBTreeIndex = .error (.error .keyNotFound)
    ∧ NewBitcask ⟨100⟩ ((freshEngine ⟨100⟩).Del [97]).1.Close = .error (.error .keyNotFound)
    ∧ NewBitcask ⟨100⟩ ((freshEngine ⟨100⟩).run [.put [98] [50], .del [97]]).Close
      = .error (.error .keyNotFound) := by
  decide!

/-- When the bytes that the index entry of a key leads to make `FromBytes`
return nil, `Get` reads a field of the nil header. -/
theorem Get_nil_header (b : Bitcask) (key : List Byte)
    (h : b.indexedRecord key = .ok (.ok none)) : b.Get key = .error .nilDeref := by
  unfold Bitcask.indexedRecord at h
  unfold Bitcask.Get
  cases hg : b.curIndex.Get key with
  | error e => rw [hg] at h; cases h
  | ok pos =>
    rw [hg] at h
    simp only at h ⊢
    cases hw : b.getWalFile pos.FileID with
    | error e => rw [hw] at h; cases h
    | ok walFile =>
      rw [hw] at h
      simp only at h ⊢
      cases hr : walFile.ReadAt pos.Offset pos.Size with
      | error e => rw [hr] at h; cases h
      | ok value =>
        rw [hr] at h
        simp only at h ⊢
        have hv : record.FromBytes value = .ok none := by
          injection h
        rw [hv]

/-- C15, the failing input: the directory holds segment 0 with the record
(key "a", value "1") that an earlier engine has written; `NewBitcask` on it
and `Put("bb", "22")`, which lands at offset 0 of the reopened segment.  The
index entry of "a" then leads to the first 15 bytes of the 17-byte record of
"bb": `FromBytes` returns nil on them, and `Get("a")` panics on the nil
header instead of returning not-found. -/
theorem Get_panics_on_undecodable_record :
    ((freshEngine ⟨100⟩).run [.put [97] [49]]).reopen.map
        (fun b => (b.run [.put [98, 98] [50, 50]]).curIndex.Get [97]) = .ok (.ok ⟨0, 0, 15⟩)
    ∧ ((freshEngine ⟨100⟩).run [.put [97] [49]]).reopen.map
        (fun b => (b.run [.put [98, 98] [50, 50]]).indexedRecord [97]) = .ok (.ok (.ok none))
    ∧ ((freshEngine ⟨100⟩).run [.put [97] [49]]).reopen.map
        (fun b => (b.run [.put [98, 98] [50, 50]]).Get [97]) = .ok (.error .nilDeref) := by
  decide!

end bitcask

/-! ## Rotation and the segment ids -/

namespace bitcask
open wal file_manage

/-- The handle that `LoadWal` returns is the handle of the same file id. -/
theorem LoadWal_GetFileID (w w1 : WAL) (idx idx1 : index.BTreeIndex)
    (h : w.LoadWal idx = .ok (w1, idx1)) : w1.GetFileID = w.GetFileID := by
  unfold WAL.LoadWal at h
  cases hl : w.loadLoop (w.fileIo.File.bytes.length + 1) 0 idx with
  | error e => rw [hl] at h; cases h
  | ok p =>
    rw [hl] at h
    simp only [Except.ok.injEq, Prod.mk.injEq] at h
    rw [← h.1]
    rfl

/-- What the loop of `Bitcask.load` leaves when it returns an engine: the
last id is the active one, and the sealed-segments map has gained the ids
before it. -/
theorem loadSegments_ids (config : Config) (disk : Disk) (fileIds : List Nat) (ids : List Nat)
    (hne : ids ≠ []) (olderWal : WalMap) (curIndex : index.BTreeIndex) (b : Bitcask)
    (h : loadSegments config disk fileIds ids olderWal curIndex = .ok b) :
    b.fileId = ids.getLast hne ∧ b.activeWal.GetFileID = b.fileId
      ∧ b.config = config
      ∧ ∀ id, (b.olderWal.get id).isSome
          = ((olderWal.get id).isSome || decide (id ∈ ids.dropLast)) := by
  induction ids generalizing olderWal curIndex with
  | nil => exact absurd rfl hne
  | cons id rest ih =>
    rw [loadSegments] at h
    cases hl : (NewWAL (disk.file id) id).LoadWal curIndex with
    | error e => rw [hl] at h; cases h
    | ok p =>
      obtain ⟨w1, idx1⟩ := p
      rw [hl] at h
      simp only at h
      by_cases hr : rest = []
      · subst hr
        rw [if_pos rfl] at h
        injection h with h
        subst h
        refine ⟨rfl, ?_, rfl, ?_⟩
        · exact LoadWal_GetFileID _ _ _ _ hl
        · intro j
          simp
      · rw [if_neg hr] at h
        obtain ⟨h1, h2, h3, h4⟩ := ih hr _ _ h
        refine ⟨?_, h2, h3, ?_⟩
        · rw [h1, List.getLast_cons hr]
        · intro j
          rw [h4 j, WalMap.get_set, List.dropLast_cons_of_ne_nil hr]
          by_cases hj : j = id
          · simp [hj]
          · simp [hj]

/-- The ids of the segment files in the order in which `Bitcask.load` replays
them. -/
theorem sorted_ids (disk : Disk) (hnd : (disk.map (fun e => e.1)).Nodup) :
    ((disk.map (fun e => e.1)).insertionSort (fun a b => a ≤ b)).Sorted (fun a b => a < b) :=
  (List.sorted_insertionSort (fun a b : Nat => a ≤ b) _).lt_of_le
    ((List.perm_insertionSort _ _).nodup_iff.mpr hnd)

/-- In a strictly ascending list the last element is above the others. -/
theorem lt_getLast (ids : List Nat) (hne : ids ≠ []) (hs : ids.Sorted (fun a b => a < b))
    (id : Nat) (h : id ∈ ids.dropLast) : id < ids.getLast hne := by
  have hsplit := List.dropLast_append_getLast hne
  rw [← hsplit] at hs
  exact (List.pairwise_append.mp hs).2.2 id h _ (List.mem_singleton.mpr rfl)

end bitcask

namespace bitcask
open wal file_manage

/-- The engine that `NewBitcask` returns has its segment ids in order. -/
theorem NewBitcask_Ordered (config : Config) (disk : Disk)
    (hnd : (disk.map (fun e => e.1)).Nodup) (b : Bitcask)
    (h : NewBitcask config disk = .ok b) : b.Ordered := by
  unfold NewBitcask at h
  by_cases hne : (disk.map (fun e => e.1)).insertionSort (fun a b => a ≤ b) = []
  · rw [hne, loadSegments] at h
    injection h with h
    subst h
    exact ⟨rfl, fun id hid => by simp [WalMap.get] at hid⟩
  · obtain ⟨h1, h2, _, h4⟩ := loadSegments_ids config disk _ _ hne _ _ b h
    refine ⟨h2, fun id hid => ?_⟩
    rw [h4 id] at hid
    simp only [WalMap.get, List.find?_nil, Option.map_none', Option.isSome_none,
      Bool.false_or, decide_eq_true_eq] at hid
    rw [h1]
    exact lt_getLast _ hne (sorted_ids disk hnd) id hid

/-- The rotation check keeps the segment ids in order. -/
theorem Ordered.tryCreateNewWalFile (b : Bitcask) (h : b.Ordered) : b.tryCreateNewWalFile.Ordered := by
  unfold Bitcask.tryCreateNewWalFile
  by_cases ho : b.checkOverFlow = true
  · rw [if_neg (by simp [ho])]
    refine ⟨rfl, fun id hid => ?_⟩
    simp only at hid ⊢
    rw [WalMap.get_set] at hid
    by_cases hj : id = b.fileId
    · omega
    · rw [if_neg hj] at hid
      have := h.2 id hid
      omega
  · rw [if_pos (by simp [ho])]
    exact h

/-- The state after the append and the index update of a call that returns
no error, before the rotation check. -/
theorem call_ok (b : Bitcask) (op : Op) (hok : (b.call op).2 = none) :
    ∃ idx, (b.call op).1
      = Bitcask.tryCreateNewWalFile { b with activeWal := b.appended op, curIndex := idx } := by
  cases op with
  | put key value =>
    simp only [Bitcask.call, Bitcask.Put, Bitcask.appended] at hok ⊢
    cases hp : b.curIndex.Put key
        (some (b.activeWal.Append key value record.RecordTypeNormal).2) with
    | error e => rw [hp] at hok; cases hok
    | ok idx => exact ⟨idx, rfl⟩
  | del key =>
    simp only [Bitcask.call, Bitcask.Del, Bitcask.appended] at hok ⊢
    cases hp : b.curIndex.Delete key with
    | error e => rw [hp] at hok; cases hok
    | ok idx => exact ⟨idx, rfl⟩

/-- The state after a call that returns an error: the record is appended and
nothing else has changed. -/
theorem call_error (b : Bitcask) (op : Op) (e : GoError) (he : (b.call op).2 = some e) :
    (b.call op).1 = { b with activeWal := b.appended op } := by
  cases op with
  | put key value =>
    simp only [Bitcask.call, Bitcask.Put, Bitcask.appended] at he ⊢
    cases hp : b.curIndex.Put key
        (some (b.activeWal.Append key value record.RecordTypeNormal).2) with
    | error e => rfl
    | ok idx => rw [hp] at he; cases he
  | del key =>
    simp only [Bitcask.call, Bitcask.Del, Bitcask.appended] at he ⊢
    cases hp : b.curIndex.Delete key with
    | error e => rfl
    | ok idx => rw [hp] at he; cases he

/-- The append of a call leaves the file id of the active handle and moves
its tail by the length of the record. -/
theorem appended_pos (b : Bitcask) (op : Op) :
    (b.appended op).GetFileID = b.activeWal.GetFileID
      ∧ (b.appended op).GetOffset = b.activeWal.GetOffset + op.recordLen := by
  cases op with
  | put key value =>
    obtain ⟨_, h2, h3⟩ := Append_pos b.activeWal key value record.RecordTypeNormal
    exact ⟨h3, h2⟩
  | del key =>
    obtain ⟨_, h2, h3⟩ := Append_pos b.activeWal key [] record.RecordTypeDeleted
    exact ⟨h3, by simpa [Op.recordLen] using h2⟩

/-- A call keeps the segment ids in order, whatever it returns. -/
theorem Ordered.call (b : Bitcask) (h : b.Ordered) (op : Op) : (b.call op).1.Ordered := by
  have hmid : ∀ idx, Bitcask.Ordered { b with activeWal := b.appended op, curIndex := idx } :=
    fun idx => ⟨(appended_pos b op).1.trans h.1, h.2⟩
  cases he : (b.call op).2 with
  | none =>
    obtain ⟨idx, hc⟩ := call_ok b op he
    rw [hc]
    exact Ordered.tryCreateNewWalFile _ (hmid idx)
  | some e =>
    rw [call_error b op e he]
    exact ⟨(appended_pos b op).1.trans h.1, h.2⟩

/-- Every reachable engine state has its segment ids in order. -/
theorem Reachable.ordered (b : Bitcask) (h : Reachable b) : b.Ordered := by
  induction h with
  | opened config disk b hnd hb => exact NewBitcask_Ordered config disk hnd b hb
  | call b op _ ih => exact Ordered.call b ih op

/-- The engine on an empty directory is reachable. -/
theorem Reachable.of_fresh (config : Config) : Reachable (freshEngine config) :=
  Reachable.opened config [] _ List.nodup_nil (NewBitcask_empty config)

theorem step_eq_call (b : Bitcask) (op : Op) : b.step op = (b.call op).1 := by
  cases op <;> rfl

/-- The engine after a sequence of calls on a reachable engine is reachable. -/
theorem Reachable.of_run (ops : List Op) (b : Bitcask) (h : Reachable b) : Reachable (b.run ops) := by
  induction ops generalizing b with
  | nil => exact h
  | cons op ops ih =>
    have := ih _ (Reachable.call b op h)
    rw [← step_eq_call] at this
    exact this

end bitcask

namespace bitcask
open wal file_manage

/-- What the rotation check does to an engine whose segment ids are in
order. -/
theorem tryCreateNewWalFile_spec (b : Bitcask) (h : b.Ordered) :
    (b.checkOverFlow = true →
        b.tryCreateNewWalFile.olderWal.get b.fileId = some b.activeWal
        ∧ b.tryCreateNewWalFile.fileId = b.fileId + 1
        ∧ b.tryCreateNewWalFile.activeWal = NewWAL none (b.fileId + 1)
        ∧ ∀ id, id ≠ b.fileId → b.tryCreateNewWalFile.olderWal.get id = b.olderWal.get id)
      ∧ (b.checkOverFlow = false → b.tryCreateNewWalFile = b) := by
  unfold Bitcask.tryCreateNewWalFile
  constructor
  · intro ho
    rw [if_neg (by simp [ho])]
    have hfile : b.file (b.fileId + 1) = none := by
      unfold Bitcask.file
      rw [if_neg (by rw [h.1]; omega)]
      cases hg : b.olderWal.get (b.fileId + 1) with
      | none => rfl
      | some w =>
        have := h.2 (b.fileId + 1) (by rw [hg]; rfl)
        omega
    rw [hfile]
    refine ⟨?_, rfl, rfl, fun id hid => ?_⟩
    · simp only
      rw [WalMap.get_set, if_pos rfl]
    · simp only
      rw [WalMap.get_set, if_neg hid]
  · intro ho
    rw [if_pos (by simp [ho])]

/-- The tail of the active segment after a call that returns no error on a
reachable engine: 0 after a rotation, the tail after the append otherwise. -/
theorem rotation_tail (b : Bitcask) (hr : Reachable b) (op : Op)
    (hok : (b.call op).2 = none) :
    (((b.appended op).GetOffset : Int) > b.config.MaxFileSize →
        (b.call op).1.activeWal.GetOffset = 0)
      ∧ (((b.appended op).GetOffset : Int) ≤ b.config.MaxFileSize →
        (b.call op).1.activeWal.GetOffset = (b.appended op).GetOffset) := by
  have ho := Reachable.ordered b hr
  obtain ⟨idx, hc⟩ := call_ok b op hok
  have hmid : Bitcask.Ordered { b with activeWal := b.appended op, curIndex := idx } :=
    ⟨(appended_pos b op).1.trans ho.1, ho.2⟩
  obtain ⟨h1, h2⟩ := tryCreateNewWalFile_spec _ hmid
  rw [hc]
  constructor
  · intro hgt
    obtain ⟨_, _, a3, _⟩ := h1 (by simpa [Bitcask.checkOverFlow] using hgt)
    rw [a3]
    rfl
  · intro hle
    rw [h2 (by simpa [Bitcask.checkOverFlow] using hle)]

/-- C16: in every reachable engine state, for a `Put` or `Del` whose append
and index update succeed: if the tail of the active segment after the append
is strictly greater than `MaxFileSize`, the previously active segment is
stored in the sealed-segments map under its id (the other entries are
unchanged), the active id is incremented by exactly one and the new active
segment has that id and tail 0; if the tail is less than or equal to
`MaxFileSize`, the active id, the active segment and the sealed-segments map
are unchanged. -/
theorem rotation_after_call (b : Bitcask) (hr : Reachable b) (op : Op)
    (hok : (b.call op).2 = none) :
    (((b.appended op).GetOffset : Int) > b.config.MaxFileSize →
        (b.call op).1.olderWal.get (b.appended op).GetFileID = some (b.appended op)
        ∧ (b.appended op).GetFileID = b.fileId
        ∧ (b.call op).1.fileId = b.fileId + 1
        ∧ (b.call op).1.activeWal.GetFileID = b.fileId + 1
        ∧ (b.call op).1.activeWal.GetOffset = 0
        ∧ ∀ id, id ≠ b.fileId → (b.call op).1.olderWal.get id = b.olderWal.get id)
      ∧ (((b.appended op).GetOffset : Int) ≤ b.config.MaxFileSize →
        (b.call op).1.fileId = b.fileId
        ∧ (b.call op).1.activeWal = b.appended op
        ∧ (b.call op).1.olderWal = b.olderWal) := by
  have ho := Reachable.ordered b hr
  obtain ⟨idx, hc⟩ := call_ok b op hok
  have hid : (b.appended op).GetFileID = b.fileId := (appended_pos b op).1.trans ho.1
  have hmid : Bitcask.Ordered { b with activeWal := b.appended op, curIndex := idx } :=
    ⟨hid, ho.2⟩
  obtain ⟨h1, h2⟩ := tryCreateNewWalFile_spec _ hmid
  rw [hc]
  constructor
  · intro hgt
    obtain ⟨a1, a2, a3, a4⟩ := h1 (by simpa [Bitcask.checkOverFlow] using hgt)
    refine ⟨?_, hid, a2, ?_, ?_, a4⟩
    · rw [hid]
      exact a1
    · rw [a3]
      rfl
    · rw [a3]
      rfl
  · intro hle
    have := h2 (by simpa [Bitcask.checkOverFlow] using hle)
    rw [this]
    exact ⟨rfl, rfl, rfl⟩

/-- C16 on the engine opened on an empty directory with `MaxFileSize = 20`:
`Put("a", "1")` leaves the tail 15 and does not rotate; the following
`Put("b", "2")` leaves the tail 30 and rotates. -/
theorem rotation_after_call_witness :
    ((freshEngine ⟨20⟩).call (.put [97] [49])).1.fileId = 0
    ∧ ((freshEngine ⟨20⟩).call (.put [97] [49])).1.olderWal = []
    ∧ ((((freshEngine ⟨20⟩).call (.put [97] [49])).1).call (.put [98] [50])).1.fileId = 0 + 1
    ∧ ((((freshEngine ⟨20⟩).call (.put [97] [49])).1).call
        (.put [98] [50])).1.activeWal.GetOffset = 0 :=
  ⟨((rotation_after_call (freshEngine ⟨20⟩) (Reachable.of_fresh _) (.put [97] [49])
      (by decide!)).2 (by decide!)).1,
    ((rotation_after_call (freshEngine ⟨20⟩) (Reachable.of_fresh _) (.put [97] [49])
      (by decide!)).2 (by decide!)).2.2,
    ((rotation_after_call ((freshEngine ⟨20⟩).call (.put [97] [49])).1
      (Reachable.call _ _ (Reachable.of_fresh _)) (.put [98] [50])
      (by decide!)).1 (by decide!)).2.2.1,
    ((rotation_after_call ((freshEngine ⟨20⟩).call (.put [97] [49])).1
      (Reachable.call _ _ (Reachable.of_fresh _)) (.put [98] [50])
      (by decide!)).1 (by decide!)).2.2.2.2.1⟩

end bitcask

namespace bitcask
open wal file_manage

/-- After recovery the active id is the highest segment id of the directory,
and the sealed ids are the other segment ids. -/
theorem NewBitcask_ids (config : Config) (disk : Disk)
    (hnd : (disk.map (fun e => e.1)).Nodup) (hne : disk ≠ []) (b : Bitcask)
    (h : NewBitcask config disk = .ok b) :
    b.fileId ∈ disk.map (fun e => e.1)
      ∧ (∀ id ∈ disk.map (fun e => e.1), id ≤ b.fileId)
      ∧ ∀ id, (b.olderWal.get id).isSome = true
          ↔ (id ∈ disk.map (fun e => e.1) ∧ id ≠ b.fileId) := by
  unfold NewBitcask at h
  have hperm := List.perm_insertionSort (fun a b : Nat => a ≤ b) (disk.map (fun e => e.1))
  have hs := sorted_ids disk hnd
  have hne2 : (disk.map (fun e => e.1)).insertionSort (fun a b => a ≤ b) ≠ [] := by
    intro e
    have := hperm.length_eq
    rw [e, List.length_map] at this
    exact hne (List.length_eq_zero.mp this.symm)
  obtain ⟨h1, _, _, h4⟩ := loadSegments_ids config disk _ _ hne2 _ _ b h
  generalize (disk.map (fun e => e.1)).insertionSort (fun a b => a ≤ b) = ids at *
  have hsplit := List.dropLast_append_getLast hne2
  have hmem : ∀ id, id ∈ ids ↔ (id ∈ ids.dropLast ∨ id = ids.getLast hne2) := by
    intro id
    conv_lhs => rw [← hsplit]
    simp
  refine ⟨?_, ?_, ?_⟩
  · rw [← hperm.mem_iff, h1]
    exact List.getLast_mem hne2
  · intro id hid
    rw [← hperm.mem_iff, hmem] at hid
    rw [h1]
    rcases hid with hid | hid
    · exact Nat.le_of_lt (lt_getLast ids hne2 hs id hid)
    · exact Nat.le_of_eq hid
  · intro id
    rw [h4 id, ← hperm.mem_iff, hmem, h1]
    simp only [WalMap.get, List.find?_nil, Option.map_none', Option.isSome_none,
      Bool.false_or, decide_eq_true_eq]
    constructor
    · intro hid
      exact ⟨Or.inl hid, Nat.ne_of_lt (lt_getLast ids hne2 hs id hid)⟩
    · rintro ⟨hid | hid, hn⟩
      · exact hid
      · exact absurd hid hn

/-- While the id stays below `2^63 - 1`, the `int64` increment of the source
is the increment of the natural numbers. -/
theorem nextFileId_eq (n : Nat) (h : n < 2 ^ 63 - 1) :
    nextFileId (n : Int) = ((n + 1 : Nat) : Int) := by
  unfold nextFileId
  omega

/-- C18, counterexample: on a directory in which two file names give the id
12 (`data_12.wal` beside `data_000000012.wal`), `NewBitcask` returns an engine
with active id 12 whose sealed-segments map holds the id 12 as well: the
active id is not strictly greater than every sealed id, and the sealed ids
are not the ids of the directory without the highest one.  And the `int64`
increment of the active id at `2^63 - 1` gives `-2^63`, below every id that
is sealed by then. -/
theorem sealed_id_equals_active_id :
    (NewBitcask ⟨100⟩ duplicateIds).map
        (fun b => (b.fileId, b.olderWal.map (fun e => e.1), (b.olderWal.get b.fileId).isSome))
      = .ok (12, [12], true)
    ∧ nextFileId (2 ^ 63 - 1) = -(2 ^ 63) := by
  decide!

/-- C18, amended: for every directory whose segment file names give pairwise
distinct ids `S` on which `NewBitcask` returns an engine, and every sequence
of `Put` and `Del` calls on that engine after which the active id is still
below `2^63` (no `int64` increment has wrapped): the active segment id is
strictly greater than every id in the sealed-segments map, which are all
below `2^63 - 1`, and is the id of the active handle; right after recovery
over a non-empty `S` the active id is `max S` and the sealed ids are exactly
`S` without `max S`; and on a directory with no segment files `NewBitcask`
returns an engine with active id 0, no sealed segment and an empty index. -/
theorem active_id_is_highest (config : Config) (disk : Disk)
    (hnd : (disk.map (fun e => e.1)).Nodup) (b0 : Bitcask)
    (h0 : NewBitcask config disk = .ok b0) (ops : List Op)
    (hlt : (b0.run ops).fileId < 2 ^ 63) :
    ((∀ id, ((b0.run ops).olderWal.get id).isSome = true →
          id < (b0.run ops).fileId ∧ id < 2 ^ 63 - 1)
        ∧ (b0.run ops).activeWal.GetFileID = (b0.run ops).fileId)
      ∧ (disk ≠ [] →
          b0.fileId ∈ disk.map (fun e => e.1)
          ∧ (∀ id ∈ disk.map (fun e => e.1), id ≤ b0.fileId)
          ∧ ∀ id, (b0.olderWal.get id).isSome = true
              ↔ (id ∈ disk.map (fun e => e.1) ∧ id ≠ b0.fileId))
      ∧ ∃ b1, NewBitcask config [] = .ok b1 ∧ b1.fileId = 0 ∧ b1.olderWal = []
          ∧ b1.curIndex = index.NewBTreeIndex ∧ b1.curIndex.Len = 0 := by
  refine ⟨?_, fun hne => NewBitcask_ids config disk hnd hne b0 h0,
    ⟨freshEngine config, NewBitcask_empty config, rfl, rfl, rfl, rfl⟩⟩
  have ho := Reachable.ordered _
    (Reachable.of_run ops b0 (Reachable.opened config disk b0 hnd h0))
  refine ⟨fun id hid => ?_, ho.1⟩
  have := ho.2 id hid
  exact ⟨this, by omega⟩

/-- C18, amended, on the directory `twoSegments` with `MaxFileSize = 10`:
recovery returns `twoSegmentsEngine`, whose active id is 5 and whose only
sealed id is 2; `Put("d", "4")` then leaves the tail 30 and rotates, and the
sealed ids 2 and 5 are below the active id 6. -/
theorem active_id_is_highest_witness :
    NewBitcask ⟨10⟩ twoSegments = .ok twoSegmentsEngine
    ∧ (twoSegmentsEngine.run [.put [100] [52]]).fileId = 6
    ∧ (twoSegmentsEngine.run [.put [100] [52]]).olderWal.map (fun e => e.1) = [5, 2]
    ∧ (∀ id, ((twoSegmentsEngine.run [.put [100] [52]]).olderWal.get id).isSome = true
        → id < (twoSegmentsEngine.run [.put [100] [52]]).fileId ∧ id < 2 ^ 63 - 1)
    ∧ twoSegmentsEngine.fileId ∈ twoSegments.map (fun e => e.1)
    ∧ (∀ id ∈ twoSegments.map (fun e => e.1), id ≤ twoSegmentsEngine.fileId)
    ∧ ∀ id, (twoSegmentsEngine.olderWal.get id).isSome = true
        ↔ (id ∈ twoSegments.map (fun e => e.1) ∧ id ≠ twoSegmentsEngine.fileId) :=
  ⟨by decide!, by decide!, by decide!,
    (active_id_is_highest ⟨10⟩ twoSegments (by decide) twoSegmentsEngine (by decide!)
      [.put [100] [52]] (by decide!)).1.1,
    (active_id_is_highest ⟨10⟩ twoSegments (by decide) twoSegmentsEngine (by decide!)
      [.put [100] [52]] (by decide!)).2.1 (by decide)⟩

end bitcask

namespace bitcask
open wal file_manage

/-- A call leaves the configuration of the engine. -/
theorem call_config (b : Bitcask) (op : Op) : (b.call op).1.config = b.config := by
  cases he : (b.call op).2 with
  | none =>
    obtain ⟨idx, hc⟩ := call_ok b op he
    rw [hc]
    unfold Bitcask.tryCreateNewWalFile
    split <;> rfl
  | some e => rw [call_error b op e he]

theorem run_config (ops : List Op) (b : Bitcask) : (b.run ops).config = b.config := by
  induction ops generalizing b with
  | nil => rfl
  | cons op ops ih =>
    show (Bitcask.run (b.step op) ops).config = b.config
    rw [ih, step_eq_call, call_config]

/-- After a call that returns no error, on a reachable engine with a
non-negative `MaxFileSize`, the tail of the active segment is at most
`MaxFileSize`. -/
theorem tail_le_after_call (b : Bitcask) (hr : Reachable b) (hc : 0 ≤ b.config.MaxFileSize)
    (op : Op) (hok : (b.call op).2 = none) :
    ((b.call op).1.activeWal.GetOffset : Int) ≤ b.config.MaxFileSize := by
  obtain ⟨h1, h2⟩ := rotation_tail b hr op hok
  by_cases hgt : ((b.appended op).GetOffset : Int) > b.config.MaxFileSize
  · rw [h1 hgt]
    exact hc
  · rw [h2 (not_lt.mp hgt)]
    exact not_lt.mp hgt

/-- C17, counterexample: with `MaxFileSize = 0`, two `Del("a")` calls on an
engine opened on an empty directory each append a 14-byte tombstone and
return the not-found error of the index without the rotation check, which
leaves the tail 28, above `0 + 14`; and with `MaxFileSize = -100` a
`Put("a", "1")` rotates and leaves the tail 0, above `-100 + 15`. -/
theorem tail_exceeds_bound :
    ((freshEngine ⟨0⟩).Del [97]).2 = some .keyNotFound
    ∧ ¬ ((((freshEngine ⟨0⟩).run [.del [97], .del [97]]).activeWal.GetOffset : Int)
        ≤ (0 : Int) + largestRecord [.del [97], .del [97]])
    ∧ ¬ ((((freshEngine ⟨-100⟩).run [.put [97] [49]]).activeWal.GetOffset : Int)
        ≤ (-100 : Int) + largestRecord [.put [97] [49]]) := by
  decide!

/-- C17, amended: for every sequence of `Put` and `Del` calls on an engine
opened on an empty directory with `MaxFileSize ≥ 0`, whatever the earlier
calls return, after each call that returns no error the tail of the active
segment is at most `MaxFileSize`, hence at most `MaxFileSize` plus the
largest encoded record size written so far. -/
theorem tail_bound_after_successful_call (config : Config) (hc : 0 ≤ config.MaxFileSize)
    (ops : List Op) (op : Op) (hok : (((freshEngine config).run ops).call op).2 = none) :
    ((((freshEngine config).run ops).call op).1.activeWal.GetOffset : Int)
        ≤ config.MaxFileSize
      ∧ ((((freshEngine config).run ops).call op).1.activeWal.GetOffset : Int)
        ≤ config.MaxFileSize + largestRecord (ops ++ [op]) := by
  have hcfg : ((freshEngine config).run ops).config = config := run_config ops _
  have h := tail_le_after_call _ (Reachable.of_run ops _ (Reachable.of_fresh config))
    (by rw [hcfg]; exact hc) op hok
  rw [hcfg] at h
  exact ⟨h, le_trans h (le_add_of_nonneg_right (Int.ofNat_nonneg _))⟩

/-- C17, amended, with `MaxFileSize = 20`: after a `Del("a")` that returns an
error (tail 14), `Put("a", "1")` returns no error, brings the tail to 29 and
rotates. -/
theorem tail_bound_after_successful_call_witness :
    (((freshEngine ⟨20⟩).run [.del [97]]).call (.put [97] [49])).1.activeWal.GetOffset = 0
    ∧ ((((freshEngine ⟨20⟩).run [.del [97]]).call (.put [97] [49])).1.activeWal.GetOffset : Int)
        ≤ (20 : Int)
    ∧ ((((freshEngine ⟨20⟩).run [.del [97]]).call (.put [97] [49])).1.activeWal.GetOffset : Int)
        ≤ (20 : Int) + largestRecord ([.del [97]] ++ [.put [97] [49]]) :=
  ⟨by decide!,
    tail_bound_after_successful_call ⟨20⟩ (by decide) [.del [97]] (.put [97] [49])
      (by decide!)⟩

end bitcask

/-! ## The index as a finite map, and its cursor -/

namespace index

theorem bytesLess_trans (a b c : List Byte) (h1 : bytesLess a b = true)
    (h2 : bytesLess b c = true) : bytesLess a c = true := by
  induction a generalizing b c with
  | nil =>
    cases b with
    | nil => simp [bytesLess] at h1
    | cons y ys =>
      cases c with
      | nil => simp [bytesLess] at h2
      | cons z zs => rfl
  | cons x xs ih =>
    cases b with
    | nil => simp [bytesLess] at h1
    | cons y ys =>
      cases c with
      | nil => simp [bytesLess] at h2
      | cons z zs =>
        simp only [bytesLess] at h1 h2 ⊢
        by_cases hxy : x < y
        · by_cases hyz : y < z
          · simp [lt_trans hxy hyz]
          · by_cases hzy : z < y
            · simp [hyz, hzy] at h2
            · have : y = z := le_antisymm (not_lt.mp hzy) (not_lt.mp hyz)
              subst this
              simp [hxy]
        · by_cases hyx : y < x
          · simp [hxy, hyx] at h1
          · have hxy2 : x = y := le_antisymm (not_lt.mp hyx) (not_lt.mp hxy)
            subst hxy2
            simp only [lt_self_iff_false, if_false] at h1
            by_cases hxz : x < z
            · simp [hxz]
            · by_cases hzx : z < x
              · simp [hxz, hzx] at h2
              · simp only [hxz, hzx, if_false] at h2 ⊢
                exact ih ys zs h1 h2

theorem mem_replaceOrInsert (item y : indexItem) (l : List indexItem)
    (h : y ∈ replaceOrInsert item l) : y = item ∨ y ∈ l := by
  induction l with
  | nil => exact Or.inl (List.mem_singleton.mp h)
  | cons x xs ih =>
    unfold replaceOrInsert at h
    split at h
    · rcases List.mem_cons.mp h with e | e
      · exact Or.inl e
      · exact Or.inr e
    · split at h
      · rcases List.mem_cons.mp h with e | e
        · exact Or.inr (e ▸ List.mem_cons_self _ _)
        · rcases ih e with e2 | e2
          · exact Or.inl e2
          · exact Or.inr (List.mem_cons_of_mem _ e2)
      · rcases List.mem_cons.mp h with e | e
        · exact Or.inl e
        · exact Or.inr (List.mem_cons_of_mem _ e)

/-- The items stay in strictly ascending key order under `ReplaceOrInsert`. -/
theorem replaceOrInsert_ascending (item : indexItem) (l : List indexItem)
    (h : l.Pairwise (fun a b => bytesLess a.key b.key = true)) :
    (replaceOrInsert item l).Pairwise (fun a b => bytesLess a.key b.key = true) := by
  induction l with
  | nil => exact List.pairwise_singleton _ _
  | cons x xs ih =>
    obtain ⟨hx, hxs⟩ := List.pairwise_cons.mp h
    unfold replaceOrInsert
    by_cases h1 : item.Less x = true
    · rw [if_pos h1]
      refine List.pairwise_cons.mpr ⟨fun y hy => ?_, h⟩
      rcases List.mem_cons.mp hy with e | e
      · rw [e]
        exact h1
      · exact bytesLess_trans _ _ _ h1 (hx y e)
    · rw [if_neg h1]
      by_cases h2 : x.Less item = true
      · rw [if_pos h2]
        refine List.pairwise_cons.mpr ⟨fun y hy => ?_, ih hxs⟩
        rcases mem_replaceOrInsert item y xs hy with e | e
        · rw [e]
          exact h2
        · exact hx y e
      · rw [if_neg h2]
        have he : item.key = x.key := by
          simp only [indexItem.Less, Bool.not_eq_true] at h1 h2
          exact eq_of_not_bytesLess _ _ h1 h2
        refine List.pairwise_cons.mpr ⟨fun y hy => ?_, hxs⟩
        rw [he]
        exact hx y hy

/-- What every index that is reached from a new index holds: items in
strictly ascending key order, none with an empty key. -/
theorem apply_ascending (idx : BTreeIndex) (op : IndexOp)
    (h : idx.items.items.Pairwise (fun a b => bytesLess a.key b.key = true)
      ∧ ∀ x ∈ idx.items.items, x.key ≠ []) :
    (idx.apply op).items.items.Pairwise (fun a b => bytesLess a.key b.key = true)
      ∧ ∀ x ∈ (idx.apply op).items.items, x.key ≠ [] := by
  cases op with
  | put key pos =>
    simp only [BTreeIndex.apply]
    by_cases hk : key = []
    · subst hk
      exact h
    · rw [BTreeIndex.Put_ok idx key pos hk]
      refine ⟨replaceOrInsert_ascending _ _ h.1, fun x hx => ?_⟩
      rcases mem_replaceOrInsert _ x _ hx with e | e
      · rw [e]
        exact hk
      · exact h.2 x e
  | delete key =>
    simp only [BTreeIndex.apply]
    by_cases hk : key = []
    · subst hk
      exact h
    · rw [BTreeIndex.Delete_ok idx key hk]
      cases idx.items.Get key with
      | none => exact h
      | some item =>
        exact ⟨List.Pairwise.filter _ h.1, fun x hx => h.2 x (List.mem_of_mem_filter hx)⟩

theorem runOps_append (idx : BTreeIndex) (ops : List IndexOp) (op : IndexOp) :
    idx.runOps (ops ++ [op]) = (idx.runOps ops).apply op := by
  simp [BTreeIndex.runOps, List.foldl_append]

theorem runOps_ascending (ops : List IndexOp) :
    (NewBTreeIndex.runOps ops).items.items.Pairwise (fun a b => bytesLess a.key b.key = true)
      ∧ ∀ x ∈ (NewBTreeIndex.runOps ops).items.items, x.key ≠ [] := by
  induction ops using List.reverseRecOn with
  | nil => exact ⟨List.Pairwise.nil, fun x hx => nomatch hx⟩
  | append_singleton ops op ih =>
    rw [runOps_append]
    exact apply_ascending _ op ih

theorem lastIndexOp_append (ops : List IndexOp) (op : IndexOp) (key : List Byte) :
    lastIndexOp (ops ++ [op]) key = if op.key = key then some op else lastIndexOp ops key := by
  simp only [lastIndexOp, List.reverse_append, List.reverse_cons, List.reverse_nil,
    List.nil_append, List.singleton_append, List.find?]
  by_cases h : op.key = key <;> simp [h]

/-- The tree of the index holds, for each key, the position of the finite
map. -/
theorem Get_runOps (ops : List IndexOp) (hk : ∀ op ∈ ops, op.key ≠ []) (k : List Byte) :
    ((NewBTreeIndex.runOps ops).items.Get k).map (fun item => item.pos) = expectedPos ops k := by
  induction ops using List.reverseRecOn with
  | nil => rfl
  | append_singleton ops op ih =>
    have ih := ih (fun o ho => hk o (List.mem_append_left _ ho))
    have hop : op.key ≠ [] := hk op (List.mem_append_right _ (List.mem_singleton.mpr rfl))
    rw [runOps_append]
    unfold expectedPos at ih ⊢
    rw [lastIndexOp_append]
    cases op with
    | put key pos =>
      simp only [IndexOp.key] at hop ⊢
      simp only [BTreeIndex.apply]
      rw [BTreeIndex.Put_ok _ key pos hop]
      simp only
      rw [BTree.Get_ReplaceOrInsert]
      by_cases hj : k = key
      · subst hj
        simp
      · have hj2 : ¬ key = k := fun e => hj e.symm
        rw [if_neg hj, if_neg hj2]
        exact ih
    | delete key =>
      simp only [IndexOp.key] at hop ⊢
      simp only [BTreeIndex.apply]
      rw [BTreeIndex.Delete_ok _ key hop]
      by_cases hj : k = key
      · subst hj
        rw [if_pos rfl]
        cases hg : (NewBTreeIndex.runOps ops).items.Get k with
        | none => simp [hg]
        | some item =>
          simp only
          rw [BTree.Get_Delete, if_pos rfl]
          rfl
      · have hj2 : ¬ key = k := fun e => hj e.symm
        rw [if_neg hj2]
        cases hg : (NewBTreeIndex.runOps ops).items.Get key with
        | none => exact ih
        | some item =>
          simp only
          rw [BTree.Get_Delete, if_neg hj]
          exact ih

/-- The keys of the items are the keys for which `Get` returns a position. -/
theorem mem_keys_iff (idx : BTreeIndex) (hne : ∀ x ∈ idx.items.items, x.key ≠ [])
    (j : List Byte) :
    j ∈ idx.items.items.map (fun x => x.key) ↔ ∃ p, idx.Get j = .ok p := by
  constructor
  · intro hj
    obtain ⟨x, hx, rfl⟩ := List.mem_map.mp hj
    rw [BTreeIndex.Get_ok idx _ (hne x hx), BTree.Get_eq]
    cases hf : idx.items.items.find? (fun y => decide (x.key = y.key)) with
    | none =>
      have := List.find?_eq_none.mp hf x hx
      simp at this
    | some item => exact ⟨item.pos, rfl⟩
  · rintro ⟨p, hp⟩
    by_cases hj : j = []
    · subst hj
      rw [BTreeIndex.Get_empty] at hp
      cases hp
    · rw [BTreeIndex.Get_ok idx j hj] at hp
      cases hg : idx.items.Get j with
      | none => rw [hg] at hp; cases hp
      | some item =>
        rw [BTree.Get_eq] at hg
        exact List.mem_map.mpr ⟨item, List.mem_of_find?_eq_some hg,
          (by simpa using List.find?_some hg : j = item.key).symm⟩

theorem keys_nodup (l : List indexItem)
    (h : l.Pairwise (fun a b => bytesLess a.key b.key = true)) :
    (l.map (fun x => x.key)).Nodup := by
  rw [List.Nodup, List.pairwise_map]
  refine h.imp ?_
  intro a b hab e
  rw [e, bytesLess_irrefl] at hab
  cases hab

/-- C19: for every sequence of `Put` and `Delete` calls with non-empty keys
and non-nil positions on a new index, and every non-empty key `k`, `Get(k)`
returns the position given to the most recent `Put(k, p)` when no `Delete(k)`
follows it and the not-found error otherwise, and `Len()` is the number of
keys for which `Get` returns a position. -/
theorem index_refines_map (ops : List IndexOp) (hk : ∀ op ∈ ops, op.key ≠ [])
    (k : List Byte) (hk0 : k ≠ []) :
    (NewBTreeIndex.runOps ops).Get k
        = (match expectedPos ops k with
          | some p => .ok p
          | none => .error .keyNotFound)
      ∧ ∃ keys : List (List Byte), keys.Nodup
          ∧ (∀ j, j ∈ keys ↔ ∃ p, (NewBTreeIndex.runOps ops).Get j = .ok p)
          ∧ (NewBTreeIndex.runOps ops).Len = keys.length := by
  constructor
  · rw [BTreeIndex.Get_ok _ k hk0, ← Get_runOps ops hk k]
    cases (NewBTreeIndex.runOps ops).items.Get k <;> rfl
  · obtain ⟨h1, h2⟩ := runOps_ascending ops
    exact ⟨_, keys_nodup _ h1, mem_keys_iff _ h2, (List.length_map _ _).symm⟩

/-- C19 on the calls of the tests: `Put` on "key1", "key2", "key1" again with
another position, then `Delete("key2")`, read at "key1". -/
theorem index_refines_map_witness :
    (NewBTreeIndex.runOps [.put [107, 101, 121, 49] ⟨1, 100, 10⟩,
        .put [107, 101, 121, 50] ⟨1, 200, 10⟩, .put [107, 101, 121, 49] ⟨2, 300, 30⟩,
        .delete [107, 101, 121, 50]]).Get [107, 101, 121, 49] = .ok ⟨2, 300, 30⟩
    ∧ ∃ keys : List (List Byte), keys.Nodup
        ∧ (∀ j, j ∈ keys ↔ ∃ p, (NewBTreeIndex.runOps [.put [107, 101, 121, 49] ⟨1, 100, 10⟩,
            .put [107, 101, 121, 50] ⟨1, 200, 10⟩, .put [107, 101, 121, 49] ⟨2, 300, 30⟩,
            .delete [107, 101, 121, 50]]).Get j = .ok p)
        ∧ (NewBTreeIndex.runOps [.put [107, 101, 121, 49] ⟨1, 100, 10⟩,
            .put [107, 101, 121, 50] ⟨1, 200, 10⟩, .put [107, 101, 121, 49] ⟨2, 300, 30⟩,
            .delete [107, 101, 121, 50]]).Len = keys.length :=
  index_refines_map [.put [107, 101, 121, 49] ⟨1, 100, 10⟩,
      .put [107, 101, 121, 50] ⟨1, 200, 10⟩, .put [107, 101, 121, 49] ⟨2, 300, 30⟩,
      .delete [107, 101, 121, 50]]
    (by
      intro op hop
      simp only [List.mem_cons, List.mem_singleton, List.not_mem_nil, or_false] at hop
      rcases hop with rfl | rfl | rfl | rfl <;> decide)
    [107, 101, 121, 49] (by decide)

end index

namespace index

/-- The cursor that stands on item `i` of its items yields the items from `i`
on and ends not valid. -/
theorem drain_from (l : List indexItem) (n : Nat) :
    ∀ (i : Nat) (x : indexItem) (extra : Nat), l.get? i = some x → i + n + 1 = l.length →
      drain (n + 2 + extra) { currItem := some x, items := l, currIndex := (i : Int) }
        = .ok ((l.drop i).map (fun y => (y.key, some y.pos)),
            { currItem := none, items := l, currIndex := ((l.length - 1 : Nat) : Int) }) := by
  induction n with
  | zero =>
    intro i x extra hx hi
    have hd : l.drop i = [x] := by
      have hlt : i < l.length := by omega
      rw [List.drop_eq_getElem_cons hlt, List.drop_of_length_le (by omega)]
      rw [List.get?_eq_getElem?, List.getElem?_eq_getElem hlt] at hx
      rw [Option.some.inj hx]
    have hnext : BTreeIterator.Next
        { currItem := some x, items := l, currIndex := (i : Int) }
        = .ok { currItem := none, items := l, currIndex := (i : Int) } := by
      unfold BTreeIterator.Next
      rw [if_neg (by simp only; omega)]
    have hi2 : l.length - 1 = i := by omega
    rw [show 0 + 2 + extra = (extra + 1) + 1 by omega, drain]
    simp only [BTreeIterator.Valid, Option.isSome_some, if_true, hnext]
    rw [drain]
    simp only [BTreeIterator.Valid, Option.isSome_none, Bool.false_eq_true, if_false, hd, hi2]
    rfl
  | succ n ih =>
    intro i x extra hx hi
    have hlt : i < l.length := by omega
    have hlt1 : i + 1 < l.length := by omega
    have hd : l.drop i = x :: l.drop (i + 1) := by
      rw [List.drop_eq_getElem_cons hlt]
      rw [List.get?_eq_getElem?, List.getElem?_eq_getElem hlt] at hx
      rw [Option.some.inj hx]
    have hy : l.get? (i + 1) = some (l.get ⟨i + 1, hlt1⟩) := List.get?_eq_get hlt1
    have hat : itemAt l ((i : Int) + 1) = .ok (l.get ⟨i + 1, hlt1⟩) := by
      unfold itemAt
      rw [if_pos (by omega)]
      have : ((i : Int) + 1).toNat = i + 1 := by omega
      rw [this, hy]
    have hnext : BTreeIterator.Next
        { currItem := some x, items := l, currIndex := (i : Int) }
        = .ok { currItem := some (l.get ⟨i + 1, hlt1⟩), items := l,
                currIndex := ((i + 1 : Nat) : Int) } := by
      unfold BTreeIterator.Next
      rw [if_pos (by simp only; omega)]
      simp only [hat]
      rfl
    rw [show n + 1 + 2 + extra = (n + 2 + extra) + 1 by omega, drain]
    simp only [BTreeIterator.Valid, Option.isSome_some, if_true, hnext]
    rw [ih (i + 1) _ extra hy (by omega), hd]
    rfl

/-- The cursor of an index yields the items of the index in their order and
ends not valid. -/
theorem drain_Iterator (idx : BTreeIndex) (extra : Nat) :
    ∃ last, drain (idx.Len + 1 + extra) idx.Iterator
        = .ok (idx.items.items.map (fun y => (y.key, some y.pos)), last)
      ∧ last.Valid = false := by
  unfold BTreeIndex.Iterator NewBTreeIterator BTreeIndex.Len BTree.Len
  cases hl : idx.items.items with
  | nil =>
    refine ⟨{ currItem := none, items := [], currIndex := -1 }, ?_, rfl⟩
    rw [show ([] : List indexItem).length + 1 + extra = extra + 1 by
      rw [List.length_nil]
      omega, drain]
    rfl
  | cons x xs =>
    have h := drain_from (x :: xs) xs.length 0 x extra rfl (by
      rw [List.length_cons]
      omega)
    refine ⟨{ currItem := none, items := x :: xs,
              currIndex := (((x :: xs).length - 1 : Nat) : Int) }, ?_, rfl⟩
    simp only [List.length_cons]
    rw [show xs.length + 1 + 1 + extra = xs.length + 2 + extra by omega]
    exact h

/-- C20: for every index state (every index reached from a new index through
`Put` and `Delete` calls, whatever they return), the cursor returned by
`Iterator()`, read and advanced with `Next` from creation, becomes invalid
after as many reads as the index has entries, without a panic; the pairs read
are exactly the (key, position) entries of the index, and their keys are in
strictly ascending lexicographic byte order, so that every entry is read
exactly once. -/
theorem Iterator_yields_entries_ascending (ops : List IndexOp) (extra : Nat) :
    ∃ out last,
      drain ((NewBTreeIndex.runOps ops).Len + 1 + extra) (NewBTreeIndex.runOps ops).Iterator
          = .ok (out, last)
        ∧ last.Valid = false
        ∧ out.length = (NewBTreeIndex.runOps ops).Len
        ∧ (out.map (fun e => e.1)).Pairwise (fun a b => bytesLess a b = true)
        ∧ (out.map (fun e => e.1)).Nodup
        ∧ ∀ k p, (k, some p) ∈ out ↔ (NewBTreeIndex.runOps ops).Get k = .ok p := by
  obtain ⟨last, hd, hv⟩ := drain_Iterator (NewBTreeIndex.runOps ops) extra
  obtain ⟨h1, h2⟩ := runOps_ascending ops
  have hkeys : ((NewBTreeIndex.runOps ops).items.items.map
      (fun y => (y.key, some y.pos))).map (fun e => e.1)
      = (NewBTreeIndex.runOps ops).items.items.map (fun y => y.key) := by
    rw [List.map_map]
    rfl
  refine ⟨_, last, hd, hv, List.length_map _ _, ?_, ?_, ?_⟩
  · rw [hkeys, List.pairwise_map]
    exact h1
  · rw [hkeys]
    exact keys_nodup _ h1
  · intro k p
    constructor
    · intro hm
      obtain ⟨x, hx, he⟩ := List.mem_map.mp hm
      simp only [Prod.mk.injEq, Option.some.injEq] at he
      obtain ⟨hxk, hxp⟩ := he
      have hk : k ≠ [] := hxk ▸ h2 x hx
      rw [BTreeIndex.Get_ok _ k hk]
      cases hg : (NewBTreeIndex.runOps ops).items.Get k with
      | none =>
        rw [BTree.Get_eq] at hg
        have := List.find?_eq_none.mp hg x hx
        simp [hxk] at this
      | some item =>
        have hik : item.key = k := BTree.Get_key _ k item hg
        rw [BTree.Get_eq] at hg
        have hmem := List.mem_of_find?_eq_some hg
        have : item = x :=
          List.inj_on_of_nodup_map (keys_nodup _ h1) hmem hx (hik.trans hxk.symm)
        simp only
        rw [this, hxp]
    · intro hg
      by_cases hk : k = []
      · subst hk
        rw [BTreeIndex.Get_empty] at hg
        cases hg
      · rw [BTreeIndex.Get_ok _ k hk] at hg
        cases hi : (NewBTreeIndex.runOps ops).items.Get k with
        | none => rw [hi] at hg; cases hg
        | some item =>
          rw [hi] at hg
          simp only [Except.ok.injEq] at hg
          have hik : item.key = k := BTree.Get_key _ k item hi
          rw [BTree.Get_eq] at hi
          exact List.mem_map.mpr ⟨item, List.mem_of_find?_eq_some hi, by rw [hik, hg]⟩

end index

/-! ## Seek, and cursors that are not valid -/

namespace index

/-- What the loop of `Seek` finds: the first item whose key is not below the
target, and its position. -/
theorem seekFrom_some (key : List Byte) (l : List indexItem) (i j : Nat) (x : indexItem)
    (h : seekFrom key i l = some (j, x)) :
    ∃ pre post, l = pre ++ x :: post ∧ j = i + pre.length
      ∧ (∀ y ∈ pre, bytesLess y.key key = true) ∧ bytesLess x.key key = false := by
  induction l generalizing i with
  | nil => cases h
  | cons a rest ih =>
    unfold seekFrom at h
    by_cases ha : bytesLess a.key key = true
    · rw [if_neg (by simp [ha])] at h
      obtain ⟨pre, post, h1, h2, h3, h4⟩ := ih (i + 1) h
      refine ⟨a :: pre, post, by rw [h1]; rfl, by rw [h2, List.length_cons]; omega, ?_, h4⟩
      intro y hy
      rcases List.mem_cons.mp hy with e | e
      · rw [e]
        exact ha
      · exact h3 y e
    · rw [if_pos (by simpa using ha)] at h
      simp only [Option.some.injEq, Prod.mk.injEq] at h
      refine ⟨[], rest, by rw [h.2]; rfl, by rw [← h.1]; rfl, fun y hy => (nomatch hy), ?_⟩
      rw [← h.2]
      simpa using ha

theorem seekFrom_none (key : List Byte) (l : List indexItem) (i : Nat) :
    seekFrom key i l = none ↔ ∀ y ∈ l, bytesLess y.key key = true := by
  induction l generalizing i with
  | nil => exact ⟨fun _ y hy => (nomatch hy), fun _ => rfl⟩
  | cons a rest ih =>
    unfold seekFrom
    by_cases ha : bytesLess a.key key = true
    · rw [if_neg (by simp [ha]), ih (i + 1)]
      constructor
      · intro h y hy
        rcases List.mem_cons.mp hy with e | e
        · rw [e]
          exact ha
        · exact h y e
      · intro h y hy
        exact h y (List.mem_cons_of_mem _ hy)
    · rw [if_pos (by simpa using ha)]
      constructor
      · intro h
        cases h
      · intro h
        exact absurd (h a (List.mem_cons_self _ _)) ha

theorem bytesLess_asymm (a b : List Byte) (h : bytesLess a b = true) : bytesLess b a = false := by
  cases hb : bytesLess b a with
  | false => rfl
  | true =>
    have := bytesLess_trans a b a h hb
    rw [bytesLess_irrefl] at this
    cases this

/-- What `Seek` leaves on a cursor whose items are in strictly ascending key
order, wherever the cursor stands. -/
theorem Seek_spec (iter : BTreeIterator) (target : List Byte)
    (hs : iter.items.Pairwise (fun a b => bytesLess a.key b.key = true)) :
    (iter.Seek target).items = iter.items
      ∧ ((iter.Seek target).Valid = false ↔ ∀ y ∈ iter.items, bytesLess y.key target = true)
      ∧ ∀ x, (iter.Seek target).currItem = some x →
          0 ≤ (iter.Seek target).currIndex
          ∧ iter.items.get? (iter.Seek target).currIndex.toNat = some x
          ∧ bytesLess x.key target = false
          ∧ ∀ y ∈ iter.items, bytesLess y.key target = false → bytesLess y.key x.key = false := by
  unfold BTreeIterator.Seek
  cases hf : seekFrom target 0 iter.items with
  | none =>
    refine ⟨rfl, ?_, fun x hx => nomatch hx⟩
    simp only [BTreeIterator.Valid, Option.isSome_none, true_iff]
    exact (seekFrom_none target iter.items 0).mp hf
  | some p =>
    obtain ⟨j, x⟩ := p
    obtain ⟨pre, post, h1, h2, h3, h4⟩ := seekFrom_some target iter.items 0 j x hf
    refine ⟨rfl, ?_, ?_⟩
    · simp only [BTreeIterator.Valid, Option.isSome_some, Bool.true_eq_false, false_iff]
      intro h
      have := h x (by rw [h1]; simp)
      rw [h4] at this
      cases this
    · intro x1 hx1
      simp only [Option.some.injEq] at hx1
      subst hx1
      simp only [Int.toNat_ofNat]
      refine ⟨Int.ofNat_nonneg _, ?_, h4, ?_⟩
      · rw [h1, h2, Nat.zero_add, List.get?_eq_getElem?, List.getElem?_append_right (le_refl _)]
        simp
      · intro y hy hyt
        rw [h1] at hy hs
        rcases List.mem_append.mp hy with e | e
        · rw [h3 y e] at hyt
          cases hyt
        · rcases List.mem_cons.mp e with e2 | e2
          · rw [e2]
            exact bytesLess_irrefl _
          · have hp := (List.pairwise_append.mp hs).2.1
            exact bytesLess_asymm _ _ ((List.pairwise_cons.mp hp).1 y e2)

/-- C21: for every index state, every cursor on its snapshot (in any
position) and every target key, `Seek(target)` leaves the cursor at an entry
of the snapshot whose key is not below the target and is not above the key of
any other such entry, with the cursor index at that entry, and leaves the
cursor invalid exactly when every key is below the target; after `Seek("b")`
on the keys a, b, c the key is b, one `Next` gives c and a second `Next`
makes the cursor invalid. -/
theorem Seek_first_key_not_below (ops : List IndexOp) (c : Option indexItem) (i : Int)
    (target : List Byte) :
    (((cursorAt (NewBTreeIndex.runOps ops) c i).Seek target).Valid = false
        ↔ ∀ y ∈ (NewBTreeIndex.runOps ops).items.items, bytesLess y.key target = true)
      ∧ (∀ x, ((cursorAt (NewBTreeIndex.runOps ops) c i).Seek target).currItem = some x →
          0 ≤ ((cursorAt (NewBTreeIndex.runOps ops) c i).Seek target).currIndex
          ∧ (NewBTreeIndex.runOps ops).items.items.get?
              ((cursorAt (NewBTreeIndex.runOps ops) c i).Seek target).currIndex.toNat = some x
          ∧ bytesLess x.key target = false
          ∧ ∀ y ∈ (NewBTreeIndex.runOps ops).items.items,
              bytesLess y.key target = false → bytesLess y.key x.key = false)
      ∧ (abcIndex.Iterator.run [.seek [98]]).map (fun it => (it.Valid, it.Key)) = .ok (true, [98])
      ∧ (abcIndex.Iterator.run [.seek [98], .next]).map (fun it => (it.Valid, it.Key))
          = .ok (true, [99])
      ∧ (abcIndex.Iterator.run [.seek [98], .next, .next]).map (fun it => it.Valid)
          = .ok false := by
  obtain ⟨_, h2, h3⟩ := Seek_spec (cursorAt (NewBTreeIndex.runOps ops) c i) target
    (runOps_ascending ops).1
  exact ⟨h2, h3, by decide, by decide, by decide⟩

/-- C21 on the index with the keys a, b, c and a cursor that stands on c:
`Seek("b")` leaves it on b, at index 1; `Seek("bb")` leaves it on c; and
`Seek("d")` leaves it invalid. -/
theorem Seek_first_key_not_below_witness :
    ((cursorAt abcIndex (some ⟨[99], ⟨1, 300, 100⟩⟩) 2).Seek [98]).currItem
        = some ⟨[98], ⟨1, 200, 100⟩⟩
      ∧ ((cursorAt abcIndex (some ⟨[99], ⟨1, 300, 100⟩⟩) 2).Seek [98]).currIndex = 1
      ∧ ((cursorAt abcIndex (some ⟨[99], ⟨1, 300, 100⟩⟩) 2).Seek [98, 98]).Key = [99]
      ∧ ((cursorAt abcIndex (some ⟨[99], ⟨1, 300, 100⟩⟩) 2).Seek [100]).Valid = false
      ∧ ∀ y ∈ abcIndex.items.items, bytesLess y.key [98, 98] = false
          → bytesLess y.key [99] = false :=
  ⟨by decide, by decide, by decide, by decide,
    ((Seek_first_key_not_below [.put [97] ⟨1, 100, 100⟩, .put [98] ⟨1, 200, 100⟩,
        .put [99] ⟨1, 300, 100⟩] (some ⟨[99], ⟨1, 300, 100⟩⟩) 2 [98, 98]).2.1
      ⟨[99], ⟨1, 300, 100⟩⟩ (by decide)).2.2.2⟩

end index

namespace index

theorem run_replicate_fixed (iter : BTreeIterator) (op : CursorOp)
    (h : iter.step op = .ok iter) (k : Nat) : iter.run (List.replicate k op) = .ok iter := by
  induction k with
  | zero => rfl
  | succ k ih =>
    rw [List.replicate_succ, BTreeIterator.run, h]
    exact ih

/-- The loop of `Seek` finds an item when some key is not below the target. -/
theorem Seek_valid (iter : BTreeIterator) (target : List Byte) (x : indexItem)
    (hx : x ∈ iter.items) (hk : bytesLess x.key target = false) :
    (iter.Seek target).Valid = true := by
  unfold BTreeIterator.Seek
  cases hf : seekFrom target 0 iter.items with
  | none =>
    have := (seekFrom_none target iter.items 0).mp hf x hx
    rw [hk] at this
    cases this
  | some p => rfl

/-- C28, counterexample: on the index with the keys a, b, c the cursor is
invalid after three `Next` calls from creation, and a `Prev` then makes it
valid again, on b; it is invalid after a `Prev` from the first entry, and a
`Next` then makes it valid again, on b; and it is invalid after `Seek("d")`,
and a `Next` then makes it valid again, on b. -/
theorem invalid_cursor_becomes_valid :
    (abcIndex.Iterator.run [.next, .next, .next]).map (fun it => it.Valid) = .ok false
    ∧ (abcIndex.Iterator.run [.next, .next, .next, .prev]).map (fun it => (it.Valid, it.Key))
        = .ok (true, [98])
    ∧ (abcIndex.Iterator.run [.prev]).map (fun it => it.Valid) = .ok false
    ∧ (abcIndex.Iterator.run [.prev, .next]).map (fun it => (it.Valid, it.Key))
        = .ok (true, [98])
    ∧ (abcIndex.Iterator.run [.seek [100]]).map (fun it => it.Valid) = .ok false
    ∧ (abcIndex.Iterator.run [.seek [100], .next]).map (fun it => (it.Valid, it.Key))
        = .ok (true, [98]) := by
  decide

/-- C28, amended: once a cursor is invalid after `Next` from the last entry,
every further `Next` call leaves it invalid, and once it is invalid after
`Prev` from the first entry, every further `Prev` call leaves it invalid; in
both cases `Seek` with the key of an entry makes it valid again. -/
theorem invalid_cursor_stays_invalid (l : List indexItem) (x : indexItem) (k : Nat) :
    (l.getLast? = some x →
        ∃ it, BTreeIterator.run (BTreeIterator.mk (some x) l ((l.length : Int) - 1))
                (List.replicate (k + 1) .next) = .ok it
          ∧ it.Valid = false ∧ (it.Seek x.key).Valid = true)
      ∧ (l.head? = some x →
        ∃ it, BTreeIterator.run (BTreeIterator.mk (some x) l 0)
                (List.replicate (k + 1) .prev) = .ok it
          ∧ it.Valid = false ∧ (it.Seek x.key).Valid = true) := by
  constructor
  · intro hx
    have hn : BTreeIterator.Next (BTreeIterator.mk none l ((l.length : Int) - 1))
        = .ok (BTreeIterator.mk none l ((l.length : Int) - 1)) := by
      unfold BTreeIterator.Next
      rw [if_neg (by simp)]
    refine ⟨(BTreeIterator.mk none l ((l.length : Int) - 1)), ?_, rfl,
      Seek_valid _ _ x (List.mem_of_getLast?_eq_some hx) (bytesLess_irrefl _)⟩
    rw [List.replicate_succ, BTreeIterator.run]
    have h1 : BTreeIterator.step (BTreeIterator.mk (some x) l ((l.length : Int) - 1)) .next
        = .ok (BTreeIterator.mk none l ((l.length : Int) - 1)) := by
      simp only [BTreeIterator.step]
      unfold BTreeIterator.Next
      rw [if_neg (by simp)]
    rw [h1]
    exact run_replicate_fixed _ _ (show BTreeIterator.step _ .next = _ from hn) k
  · intro hx
    have hn : BTreeIterator.Prev (BTreeIterator.mk none l 0)
        = .ok (BTreeIterator.mk none l 0) := by
      unfold BTreeIterator.Prev
      rw [if_neg (by simp)]
    refine ⟨(BTreeIterator.mk none l 0), ?_, rfl,
      Seek_valid _ _ x (List.mem_of_mem_head? hx) (bytesLess_irrefl _)⟩
    rw [List.replicate_succ, BTreeIterator.run]
    have h1 : BTreeIterator.step (BTreeIterator.mk (some x) l 0) .prev
        = .ok (BTreeIterator.mk none l 0) := by
      simp only [BTreeIterator.step]
      unfold BTreeIterator.Prev
      rw [if_neg (by simp)]
    rw [h1]
    exact run_replicate_fixed _ _ (show BTreeIterator.step _ .prev = _ from hn) k

/-- C28, amended, on the items of the index with the keys a, b, c: the cursor
on c after three more `Next` calls, and the cursor on a after three more
`Prev` calls. -/
theorem invalid_cursor_stays_invalid_witness :
    (∃ it, BTreeIterator.run (BTreeIterator.mk (some ⟨[99], ⟨1, 300, 100⟩⟩)
              abcIndex.items.items ((abcIndex.items.items.length : Int) - 1))
            (List.replicate (2 + 1) .next) = .ok it
        ∧ it.Valid = false ∧ (it.Seek [99]).Valid = true)
      ∧ ∃ it, BTreeIterator.run (BTreeIterator.mk (some ⟨[97], ⟨1, 100, 100⟩⟩)
              abcIndex.items.items 0)
            (List.replicate (2 + 1) .prev) = .ok it
        ∧ it.Valid = false ∧ (it.Seek [97]).Valid = true :=
  ⟨(invalid_cursor_stays_invalid abcIndex.items.items ⟨[99], ⟨1, 300, 100⟩⟩ 2).1 (by decide),
    (invalid_cursor_stays_invalid abcIndex.items.items ⟨[97], ⟨1, 100, 100⟩⟩ 2).2 (by decide)⟩

end index

/-! ## Rejected calls on the index, and `Delete` -/

namespace index

/-- The call `putCall` returns what `Put` returns. -/
theorem putCall_eq (idx : BTreeIndex) (key : List Byte) (pos : Option record.Pos) :
    idx.Put key pos = match (idx.putCall key pos).2 with
      | none => .ok (idx.putCall key pos).1
      | some e => .error e := by
  unfold BTreeIndex.Put BTreeIndex.putCall
  by_cases hk : key.length = 0
  · rw [if_pos hk, if_pos hk]
  · rw [if_neg hk, if_neg hk]
    cases pos <;> rfl

/-- The call `deleteCall` returns what `Delete` returns. -/
theorem deleteCall_eq (idx : BTreeIndex) (key : List Byte) :
    idx.Delete key = match (idx.deleteCall key).2 with
      | none => .ok (idx.deleteCall key).1
      | some e => .error e := by
  unfold BTreeIndex.Delete BTreeIndex.deleteCall
  by_cases hk : key.length = 0
  · rw [if_pos hk, if_pos hk]
  · rw [if_neg hk, if_neg hk]
    simp only [BTree.Delete]
    cases idx.items.Get key <;> rfl

/-- C23: `Get`, `Put` and `Delete` each return an error when the key is empty
(the nil slice and the empty slice both have length 0), and `Put` returns an
error when the position is nil, whatever the key; in each of these cases the
index after the call is the index before it, with the same `Len()`. -/
theorem empty_key_and_nil_pos_rejected (idx : BTreeIndex) (key : List Byte)
    (pos : Option record.Pos) :
    idx.Get [] = .error .keyEmpty
      ∧ idx.Put [] pos = .error .keyEmpty
      ∧ idx.putCall [] pos = (idx, some .keyEmpty)
      ∧ idx.Delete [] = .error .keyEmpty
      ∧ idx.deleteCall [] = (idx, some .keyEmpty)
      ∧ (∃ e, idx.Put key none = .error e ∧ idx.putCall key none = (idx, some e))
      ∧ (idx.putCall [] pos).1.Len = idx.Len
      ∧ (idx.deleteCall [] ).1.Len = idx.Len
      ∧ (idx.putCall key none).1.Len = idx.Len := by
  have h : ∃ e, idx.Put key none = .error e ∧ idx.putCall key none = (idx, some e) := by
    unfold BTreeIndex.Put BTreeIndex.putCall
    by_cases hk : key.length = 0
    · exact ⟨.keyEmpty, by rw [if_pos hk], by rw [if_pos hk]⟩
    · exact ⟨.posNil, by rw [if_neg hk], by rw [if_neg hk]⟩
  refine ⟨rfl, rfl, rfl, rfl, rfl, h, rfl, rfl, ?_⟩
  obtain ⟨e, _, h2⟩ := h
  rw [h2]

theorem filter_other_keys_eq (l : List indexItem) (k : List Byte)
    (h : l.find? (fun x => decide (k = x.key)) = none) :
    l.filter (fun x => bytesLess k x.key || bytesLess x.key k) = l := by
  rw [List.filter_eq_self]
  intro x hx
  have hne : ¬ k = x.key := by simpa using List.find?_eq_none.mp h x hx
  have := same_entry_iff k x.key
  rw [decide_eq_false hne] at this
  cases h1 : bytesLess k x.key <;> cases h2 : bytesLess x.key k <;> simp_all

theorem filter_other_keys_length (l : List indexItem) (k : List Byte)
    (hnd : (l.map (fun x => x.key)).Nodup) (hk : k ∈ l.map (fun x => x.key)) :
    (l.filter (fun x => bytesLess k x.key || bytesLess x.key k)).length + 1 = l.length := by
  induction l with
  | nil => cases hk
  | cons a rest ih =>
    rw [List.map_cons, List.nodup_cons] at hnd
    rw [List.filter_cons]
    by_cases ha : k = a.key
    · have hp : (bytesLess k a.key || bytesLess a.key k) = false := by
        rw [ha]
        simp [bytesLess_irrefl]
      rw [hp]
      simp only [Bool.false_eq_true, if_false, List.length_cons, Nat.add_right_cancel_iff]
      congr 1
      apply filter_other_keys_eq
      rw [List.find?_eq_none]
      intro x hx
      simp only [decide_eq_true_eq]
      intro e
      exact hnd.1 (List.mem_map.mpr ⟨x, hx, by rw [← e, ha]⟩)
    · have hp : (bytesLess k a.key || bytesLess a.key k) = true := by
        have := same_entry_iff k a.key
        rw [decide_eq_false ha] at this
        cases h1 : bytesLess k a.key <;> cases h2 : bytesLess a.key k <;> simp_all
      rw [hp]
      simp only [if_true, List.length_cons, Nat.add_right_cancel_iff]
      apply ih hnd.2
      rcases List.mem_cons.mp hk with e | e
      · exact absurd e ha
      · exact e

/-- C24: for every index state (every index reached from a new index through
`Put` and `Delete` calls) and every non-empty key `k`: when `Get(k)` returns
the not-found error, `Delete(k)` returns the not-found error and leaves the
index as it is; when `Get(k)` returns a position, `Delete(k)` returns no
error, `Get(k)` then returns the not-found error, `Len()` is lower by one and
`Get` of every other key returns what it returned before. -/
theorem Delete_removes_one_entry (ops : List IndexOp) (k : List Byte) (hk : k ≠ []) :
    ((NewBTreeIndex.runOps ops).Get k = .error .keyNotFound →
        (NewBTreeIndex.runOps ops).Delete k = .error .keyNotFound
        ∧ (NewBTreeIndex.runOps ops).deleteCall k
            = (NewBTreeIndex.runOps ops, some .keyNotFound))
      ∧ ∀ p, (NewBTreeIndex.runOps ops).Get k = .ok p →
          ((NewBTreeIndex.runOps ops).deleteCall k).2 = none
          ∧ (NewBTreeIndex.runOps ops).Delete k = .ok ((NewBTreeIndex.runOps ops).deleteCall k).1
          ∧ ((NewBTreeIndex.runOps ops).deleteCall k).1.Get k = .error .keyNotFound
          ∧ ((NewBTreeIndex.runOps ops).deleteCall k).1.Len + 1 = (NewBTreeIndex.runOps ops).Len
          ∧ ∀ j, j ≠ k →
              ((NewBTreeIndex.runOps ops).deleteCall k).1.Get j
                = (NewBTreeIndex.runOps ops).Get j := by
  generalize hidx : NewBTreeIndex.runOps ops = idx
  have hasc := runOps_ascending ops
  rw [hidx] at hasc
  have hlen : k.length ≠ 0 := fun h => hk (List.length_eq_zero.mp h)
  have hd : idx.deleteCall k = match idx.items.Get k with
      | none => ({ items := (idx.items.Delete k).2 }, some .keyNotFound)
      | some _ => ({ items := (idx.items.Delete k).2 }, none) := by
    unfold BTreeIndex.deleteCall
    rw [if_neg hlen]
    rfl
  constructor
  · intro hg
    rw [BTreeIndex.Get_ok idx k hk] at hg
    cases hi : idx.items.Get k with
    | some item => rw [hi] at hg; cases hg
    | none =>
      have hsame : (idx.items.Delete k).2 = idx.items := by
        rw [BTree.Get_eq] at hi
        simp only [BTree.Delete, filter_other_keys_eq _ k hi]
      rw [deleteCall_eq, hd, hi]
      simp only [hsame]
      exact ⟨trivial, trivial⟩
  · intro p hg
    rw [BTreeIndex.Get_ok idx k hk] at hg
    cases hi : idx.items.Get k with
    | none => rw [hi] at hg; cases hg
    | some item =>
      rw [deleteCall_eq, hd, hi]
      simp only
      refine ⟨trivial, trivial, ?_, ?_, ?_⟩
      · rw [BTreeIndex.Get_ok _ k hk]
        simp only
        rw [BTree.Get_Delete, if_pos rfl]
      · have hmem : k ∈ idx.items.items.map (fun x => x.key) := by
          have hkey := BTree.Get_key _ k item hi
          rw [BTree.Get_eq] at hi
          exact List.mem_map.mpr ⟨item, List.mem_of_find?_eq_some hi, hkey⟩
        exact filter_other_keys_length _ k (keys_nodup _ hasc.1) hmem
      · intro j hj
        by_cases hj0 : j = []
        · subst hj0
          rfl
        · rw [BTreeIndex.Get_ok _ j hj0, BTreeIndex.Get_ok _ j hj0]
          simp only
          rw [BTree.Get_Delete, if_neg hj]

/-- C24 on the index with the keys a, b, c: `Delete("b")` removes b and
leaves a and c; `Delete("x")` returns the not-found error. -/
theorem Delete_removes_one_entry_witness :
    (abcIndex.deleteCall [98]).2 = none
      ∧ (abcIndex.deleteCall [98]).1.Get [98] = .error .keyNotFound
      ∧ (abcIndex.deleteCall [98]).1.Len + 1 = abcIndex.Len
      ∧ (abcIndex.deleteCall [98]).1.Get [99] = abcIndex.Get [99]
      ∧ abcIndex.Delete [120] = .error .keyNotFound
      ∧ abcIndex.deleteCall [120] = (abcIndex, some .keyNotFound) :=
  ⟨((Delete_removes_one_entry [.put [97] ⟨1, 100, 100⟩, .put [98] ⟨1, 200, 100⟩,
        .put [99] ⟨1, 300, 100⟩] [98] (by decide)).2 ⟨1, 200, 100⟩ (by decide)).1,
    ((Delete_removes_one_entry [.put [97] ⟨1, 100, 100⟩, .put [98] ⟨1, 200, 100⟩,
        .put [99] ⟨1, 300, 100⟩] [98] (by decide)).2 ⟨1, 200, 100⟩ (by decide)).2.2.1,
    ((Delete_removes_one_entry [.put [97] ⟨1, 100, 100⟩, .put [98] ⟨1, 200, 100⟩,
        .put [99] ⟨1, 300, 100⟩] [98] (by decide)).2 ⟨1, 200, 100⟩ (by decide)).2.2.2.1,
    ((Delete_removes_one_entry [.put [97] ⟨1, 100, 100⟩, .put [98] ⟨1, 200, 100⟩,
        .put [99] ⟨1, 300, 100⟩] [98] (by decide)).2 ⟨1, 200, 100⟩ (by decide)).2.2.2.2
      [99] (by decide),
    (Delete_removes_one_entry [.put [97] ⟨1, 100, 100⟩, .put [98] ⟨1, 200, 100⟩,
        .put [99] ⟨1, 300, 100⟩] [120] (by decide)).1 (by decide)⟩

end index

/-! ## Calls that the index rejects -/

namespace bitcask
open wal file_manage

/-- The calls that return an error: the key is empty, or the call is a `Del`
of a key that the index does not hold. -/
theorem call_error_iff (b : Bitcask) (op : Op) :
    (∃ e, (b.call op).2 = some e)
      ↔ (op.key = [] ∨ ∃ k, op = .del k ∧ b.curIndex.items.Get k = none) := by
  cases op with
  | put key value =>
    simp only [Bitcask.call, Bitcask.Put, Op.key]
    by_cases hk : key = []
    · subst hk
      simp [index.BTreeIndex.Put]
    · rw [index.BTreeIndex.Put_ok _ key _ hk]
      simp [hk]
  | del key =>
    simp only [Bitcask.call, Bitcask.Del, Op.key]
    by_cases hk : key = []
    · subst hk
      simp [index.BTreeIndex.Delete]
    · rw [index.BTreeIndex.Delete_ok _ key hk]
      cases hg : b.curIndex.items.Get key <;> simp [hk, hg]

/-- The bytes of the active segment after the append of a call, on a handle
that writes at the end of its file. -/
theorem appended_bytes (b : Bitcask) (op : Op) (h : b.activeWal.AtEnd) :
    (b.appended op).fileIo.File.bytes
      = b.activeWal.fileIo.File.bytes ++ op.record.ToBytes := by
  cases op with
  | put key value => exact (Append_AtEnd b.activeWal key value _ h).1
  | del key => exact (Append_AtEnd b.activeWal key [] _ h).1

/-- C27, counterexample: on an engine opened on an empty directory,
`Del("a")` returns the not-found error of the index and `Put` with the empty
key returns its key-is-empty error; after either call the active segment
holds the bytes of a record and its tail is the length of that record. -/
theorem rejected_call_changes_segment :
    ((freshEngine ⟨100⟩).call (.del [97])).2 = some .keyNotFound
    ∧ (freshEngine ⟨100⟩).activeWal.fileIo.File.bytes = []
    ∧ (freshEngine ⟨100⟩).activeWal.GetOffset = 0
    ∧ ((freshEngine ⟨100⟩).call (.del [97])).1.activeWal.fileIo.File.bytes
        = record.Header.ToBytes ⟨[97], [], record.RecordTypeDeleted⟩
    ∧ ((freshEngine ⟨100⟩).call (.del [97])).1.activeWal.GetOffset = 14
    ∧ ((freshEngine ⟨100⟩).call (.put [] [49])).2 = some .keyEmpty
    ∧ ((freshEngine ⟨100⟩).call (.put [] [49])).1.activeWal.fileIo.File.bytes
        = record.Header.ToBytes ⟨[], [49], record.RecordTypeNormal⟩
    ∧ ((freshEngine ⟨100⟩).call (.put [] [49])).1.activeWal.GetOffset = 14 := by
  decide!

/-- C27, amended: whenever `Put` or `Del` returns an error because the index
rejected the call (an empty key, or `Del` of a key that is not in the index),
the record of the call has been appended: the tail offset of the active
segment has advanced by the encoded length of the record, and the bytes of an
active segment written at its end are the bytes before the call followed by
the encoded record; the index, the active id and the sealed-segments map are
the same as before the call. -/
theorem rejected_call_appends_record (b : Bitcask) (op : Op) (e : GoError)
    (he : (b.call op).2 = some e) :
    (op.key = [] ∨ ∃ k, op = .del k ∧ b.curIndex.items.Get k = none)
      ∧ (b.call op).1.activeWal.GetOffset = b.activeWal.GetOffset + op.recordLen
      ∧ (b.activeWal.AtEnd →
          (b.call op).1.activeWal.fileIo.File.bytes
            = b.activeWal.fileIo.File.bytes ++ op.record.ToBytes)
      ∧ (b.call op).1.activeWal.GetFileID = b.activeWal.GetFileID
      ∧ (b.call op).1.curIndex = b.curIndex
      ∧ (b.call op).1.fileId = b.fileId
      ∧ (b.call op).1.olderWal = b.olderWal := by
  refine ⟨(call_error_iff b op).mp ⟨e, he⟩, ?_⟩
  rw [call_error b op e he]
  exact ⟨(appended_pos b op).2, appended_bytes b op, (appended_pos b op).1, rfl, rfl, rfl⟩

/-- C27, amended, on an engine opened on an empty directory and `Del("a")`. -/
theorem rejected_call_appends_record_witness :
    ((freshEngine ⟨100⟩).call (.del [97])).1.activeWal.GetOffset
        = (freshEngine ⟨100⟩).activeWal.GetOffset + (Op.del [97]).recordLen
      ∧ ((freshEngine ⟨100⟩).call (.del [97])).1.activeWal.fileIo.File.bytes
        = (freshEngine ⟨100⟩).activeWal.fileIo.File.bytes ++ (Op.del [97]).record.ToBytes
      ∧ ((freshEngine ⟨100⟩).call (.del [97])).1.curIndex = (freshEngine ⟨100⟩).curIndex :=
  ⟨(rejected_call_appends_record (freshEngine ⟨100⟩) (.del [97]) .keyNotFound
      (by decide!)).2.1,
    (rejected_call_appends_record (freshEngine ⟨100⟩) (.del [97]) .keyNotFound
      (by decide!)).2.2.1 (NewWAL_none_AtEnd 0),
    (rejected_call_appends_record (freshEngine ⟨100⟩) (.del [97]) .keyNotFound
      (by decide!)).2.2.2.2.1⟩

end bitcask

/-! ## The names of the segment files -/

namespace bitcask

theorem digitVal_digitChar (d : Nat) (h : d < 10) : digitVal (digitChar d) = some d := by
  interval_cases d <;> decide

theorem parseDigits_append (acc : Nat) (l1 l2 : List Char) :
    parseDigits acc (l1 ++ l2)
      = match parseDigits acc l1 with
        | none => none
        | some a => parseDigits a l2 := by
  induction l1 generalizing acc with
  | nil => rfl
  | cons c cs ih =>
    simp only [List.cons_append, parseDigits]
    cases digitVal c with
    | none => rfl
    | some d => exact ih _

/-- The digit loop reads the digits of `n` back as `n`. -/
theorem parseDigits_toDecimal (fuel n : Nat) (h : n < fuel) :
    parseDigits 0 (toDecimal fuel n) = some n := by
  induction fuel generalizing n with
  | zero => omega
  | succ fuel ih =>
    unfold toDecimal
    by_cases hn : n < 10
    · rw [if_pos hn]
      simp only [parseDigits, digitVal_digitChar n hn]
      rw [Nat.zero_mul, Nat.zero_add]
    · rw [if_neg hn, parseDigits_append, ih (n / 10) (by omega)]
      simp only [parseDigits, digitVal_digitChar (n % 10) (Nat.mod_lt _ (by decide))]
      congr 1
      omega

theorem parseDigits_zeros (k : Nat) (s : List Char) :
    parseDigits 0 (List.replicate k (digitChar 0) ++ s) = parseDigits 0 s := by
  induction k with
  | zero => rfl
  | succ k ih =>
    rw [List.replicate_succ, List.cons_append, parseDigits,
      digitVal_digitChar 0 (by decide)]
    exact ih

theorem toDecimal_length (fuel n k : Nat) (h : n < fuel) (hk : n < 10 ^ (k + 1)) :
    (toDecimal fuel n).length ≤ k + 1 := by
  induction fuel generalizing n k with
  | zero => omega
  | succ fuel ih =>
    unfold toDecimal
    by_cases hn : n < 10
    · rw [if_pos hn]
      simp
    · rw [if_neg hn, List.length_append, List.length_singleton]
      cases k with
      | zero => omega
      | succ k =>
        have := ih (n / 10) k (by omega) (by
          rw [Nat.div_lt_iff_lt_mul (by decide)]
          rw [Nat.pow_succ] at hk
          exact hk)
        omega

theorem toDecimal_ne_nil (fuel n : Nat) : toDecimal (fuel + 1) n ≠ [] := by
  unfold toDecimal
  split
  · exact List.cons_ne_nil _ _
  · exact List.append_ne_nil_of_right_ne_nil _ (List.cons_ne_nil _ _)

theorem toDecimal_digits (fuel n : Nat) :
    ∀ c ∈ toDecimal fuel n, ∃ d, d < 10 ∧ c = digitChar d := by
  induction fuel generalizing n with
  | zero => exact fun c hc => nomatch hc
  | succ fuel ih =>
    unfold toDecimal
    by_cases hn : n < 10
    · rw [if_pos hn]
      intro c hc
      exact ⟨n, hn, List.mem_singleton.mp hc⟩
    · rw [if_neg hn]
      intro c hc
      rcases List.mem_append.mp hc with e | e
      · exact ih _ c e
      · exact ⟨n % 10, Nat.mod_lt _ (by decide), List.mem_singleton.mp e⟩

/-- What `%09d` writes for an id below `10^9`: nine decimal digits that the
digit loop reads back as the id. -/
theorem sprintf09d_spec (n : Nat) (h : n < 10 ^ 9) :
    (sprintf09d n).length = 9
      ∧ (∀ c ∈ sprintf09d n, ∃ d, d < 10 ∧ c = digitChar d)
      ∧ parseDigits 0 (sprintf09d n) = some n := by
  have hl := toDecimal_length (n + 1) n 8 (by omega) h
  refine ⟨?_, ?_, ?_⟩
  · unfold sprintf09d
    rw [List.length_append, List.length_replicate]
    omega
  · intro c hc
    unfold sprintf09d at hc
    rcases List.mem_append.mp hc with e | e
    · exact ⟨0, by decide, (List.mem_replicate.mp e).2⟩
    · exact toDecimal_digits _ _ c e
  · unfold sprintf09d
    rw [parseDigits_zeros, parseDigits_toDecimal _ _ (by omega)]

/-- The name parsing of `Bitcask.load` on a name made of "data_", a
non-empty string of decimal digits and ".wal". -/
theorem parseWalFileName_digits (ds : List Char) (v : Nat) (hne : ds ≠ [])
    (hd : ∀ c ∈ ds, ∃ d, d < 10 ∧ c = digitChar d) (hv : parseDigits 0 ds = some v)
    (hlt : v < 2 ^ 63) :
    parseWalFileName (dataLit ++ ds ++ walLit) = some (some (v : Int)) := by
  have h1 : dataLit.isPrefixOf (dataLit ++ ds ++ walLit) = true := by
    rw [List.isPrefixOf_iff_prefix, List.append_assoc]
    exact List.prefix_append _ _
  have h2 : walLit.isSuffixOf (dataLit ++ ds ++ walLit) = true := by
    rw [List.isSuffixOf_iff_suffix]
    exact List.suffix_append _ _
  have h3 : walLit.isSuffixOf (ds ++ walLit) = true := by
    rw [List.isSuffixOf_iff_suffix]
    exact List.suffix_append _ _
  have h4 : trimStart (dataLit ++ ds ++ walLit) dataLit = ds ++ walLit := by
    unfold trimStart
    rw [if_pos h1, List.append_assoc, List.drop_left]
  have h5 : trimEnd (ds ++ walLit) walLit = ds := by
    unfold trimEnd
    rw [if_pos h3, List.length_append, Nat.add_sub_cancel, List.take_left]
  unfold parseWalFileName
  rw [h1, h2, h4, h5]
  simp only [Bool.not_true, Bool.or_self, Bool.false_eq_true, if_false]
  cases ds with
  | nil => exact absurd rfl hne
  | cons c rest =>
    obtain ⟨d, hd10, hc⟩ := hd c (List.mem_cons_self _ _)
    have hplus : c ≠ Char.ofNat 43 := by
      rw [hc]
      interval_cases d <;> decide
    have hminus : c ≠ Char.ofNat 45 := by
      rw [hc]
      interval_cases d <;> decide
    unfold parseInt
    simp only [if_neg hplus, if_neg hminus]
    unfold parseUint
    rw [if_neg (List.cons_ne_nil _ _), hv]
    simp only
    rw [if_pos (show v < 2 ^ 64 by omega)]
    simp only
    rw [if_pos hlt]

/-- C26: for every file id with `0 ≤ id < 10^9`, `getWalFileName(id)` is
"data_" followed by exactly nine decimal digits, which denote the id,
followed by ".wal"; the name parsing of recovery maps that name back to the
id; and distinct ids below `10^9` give distinct names. -/
theorem getWalFileName_roundtrip (id : Nat) (h : id < 10 ^ 9) :
    (∃ ds, getWalFileName id = dataLit ++ ds ++ walLit ∧ ds.length = 9
        ∧ (∀ c ∈ ds, ∃ d, d < 10 ∧ c = digitChar d) ∧ parseDigits 0 ds = some id)
      ∧ parseWalFileName (getWalFileName id) = some (some (id : Int))
      ∧ ∀ id2, id2 < 10 ^ 9 → getWalFileName id = getWalFileName id2 → id = id2 := by
  have key : ∀ n, n < 10 ^ 9 →
      parseWalFileName (getWalFileName n) = some (some (n : Int)) := by
    intro n hn
    obtain ⟨h1, h2, h3⟩ := sprintf09d_spec n hn
    exact parseWalFileName_digits _ n
      (fun e => by rw [e] at h1; cases h1) h2 h3 (by omega)
  obtain ⟨h1, h2, h3⟩ := sprintf09d_spec id h
  refine ⟨⟨sprintf09d id, rfl, h1, h2, h3⟩, key id h, ?_⟩
  intro id2 h2 e
  have := key id h
  rw [e, key id2 h2] at this
  simp only [Option.some.injEq, Nat.cast_inj] at this
  exact this.symm

/-- C26 at the ids 7 and 120: the names are "data_000000007.wal" and
"data_000000120.wal". -/
theorem getWalFileName_roundtrip_witness :
    getWalFileName 7 = "data_000000007.wal".toList
      ∧ getWalFileName 120 = "data_000000120.wal".toList
      ∧ (∃ ds, getWalFileName 7 = dataLit ++ ds ++ walLit ∧ ds.length = 9
          ∧ (∀ c ∈ ds, ∃ d, d < 10 ∧ c = digitChar d) ∧ parseDigits 0 ds = some 7)
      ∧ parseWalFileName (getWalFileName 7) = some (some ((7 : Nat) : Int))
      ∧ (getWalFileName 7 = getWalFileName 120 → 7 = 120) :=
  ⟨by decide, by decide, (getWalFileName_roundtrip 7 (by decide)).1,
    (getWalFileName_roundtrip 7 (by decide)).2.1,
    (getWalFileName_roundtrip 7 (by decide)).2.2 120 (by decide)⟩

end bitcask

/-! ## The number of segments after a run of `Put` calls -/

namespace bitcask
open wal file_manage

theorem encodeAll_append (l1 l2 : List record.Header) :
    encodeAll (l1 ++ l2) = encodeAll l1 ++ encodeAll l2 := by
  induction l1 with
  | nil => rfl
  | cons r rest ih =>
    show r.ToBytes ++ encodeAll (rest ++ l2) = (r.ToBytes ++ encodeAll rest) ++ encodeAll l2
    rw [ih, List.append_assoc]

theorem encodeAll_length (recs : List record.Header) (s : Nat)
    (h : ∀ x ∈ recs, 13 + x.Key.length + x.Value.length = s) :
    (encodeAll recs).length = recs.length * s := by
  induction recs with
  | nil => simp [encodeAll]
  | cons r rest ih =>
    have hr := record.ToBytes_length r
    simp only [record.encodedLen] at hr
    rw [encodeAll, List.length_append, hr, ih (fun x hx => h x (List.mem_cons_of_mem _ hx)),
      h r (List.mem_cons_self _ _), List.length_cons, Nat.succ_mul, Nat.add_comm]

theorem HoldsRecords.snoc (bytes : List Byte) (r s : Nat) (x : record.Header)
    (h : HoldsRecords bytes r s) (hx : 13 + x.Key.length + x.Value.length = s) :
    HoldsRecords (bytes ++ x.ToBytes) (r + 1) s := by
  obtain ⟨recs, h1, h2, h3⟩ := h
  refine ⟨recs ++ [x], by rw [List.length_append, h1, List.length_singleton], ?_, ?_⟩
  · intro y hy
    rcases List.mem_append.mp hy with e | e
    · exact h2 y e
    · rw [List.mem_singleton.mp e]
      exact hx
  · rw [encodeAll_append, h3]
    simp [encodeAll]

/-- A `Put` with a non-empty key returns no error. -/
theorem Put_returns_no_error (b : Bitcask) (key value : List Byte) (hk : key ≠ []) :
    (b.call (.put key value)).2 = none := by
  cases he : (b.call (.put key value)).2 with
  | none => rfl
  | some e =>
    rcases (call_error_iff b (.put key value)).mp ⟨e, he⟩ with h | ⟨k, h, _⟩
    · exact absurd h hk
    · cases h

/-- The engine on an empty directory holds no record. -/
theorem Filled.on_empty_directory (config : Config) (s q : Nat) : (freshEngine config).Filled s q 0 0 :=
  ⟨rfl, rfl, NewWAL_none_AtEnd 0, ⟨[], rfl, fun _ hx => (nomatch hx), rfl⟩, rfl,
    fun _ he => (nomatch he)⟩

/-- The rotation check on an engine whose active segment holds `r + 1`
records of `s` bytes: the segment is sealed when `r + 1` is
`MaxFileSize / s + 1`, and nothing changes when it is less. -/
theorem Filled.check (m : Bitcask) (s a r : Nat) (hM : 0 ≤ m.config.MaxFileSize) (hs : 0 < s)
    (hf : m.Filled s (m.config.MaxFileSize.toNat / s + 1) a (r + 1)) :
    (r + 1 = m.config.MaxFileSize.toNat / s + 1 →
        m.tryCreateNewWalFile.Filled s (m.config.MaxFileSize.toNat / s + 1) (a + 1) 0)
      ∧ (r + 1 < m.config.MaxFileSize.toNat / s + 1 → m.tryCreateNewWalFile = m) := by
  have hoff : m.activeWal.GetOffset = (r + 1) * s := by
    obtain ⟨recs, h1, h2, h3⟩ := hf.active_recs
    show m.activeWal.fileIo.Offset = _
    rw [hf.active_end.2, h3, encodeAll_length recs s h2, h1]
  have hover : m.checkOverFlow = decide (m.config.MaxFileSize.toNat / s < r + 1) := by
    unfold Bitcask.checkOverFlow
    rw [hoff, decide_eq_decide, Nat.div_lt_iff_lt_mul hs]
    generalize (r + 1) * s = n
    omega
  unfold Bitcask.tryCreateNewWalFile
  constructor
  · intro hq
    rw [hover, if_neg (by simp; omega)]
    have hfile : m.file (m.fileId + 1) = none := by
      unfold Bitcask.file
      rw [if_neg (by rw [hf.active_id, hf.file_id]; omega)]
      cases hg : m.olderWal.get (m.fileId + 1) with
      | none => rfl
      | some w =>
        unfold WalMap.get at hg
        cases hfd : m.olderWal.find? (fun e => decide (e.1 = m.fileId + 1)) with
        | none => rw [hfd] at hg; cases hg
        | some e =>
          have hm : e.1 ∈ m.olderWal.map (fun e => e.1) :=
            List.mem_map.mpr ⟨e, List.mem_of_find?_eq_some hfd, rfl⟩
          have he : e.1 = m.fileId + 1 := by simpa using List.find?_some hfd
          rw [hf.sealed_ids, List.mem_reverse, List.mem_range, he, hf.file_id] at hm
          omega
    rw [hfile]
    have hfilter : m.olderWal.filter (fun e => decide (e.1 ≠ m.fileId)) = m.olderWal := by
      rw [List.filter_eq_self]
      intro e he
      have hm : e.1 ∈ m.olderWal.map (fun e => e.1) := List.mem_map.mpr ⟨e, he, rfl⟩
      rw [hf.sealed_ids, List.mem_reverse, List.mem_range, ← hf.file_id] at hm
      simp only [ne_eq, decide_not, Bool.not_eq_true', decide_eq_false_iff_not]
      omega
    refine ⟨by simp only [hf.file_id], by simp only [hf.file_id]; rfl, NewWAL_none_AtEnd _,
      ⟨[], rfl, fun _ hx => (nomatch hx), rfl⟩, ?_, ?_⟩
    · show (m.olderWal.set m.fileId m.activeWal).map (fun e => e.1) = _
      unfold WalMap.set
      rw [hfilter, List.map_cons, hf.sealed_ids, hf.file_id, List.range_succ,
        List.reverse_append]
      rfl
    · intro e he
      have he2 : e ∈ m.olderWal.set m.fileId m.activeWal := he
      unfold WalMap.set at he2
      rw [hfilter] at he2
      rcases List.mem_cons.mp he2 with e1 | e1
      · rw [e1, ← hq]
        exact hf.active_recs
      · exact hf.sealed_recs e e1
  · intro hq
    rw [hover, if_pos (by simp; omega)]

/-- One more `Put` of a record of `s` bytes: the active segment takes the
record, and is sealed when it then holds `q = MaxFileSize / s + 1` records. -/
theorem Filled.after_Put (b : Bitcask) (s a r : Nat) (key value : List Byte)
    (hM : 0 ≤ b.config.MaxFileSize) (hs : 0 < s)
    (hf : b.Filled s (b.config.MaxFileSize.toNat / s + 1) a r) (hk : key ≠ [])
    (hlen : 13 + key.length + value.length = s) :
    (r + 1 = b.config.MaxFileSize.toNat / s + 1 →
        (b.call (.put key value)).1.Filled s (b.config.MaxFileSize.toNat / s + 1) (a + 1) 0)
      ∧ (r + 1 < b.config.MaxFileSize.toNat / s + 1 →
        (b.call (.put key value)).1.Filled s (b.config.MaxFileSize.toNat / s + 1) a (r + 1)) := by
  obtain ⟨idx, hc⟩ := call_ok b (.put key value) (Put_returns_no_error b key value hk)
  obtain ⟨hb, hend, hid, _⟩ := Append_AtEnd b.activeWal key value record.RecordTypeNormal
    hf.active_end
  have hrecs : HoldsRecords (b.appended (.put key value)).fileIo.File.bytes (r + 1) s := by
    show HoldsRecords (b.activeWal.Append key value record.RecordTypeNormal).1.fileIo.File.bytes
      (r + 1) s
    rw [hb]
    exact HoldsRecords.snoc _ r s ⟨key, value, record.RecordTypeNormal⟩ hf.active_recs hlen
  have hfid : (b.appended (.put key value)).GetFileID = a :=
    (appended_pos b (.put key value)).1.trans hf.active_id
  have hmid := Filled.check
    (Bitcask.mk b.config b.olderWal (b.appended (.put key value)) idx b.fileId b.fileIds)
    s a r hM hs ⟨hf.file_id, hfid, hend, hrecs, hf.sealed_ids, hf.sealed_recs⟩
  rw [hc]
  refine ⟨hmid.1, fun hq => ?_⟩
  rw [hmid.2 hq]
  exact ⟨hf.file_id, hfid, hend, hrecs, hf.sealed_ids, hf.sealed_recs⟩

end bitcask

namespace bitcask
open wal file_manage

/-- The engine after a run of `Put` calls of records of `s` bytes on an empty
directory: `a` sealed segments and `r` records in the active segment, where
`a` and `r` are quotient and remainder of the number of calls by
`q = MaxFileSize / s + 1`. -/
theorem Filled.puts (config : Config) (hM : 0 ≤ config.MaxFileSize) (s : Nat) (hs : 0 < s)
    (kvs : List (List Byte × List Byte))
    (hk : ∀ kv ∈ kvs, kv.1 ≠ [] ∧ 13 + kv.1.length + kv.2.length = s) :
    ∃ a r, kvs.length = (config.MaxFileSize.toNat / s + 1) * a + r
      ∧ r < config.MaxFileSize.toNat / s + 1
      ∧ ((freshEngine config).run (kvs.map (fun kv => Op.put kv.1 kv.2))).Filled s
          (config.MaxFileSize.toNat / s + 1) a r := by
  induction kvs using List.reverseRecOn with
  | nil => exact ⟨0, 0, rfl, Nat.succ_pos _, Filled.on_empty_directory config s _⟩
  | append_singleton kvs kv ih =>
    obtain ⟨a, r, hn, hr, hf⟩ := ih (fun x hx => hk x (List.mem_append_left _ hx))
    obtain ⟨hkey, hlen⟩ := hk kv (List.mem_append_right _ (List.mem_singleton.mpr rfl))
    have hcfg : ((freshEngine config).run (kvs.map (fun kv => Op.put kv.1 kv.2))).config
        = config := run_config _ _
    have hrun : (freshEngine config).run ((kvs ++ [kv]).map (fun kv => Op.put kv.1 kv.2))
        = (((freshEngine config).run (kvs.map (fun kv => Op.put kv.1 kv.2))).call
            (.put kv.1 kv.2)).1 := by
      rw [← step_eq_call]
      simp only [Bitcask.run, List.map_append, List.foldl_append, List.map_cons, List.map_nil,
        List.foldl_cons, List.foldl_nil]
    have hstep := Filled.after_Put _ s a r kv.1 kv.2 (by rw [hcfg]; exact hM) hs
      (by rw [hcfg]; exact hf) hkey hlen
    rw [hcfg] at hstep
    rw [hrun, List.length_append, List.length_singleton]
    by_cases hq : r + 1 = config.MaxFileSize.toNat / s + 1
    · refine ⟨a + 1, 0, ?_, Nat.succ_pos _, hstep.1 hq⟩
      rw [hn, Nat.mul_add, Nat.mul_one, ← hq]
      omega
    · exact ⟨a, r + 1, by omega, by omega, hstep.2 (by omega)⟩

theorem get_isSome_iff (m : WalMap) (id : Nat) :
    (m.get id).isSome = true ↔ id ∈ m.map (fun e => e.1) := by
  unfold WalMap.get
  rw [Option.isSome_map', List.find?_isSome, List.mem_map]
  constructor
  · rintro ⟨e, he, h⟩
    exact ⟨e, he, by simpa using h⟩
  · rintro ⟨e, he, h⟩
    exact ⟨e, he, by simpa using h⟩

theorem get_mem (m : WalMap) (id : Nat) (w : WAL) (h : m.get id = some w) : (id, w) ∈ m := by
  unfold WalMap.get at h
  cases hf : m.find? (fun e => decide (e.1 = id)) with
  | none => rw [hf] at h; cases h
  | some e =>
    rw [hf] at h
    have h1 : e.1 = id := by simpa using List.find?_some hf
    have h2 : e.2 = w := by simpa using h
    have := List.mem_of_find?_eq_some hf
    rw [← h1, ← h2]
    exact this

/-- C25: on an engine opened on an empty directory with `MaxFileSize = M ≥ 0`,
after `n` `Put` calls with non-empty keys (the `Put` calls that return no
error) of records that each encode to `s ≥ 14` bytes: the active segment id
is `floor(n / (floor(M / s) + 1))`, the sealed segments are the segments with
the ids below it, every sealed segment holds exactly `floor(M / s) + 1`
records, and the directory holds one segment file more than the active id;
in particular with `M = 512`, `n = 120` and records of 36 bytes the directory
holds at least seven segment files. -/
theorem segments_after_puts (config : Config) (hM : 0 ≤ config.MaxFileSize) (s : Nat)
    (hs : 14 ≤ s) (kvs : List (List Byte × List Byte))
    (hk : ∀ kv ∈ kvs, kv.1 ≠ [] ∧ 13 + kv.1.length + kv.2.length = s) :
    ((freshEngine config).run (kvs.map (fun kv => Op.put kv.1 kv.2))).fileId
        = kvs.length / (config.MaxFileSize.toNat / s + 1)
      ∧ (∀ id, (((freshEngine config).run
            (kvs.map (fun kv => Op.put kv.1 kv.2))).olderWal.get id).isSome = true
          ↔ id < kvs.length / (config.MaxFileSize.toNat / s + 1))
      ∧ (∀ id w, ((freshEngine config).run
            (kvs.map (fun kv => Op.put kv.1 kv.2))).olderWal.get id = some w →
          HoldsRecords w.fileIo.File.bytes (config.MaxFileSize.toNat / s + 1) s)
      ∧ HoldsRecords ((freshEngine config).run
            (kvs.map (fun kv => Op.put kv.1 kv.2))).activeWal.fileIo.File.bytes
          (kvs.length % (config.MaxFileSize.toNat / s + 1)) s
      ∧ ((freshEngine config).run (kvs.map (fun kv => Op.put kv.1 kv.2))).Close.length
          = kvs.length / (config.MaxFileSize.toNat / s + 1) + 1
      ∧ (config.MaxFileSize = 512 → s = 36 → kvs.length = 120 →
          7 ≤ ((freshEngine config).run
            (kvs.map (fun kv => Op.put kv.1 kv.2))).Close.length) := by
  obtain ⟨a, r, hn, hr, hf⟩ := Filled.puts config hM s (by omega) kvs hk
  have ha : kvs.length / (config.MaxFileSize.toNat / s + 1) = a := by
    rw [hn, Nat.add_comm, Nat.add_mul_div_left _ _ (Nat.succ_pos _), Nat.div_eq_of_lt hr,
      Nat.zero_add]
  have hrm : kvs.length % (config.MaxFileSize.toNat / s + 1) = r := by
    rw [hn, Nat.add_comm, Nat.add_mul_mod_self_left, Nat.mod_eq_of_lt hr]
  have hclose : ((freshEngine config).run (kvs.map (fun kv => Op.put kv.1 kv.2))).Close.length
      = a + 1 := by
    unfold Bitcask.Close
    rw [List.length_append, List.length_map, List.length_singleton,
      ← List.length_map _ (fun e : Nat × WAL => e.1), hf.sealed_ids, List.length_reverse,
      List.length_range]
  rw [ha, hrm]
  refine ⟨hf.file_id, ?_, ?_, hf.active_recs, hclose, ?_⟩
  · intro id
    rw [get_isSome_iff, hf.sealed_ids, List.mem_reverse, List.mem_range]
  · intro id w hg
    exact hf.sealed_recs _ (get_mem _ id w hg)
  · intro h1 h2 h3
    rw [hclose, ← ha, h1, h2, h3]
    decide

theorem GenerateKey_length (i : Nat) (h : i < 10 ^ 9) : (utils.GenerateKey i).length = 13 := by
  unfold utils.GenerateKey
  rw [List.length_map, List.length_append, (sprintf09d_spec i h).1]
  rfl

/-- C25 at the calls of `TestBitcask` with `MaxFileSize = 512`: the 120
records of 36 bytes fill eight sealed segments of 15 records each, the active
segment 8 is empty, and the directory holds nine segment files. -/
theorem segments_after_puts_witness :
    ((freshEngine ⟨512⟩).run (testPuts.map (fun kv => Op.put kv.1 kv.2))).fileId = 8
      ∧ (∀ id w, ((freshEngine ⟨512⟩).run
            (testPuts.map (fun kv => Op.put kv.1 kv.2))).olderWal.get id = some w →
          HoldsRecords w.fileIo.File.bytes 15 36)
      ∧ ((freshEngine ⟨512⟩).run (testPuts.map (fun kv => Op.put kv.1 kv.2))).Close.length = 9
      ∧ 7 ≤ ((freshEngine ⟨512⟩).run (testPuts.map (fun kv => Op.put kv.1 kv.2))).Close.length :=
  have hk : ∀ kv ∈ testPuts, kv.1 ≠ [] ∧ 13 + kv.1.length + kv.2.length = 36 := by
    intro kv hkv
    obtain ⟨i, hi, rfl⟩ := List.mem_map.mp hkv
    have hl := GenerateKey_length i (by
      have := List.mem_range.mp hi
      omega)
    refine ⟨fun e => ?_, by rw [hl]; rfl⟩
    have e2 : utils.GenerateKey i = [] := e
    rw [e2] at hl
    cases hl
  have hlen : testPuts.length = 120 := by
    unfold testPuts
    rw [List.length_map, List.length_range]
  have h := segments_after_puts ⟨512⟩ (by decide) 36 (by decide) testPuts hk
  ⟨by
      rw [h.1, hlen]
      rfl,
    h.2.2.1,
    by
      rw [h.2.2.2.2.1, hlen]
      rfl,
    h.2.2.2.2.2 rfl rfl hlen⟩

end bitcask

/-! ## The snapshot of a cursor -/

namespace index

theorem keyAt_of_extension (h1 h2 : List indexItem) (hp : h1 <+: h2) (a : Nat)
    (ha : a < h1.length) : keyAt h2 a = keyAt h1 a := by
  obtain ⟨t, rfl⟩ := hp
  unfold keyAt
  rw [List.get?_eq_getElem?, List.get?_eq_getElem?, List.getElem?_append_left ha]

theorem posAt_of_extension (h1 h2 : List indexItem) (hp : h1 <+: h2) (a : Nat)
    (ha : a < h1.length) : posAt h2 a = posAt h1 a := by
  obtain ⟨t, rfl⟩ := hp
  unfold posAt
  rw [List.get?_eq_getElem?, List.get?_eq_getElem?, List.getElem?_append_left ha]

/-- The calls on the index only add objects to the heap. -/
theorem heap_prefix_apply (o : PtrIndex) (op : IndexOp) : o.heap <+: (o.apply op).heap := by
  cases op with
  | put key pos =>
    simp only [PtrIndex.apply, PtrIndex.Put]
    split
    · exact List.prefix_refl _
    · exact List.prefix_append _ _
  | delete key =>
    simp only [PtrIndex.apply, PtrIndex.Delete]
    split
    · exact List.prefix_refl _
    · split <;> exact List.prefix_refl _

theorem mem_insertPtr (heap : List indexItem) (a y : Nat) (l : List Nat)
    (h : y ∈ insertPtr heap a l) : y = a ∨ y ∈ l := by
  induction l with
  | nil => exact Or.inl (List.mem_singleton.mp h)
  | cons x xs ih =>
    unfold insertPtr at h
    split at h
    · rcases List.mem_cons.mp h with e | e
      · exact Or.inl e
      · exact Or.inr e
    · split at h
      · rcases List.mem_cons.mp h with e | e
        · exact Or.inr (e ▸ List.mem_cons_self _ _)
        · rcases ih e with e2 | e2
          · exact Or.inl e2
          · exact Or.inr (List.mem_cons_of_mem _ e2)
      · rcases List.mem_cons.mp h with e | e
        · exact Or.inl e
        · exact Or.inr (List.mem_cons_of_mem _ e)

/-- Every pointer of the tree points into the heap. -/
theorem tree_in_heap_apply (o : PtrIndex) (op : IndexOp)
    (h : ∀ a ∈ o.tree, a < o.heap.length) :
    ∀ a ∈ (o.apply op).tree, a < (o.apply op).heap.length := by
  cases op with
  | put key pos =>
    simp only [PtrIndex.apply, PtrIndex.Put]
    split
    · exact h
    · intro a ha
      simp only [List.length_append, List.length_singleton]
      rcases mem_insertPtr _ _ a _ ha with e | e
      · omega
      · have := h a e
        omega
  | delete key =>
    simp only [PtrIndex.apply, PtrIndex.Delete]
    split
    · exact h
    · split <;> exact fun a ha => h a (List.mem_of_mem_filter ha)

theorem tree_in_heap (ops : List IndexOp) :
    ∀ a ∈ (PtrIndex.New.runOps ops).tree, a < (PtrIndex.New.runOps ops).heap.length := by
  induction ops using List.reverseRecOn with
  | nil => exact fun a ha => (nomatch ha)
  | append_singleton ops op ih =>
    have : PtrIndex.New.runOps (ops ++ [op]) = (PtrIndex.New.runOps ops).apply op := by
      simp [PtrIndex.runOps, List.foldl_append]
    rw [this]
    exact tree_in_heap_apply _ op ih

theorem seekPtrFrom_of_extension (h1 h2 : List indexItem) (hp : h1 <+: h2) (key : List Byte)
    (items : List Nat) (hin : ∀ a ∈ items, a < h1.length) (i : Nat) :
    seekPtrFrom h2 key i items = seekPtrFrom h1 key i items := by
  induction items generalizing i with
  | nil => rfl
  | cons a rest ih =>
    unfold seekPtrFrom
    rw [keyAt_of_extension h1 h2 hp a (hin a (List.mem_cons_self _ _)),
      ih (fun x hx => hin x (List.mem_cons_of_mem _ hx))]

theorem seekPtrFrom_some (heap : List indexItem) (key : List Byte) (items : List Nat)
    (i j a : Nat) (h : seekPtrFrom heap key i items = some (j, a)) :
    i ≤ j ∧ items.get? (j - i) = some a := by
  induction items generalizing i with
  | nil => cases h
  | cons x rest ih =>
    unfold seekPtrFrom at h
    split at h
    · simp only [Option.some.injEq, Prod.mk.injEq] at h
      rw [← h.1, ← h.2, Nat.sub_self]
      exact ⟨le_refl _, rfl⟩
    · obtain ⟨h1, h2⟩ := ih (i + 1) h
      refine ⟨by omega, ?_⟩
      rw [show j - i = (j - (i + 1)) + 1 by omega]
      exact h2

theorem ptrAt_ok (items : List Nat) (i : Int) (h0 : 0 ≤ i) (h1 : i < (items.length : Int)) :
    ∃ a, ptrAt items i = .ok a ∧ items.get? i.toNat = some a := by
  have hlt : i.toNat < items.length := by omega
  refine ⟨items.get ⟨i.toNat, hlt⟩, ?_, List.get?_eq_get hlt⟩
  unfold ptrAt
  rw [if_pos h0, List.get?_eq_get hlt]

end index

namespace index

/-- A call on a cursor returns a cursor with the same items, whose current
pointer is one of them; it does not panic. -/
theorem step_sane (iter : PtrIterator) (heap : List indexItem) (op : CursorOp)
    (h : iter.Sane) :
    ∃ next, iter.step heap op = .ok next ∧ next.items = iter.items ∧ next.Sane := by
  obtain ⟨hcur, hlo, hhi⟩ := h
  cases op with
  | next =>
    simp only [PtrIterator.step, PtrIterator.Next]
    by_cases hc : iter.currIndex < (iter.items.length : Int) - 1
    · rw [if_pos hc]
      obtain ⟨a, ha, hget⟩ := ptrAt_ok iter.items (iter.currIndex + 1) (by omega) (by omega)
      rw [ha]
      refine ⟨_, rfl, rfl, ⟨fun b hb => ?_, by simp only; omega, by simp only; omega⟩⟩
      simp only [Option.some.injEq] at hb
      rw [← hb]
      exact List.get?_mem hget
    · rw [if_neg hc]
      exact ⟨_, rfl, rfl, ⟨fun b hb => (nomatch hb), hlo, hhi⟩⟩
  | prev =>
    simp only [PtrIterator.step, PtrIterator.Prev]
    by_cases hc : iter.currIndex > 0
    · rw [if_pos hc]
      obtain ⟨a, ha, hget⟩ := ptrAt_ok iter.items (iter.currIndex - 1) (by omega) (by omega)
      rw [ha]
      refine ⟨_, rfl, rfl, ⟨fun b hb => ?_, by simp only; omega, by simp only; omega⟩⟩
      simp only [Option.some.injEq] at hb
      rw [← hb]
      exact List.get?_mem hget
    · rw [if_neg hc]
      exact ⟨_, rfl, rfl, ⟨fun b hb => (nomatch hb), hlo, hhi⟩⟩
  | seek key =>
    simp only [PtrIterator.step, PtrIterator.Seek]
    cases hs : seekPtrFrom heap key 0 iter.items with
    | none => exact ⟨_, rfl, rfl, ⟨fun b hb => (nomatch hb), hlo, hhi⟩⟩
    | some p =>
      obtain ⟨j, a⟩ := p
      obtain ⟨_, hget⟩ := seekPtrFrom_some heap key iter.items 0 j a hs
      rw [Nat.sub_zero] at hget
      have hj : j < iter.items.length := by
        rw [List.get?_eq_getElem?] at hget
        exact (List.getElem?_eq_some_iff.mp hget).1
      refine ⟨_, rfl, rfl, ⟨fun b hb => ?_, by simp only; omega, by simp only; omega⟩⟩
      simp only [Option.some.injEq] at hb
      rw [← hb]
      exact List.get?_mem hget

/-- A call on a cursor whose items point into the part of the heap that was
there at an earlier time does what it did at that time. -/
theorem step_of_extension (iter : PtrIterator) (h1 h2 : List indexItem) (hp : h1 <+: h2)
    (hin : ∀ a ∈ iter.items, a < h1.length) (op : CursorOp) :
    iter.step h2 op = iter.step h1 op := by
  cases op with
  | next => rfl
  | prev => rfl
  | seek key =>
    simp only [PtrIterator.step, PtrIterator.Seek, seekPtrFrom_of_extension h1 h2 hp key _ hin]

theorem Iterator_sane (o : PtrIndex) : o.Iterator.Sane ∧ o.Iterator.items = o.tree := by
  unfold PtrIndex.Iterator
  cases o.tree with
  | nil => exact ⟨⟨fun b hb => (nomatch hb), le_refl _, by simp⟩, rfl⟩
  | cons first rest =>
    refine ⟨⟨fun b hb => ?_, by simp only; omega, by simp only [List.length_cons]; omega⟩, rfl⟩
    simp only [Option.some.injEq] at hb
    rw [← hb]
    exact List.mem_cons_self _ _

/-- What the cursor yields does not depend on the calls on the index that are
made in between: the heap only grows, and the cursor reads at the pointers it
took when it was made. -/
theorem readings_frame (steps : List WorldOp) (o o1 : PtrIndex) (iter : PtrIterator)
    (hp : o1.heap <+: o.heap) (hin : ∀ a ∈ iter.items, a < o1.heap.length)
    (hs : iter.Sane) :
    ∃ obs, readings o iter steps = .ok obs
      ∧ readings o1 iter (steps.filter WorldOp.isCursor) = .ok obs := by
  induction steps generalizing o iter with
  | nil => exact ⟨[], rfl, rfl⟩
  | cons st rest ih =>
    cases st with
    | onIndex op =>
      obtain ⟨obs, h1, h2⟩ := ih (o.apply op) iter (hp.trans (heap_prefix_apply o op)) hin hs
      refine ⟨obs, ?_, ?_⟩
      · rw [readings]
        exact h1
      · rw [List.filter_cons_of_neg (by simp [WorldOp.isCursor])]
        exact h2
    | onCursor op =>
      obtain ⟨next, hn, hitems, hsane⟩ := step_sane iter o1.heap op hs
      have hn2 : iter.step o.heap op = .ok next := by
        rw [step_of_extension iter o1.heap o.heap hp hin op]
        exact hn
      obtain ⟨obs, h1, h2⟩ := ih o next hp (by rw [hitems]; exact hin) hsane
      have hk : next.Key o.heap = next.Key o1.heap := by
        unfold PtrIterator.Key
        cases hc : next.currItem with
        | none => rfl
        | some a =>
          exact keyAt_of_extension _ _ hp a (by
            have := hsane.current a hc
            rw [hitems] at this
            exact hin a this)
      have hv : next.Value o.heap = next.Value o1.heap := by
        unfold PtrIterator.Value
        cases hc : next.currItem with
        | none => rfl
        | some a =>
          exact posAt_of_extension _ _ hp a (by
            have := hsane.current a hc
            rw [hitems] at this
            exact hin a this)
      refine ⟨(next.Valid, next.Key o1.heap, next.Value o1.heap) :: obs, ?_, ?_⟩
      · rw [readings, hn2]
        simp only [h1, hk, hv]
      · rw [List.filter_cons_of_pos (by simp [WorldOp.isCursor]), readings, hn]
        simp only [h2]

/-- C22: for every index state and the cursor that `Iterator()` returns on
it, and every sequence of later calls in which `Put` and `Delete` calls on
the index are mixed with `Seek`, `Next` and `Prev` calls on the cursor: no
call panics, and what `Valid`, `Key` and `Value` return after each call on
the cursor is the same as in the sequence without the calls on the index. -/
theorem cursor_reads_its_snapshot (ops : List IndexOp) (steps : List WorldOp) :
    ∃ obs,
      readings (PtrIndex.New.runOps ops) (PtrIndex.New.runOps ops).Iterator steps = .ok obs
      ∧ readings (PtrIndex.New.runOps ops) (PtrIndex.New.runOps ops).Iterator
          (steps.filter WorldOp.isCursor) = .ok obs := by
  obtain ⟨hs, hitems⟩ := Iterator_sane (PtrIndex.New.runOps ops)
  exact readings_frame steps _ _ _ (List.prefix_refl _)
    (by rw [hitems]; exact tree_in_heap ops) hs

end index

/-! ## The index with objects stands for the index of the other sections -/

namespace index

theorem get_of_extension (h1 h2 : List indexItem) (hp : h1 <+: h2) (a : Nat)
    (ha : a < h1.length) : h2.get? a = some (h1.get ⟨a, ha⟩) := by
  obtain ⟨t, rfl⟩ := hp
  rw [List.get?_eq_getElem?, List.getElem?_append_left ha, List.getElem?_eq_getElem ha]
  rfl

theorem keyAt_get (heap : List indexItem) (a : Nat) (x : indexItem) (h : heap.get? a = some x) :
    keyAt heap a = x.key := by
  unfold keyAt
  rw [h]

/-- The objects of the tree after `ReplaceOrInsert` through pointers are the
items after `ReplaceOrInsert` on the items themselves. -/
theorem filterMap_insertPtr (heap : List indexItem) (item : indexItem) (tree : List Nat)
    (hin : ∀ a ∈ tree, a < heap.length) :
    (insertPtr (heap ++ [item]) heap.length tree).filterMap (fun a => (heap ++ [item]).get? a)
      = replaceOrInsert item (tree.filterMap (fun a => heap.get? a)) := by
  have hnew : (heap ++ [item]).get? heap.length = some item := by
    rw [List.get?_eq_getElem?, List.getElem?_append_right (le_refl _), Nat.sub_self]
    rfl
  have hold : ∀ a (ha : a < heap.length),
      (heap ++ [item]).get? a = some (heap.get ⟨a, ha⟩) :=
    fun a ha => get_of_extension heap _ (List.prefix_append _ _) a ha
  induction tree with
  | nil =>
    simp only [insertPtr, List.filterMap_cons, hnew, List.filterMap_nil, replaceOrInsert]
  | cons x xs ih =>
    have hx : x < heap.length := hin x (List.mem_cons_self _ _)
    have ih := ih (fun a ha => hin a (List.mem_cons_of_mem _ ha))
    have hgx : heap.get? x = some (heap.get ⟨x, hx⟩) := List.get?_eq_get hx
    have hrest : ∀ l : List Nat, (∀ a ∈ l, a < heap.length) →
        l.filterMap (fun a => (heap ++ [item]).get? a) = l.filterMap (fun a => heap.get? a) := by
      intro l hl
      apply List.filterMap_congr
      intro a ha
      rw [hold a (hl a ha), List.get?_eq_get (hl a ha)]
    unfold insertPtr
    rw [keyAt_get _ _ _ hnew, keyAt_get _ _ _ (hold x hx)]
    simp only [List.filterMap_cons, hgx]
    unfold replaceOrInsert
    simp only [indexItem.Less]
    by_cases h1 : bytesLess item.key (heap.get ⟨x, hx⟩).key = true
    · rw [if_pos h1, if_pos h1]
      simp only [List.filterMap_cons, hnew, hold x hx]
      rw [hrest xs (fun a ha => hin a (List.mem_cons_of_mem _ ha))]
    · rw [if_neg h1, if_neg h1]
      by_cases h2 : bytesLess (heap.get ⟨x, hx⟩).key item.key = true
      · rw [if_pos h2, if_pos h2]
        simp only [List.filterMap_cons, hold x hx]
        rw [ih]
      · rw [if_neg h2, if_neg h2]
        simp only [List.filterMap_cons, hnew]
        rw [hrest xs (fun a ha => hin a (List.mem_cons_of_mem _ ha))]

theorem filterMap_filter_keys (heap : List indexItem) (tree : List Nat) (p : List Byte → Bool)
    (hin : ∀ a ∈ tree, a < heap.length) :
    (tree.filter (fun a => p (keyAt heap a))).filterMap (fun a => heap.get? a)
      = (tree.filterMap (fun a => heap.get? a)).filter (fun x => p x.key) := by
  induction tree with
  | nil => rfl
  | cons x xs ih =>
    have hx : x < heap.length := hin x (List.mem_cons_self _ _)
    have ih := ih (fun a ha => hin a (List.mem_cons_of_mem _ ha))
    have hgx : heap.get? x = some (heap.get ⟨x, hx⟩) := List.get?_eq_get hx
    rw [List.filter_cons, keyAt_get _ _ _ hgx]
    simp only [List.filterMap_cons, hgx, List.filter_cons]
    cases p (heap.get ⟨x, hx⟩).key with
    | true => simp only [if_true, List.filterMap_cons, hgx, ih]
    | false => simp only [Bool.false_eq_true, if_false, ih]

theorem Delete_fst (o : PtrIndex) (key : List Byte) (hk : key.length ≠ 0) :
    (o.Delete key).1
      = PtrIndex.mk o.heap (o.tree.filter
          (fun x => bytesLess key (keyAt o.heap x) || bytesLess (keyAt o.heap x) key)) := by
  unfold PtrIndex.Delete
  rw [if_neg hk]
  simp only
  split <;> rfl

/-- A call on the index with objects is the call on the index it stands
for. -/
theorem deref_apply (o : PtrIndex) (op : IndexOp) (hin : ∀ a ∈ o.tree, a < o.heap.length) :
    (o.apply op).deref = o.deref.apply op := by
  cases op with
  | put key pos =>
    simp only [PtrIndex.apply, PtrIndex.Put, BTreeIndex.apply, BTreeIndex.Put]
    by_cases hk : key.length = 0
    · rw [if_pos hk, if_pos hk]
    · rw [if_neg hk, if_neg hk]
      simp only [PtrIndex.deref, BTree.ReplaceOrInsert]
      rw [filterMap_insertPtr o.heap ⟨key, pos⟩ o.tree hin]
  | delete key =>
    by_cases hk : key.length = 0
    · simp only [PtrIndex.apply, PtrIndex.Delete, BTreeIndex.apply, BTreeIndex.Delete]
      rw [if_pos hk, if_pos hk]
    · have hne : key ≠ [] := fun e => hk (by rw [e]; rfl)
      have hfilter := filterMap_filter_keys o.heap o.tree
        (fun k => bytesLess key k || bytesLess k key) hin
      simp only at hfilter
      simp only [PtrIndex.apply, BTreeIndex.apply]
      rw [Delete_fst o key hk, BTreeIndex.Delete_ok _ key hne]
      have hd : (PtrIndex.mk o.heap (o.tree.filter
          (fun x => bytesLess key (keyAt o.heap x) || bytesLess (keyAt o.heap x) key))).deref
          = { items := (o.deref.items.Delete key).2 } := by
        simp only [PtrIndex.deref, BTree.Delete, hfilter]
      rw [hd]
      cases hg : o.deref.items.Get key with
      | some item => rfl
      | none =>
        simp only
        rw [BTree.Get_eq] at hg
        simp only [BTree.Delete, filter_other_keys_eq _ key hg]

/-- The index with objects after a sequence of calls stands for the index
after the same calls. -/
theorem deref_runOps (ops : List IndexOp) :
    (PtrIndex.New.runOps ops).deref = NewBTreeIndex.runOps ops := by
  induction ops using List.reverseRecOn with
  | nil => rfl
  | append_singleton ops op ih =>
    have h1 : PtrIndex.New.runOps (ops ++ [op]) = (PtrIndex.New.runOps ops).apply op := by
      simp [PtrIndex.runOps, List.foldl_append]
    rw [h1, runOps_append, deref_apply _ op (tree_in_heap ops), ih]

/-- The cursor that `Iterator()` returns on the index with objects stands for
the cursor on the index it stands for. -/
theorem deref_Iterator (o : PtrIndex) (hin : ∀ a ∈ o.tree, a < o.heap.length) :
    o.Iterator.deref o.heap = o.deref.Iterator := by
  unfold PtrIndex.Iterator BTreeIndex.Iterator NewBTreeIterator PtrIndex.deref
  cases ht : o.tree with
  | nil => rfl
  | cons first rest =>
    have hx : first < o.heap.length := hin first (by rw [ht]; exact List.mem_cons_self _ _)
    have hgx : o.heap.get? first = some (o.heap.get ⟨first, hx⟩) := List.get?_eq_get hx
    simp only [PtrIterator.deref, List.filterMap_cons, hgx, Option.some_bind]

end index

namespace index

theorem filterMap_get (heap : List indexItem) (items : List Nat)
    (hin : ∀ a ∈ items, a < heap.length) (n : Nat) :
    (items.filterMap (fun a => heap.get? a)).get? n
      = (items.get? n).bind (fun a => heap.get? a) := by
  induction items generalizing n with
  | nil => rfl
  | cons x xs ih =>
    have hx : x < heap.length := hin x (List.mem_cons_self _ _)
    have hgx : heap.get? x = some (heap.get ⟨x, hx⟩) := List.get?_eq_get hx
    simp only [List.filterMap_cons, hgx]
    cases n with
    | zero => simp only [List.get?_cons_zero, Option.some_bind, hgx]
    | succ n =>
      simp only [List.get?_cons_succ]
      exact ih (fun a ha => hin a (List.mem_cons_of_mem _ ha)) n

theorem filterMap_length (heap : List indexItem) (items : List Nat)
    (hin : ∀ a ∈ items, a < heap.length) :
    (items.filterMap (fun a => heap.get? a)).length = items.length := by
  induction items with
  | nil => rfl
  | cons x xs ih =>
    have hx : x < heap.length := hin x (List.mem_cons_self _ _)
    have hgx : heap.get? x = some (heap.get ⟨x, hx⟩) := List.get?_eq_get hx
    simp only [List.filterMap_cons, hgx, List.length_cons,
      ih (fun a ha => hin a (List.mem_cons_of_mem _ ha))]

theorem itemAt_deref (heap : List indexItem) (items : List Nat)
    (hin : ∀ a ∈ items, a < heap.length) (i : Int) :
    itemAt (items.filterMap (fun a => heap.get? a)) i
      = match ptrAt items i with
        | .error p => .error p
        | .ok a =>
          match heap.get? a with
          | some x => .ok x
          | none => .error .indexRange := by
  unfold itemAt ptrAt
  by_cases h0 : 0 ≤ i
  · rw [if_pos h0, if_pos h0, filterMap_get heap items hin]
    cases hg : items.get? i.toNat with
    | none => rfl
    | some a =>
      have ha : a < heap.length := hin a (List.get?_mem hg)
      simp only [Option.some_bind, List.get?_eq_get ha]
  · rw [if_neg h0, if_neg h0]

theorem seekFrom_deref (heap : List indexItem) (key : List Byte) (items : List Nat)
    (hin : ∀ a ∈ items, a < heap.length) (i : Nat) :
    seekFrom key i (items.filterMap (fun a => heap.get? a))
      = match seekPtrFrom heap key i items with
        | none => none
        | some (j, a) =>
          match heap.get? a with
          | some x => some (j, x)
          | none => none := by
  induction items generalizing i with
  | nil => rfl
  | cons x xs ih =>
    have hx : x < heap.length := hin x (List.mem_cons_self _ _)
    have hgx : heap.get? x = some (heap.get ⟨x, hx⟩) := List.get?_eq_get hx
    simp only [List.filterMap_cons, hgx]
    unfold seekFrom seekPtrFrom
    rw [keyAt_get _ _ _ hgx]
    by_cases hc : (!bytesLess (heap.get ⟨x, hx⟩).key key) = true
    · rw [if_pos hc, if_pos hc]
      simp only [hgx]
    · rw [if_neg hc, if_neg hc]
      exact ih (fun a ha => hin a (List.mem_cons_of_mem _ ha)) (i + 1)

/-- A call on a cursor with pointers is the call on the cursor it stands
for. -/
theorem deref_step (iter : PtrIterator) (heap : List indexItem) (op : CursorOp)
    (hin : ∀ a ∈ iter.items, a < heap.length) :
    (iter.deref heap).step op
      = match iter.step heap op with
        | .error p => .error p
        | .ok next => .ok (next.deref heap) := by
  have hlen := filterMap_length heap iter.items hin
  cases op with
  | next =>
    simp only [BTreeIterator.step, PtrIterator.step, BTreeIterator.Next, PtrIterator.Next,
      PtrIterator.deref, hlen]
    by_cases hc : iter.currIndex < (iter.items.length : Int) - 1
    · rw [if_pos hc, if_pos hc, itemAt_deref heap iter.items hin]
      unfold ptrAt
      by_cases h0 : 0 ≤ iter.currIndex + 1
      · rw [if_pos h0]
        cases hg : iter.items.get? (iter.currIndex + 1).toNat with
        | none => rfl
        | some a =>
          have ha : a < heap.length := hin a (List.get?_mem hg)
          simp only [List.get?_eq_get ha, Option.some_bind]
      · rw [if_neg h0]
    · rw [if_neg hc, if_neg hc]
      rfl
  | prev =>
    simp only [BTreeIterator.step, PtrIterator.step, BTreeIterator.Prev, PtrIterator.Prev,
      PtrIterator.deref]
    by_cases hc : iter.currIndex > 0
    · rw [if_pos hc, if_pos hc, itemAt_deref heap iter.items hin]
      unfold ptrAt
      by_cases h0 : 0 ≤ iter.currIndex - 1
      · rw [if_pos h0]
        cases hg : iter.items.get? (iter.currIndex - 1).toNat with
        | none => rfl
        | some a =>
          have ha : a < heap.length := hin a (List.get?_mem hg)
          simp only [List.get?_eq_get ha, Option.some_bind]
      · rw [if_neg h0]
    · rw [if_neg hc, if_neg hc]
      rfl
  | seek key =>
    simp only [BTreeIterator.step, PtrIterator.step, BTreeIterator.Seek, PtrIterator.Seek,
      PtrIterator.deref, seekFrom_deref heap key iter.items hin 0]
    cases hs : seekPtrFrom heap key 0 iter.items with
    | none => rfl
    | some p =>
      obtain ⟨j, a⟩ := p
      obtain ⟨_, hget⟩ := seekPtrFrom_some heap key iter.items 0 j a hs
      have ha : a < heap.length := hin a (List.get?_mem hget)
      simp only [List.get?_eq_get ha, Option.some_bind]

/-- What a cursor with pointers returns is what the cursor it stands for
returns. -/
theorem deref_reads (iter : PtrIterator) (heap : List indexItem) (hs : iter.Sane)
    (hin : ∀ a ∈ iter.items, a < heap.length) :
    (iter.deref heap).Valid = iter.Valid ∧ (iter.deref heap).Key = iter.Key heap
      ∧ (iter.deref heap).Value = iter.Value heap := by
  unfold BTreeIterator.Valid BTreeIterator.Key BTreeIterator.Value PtrIterator.Valid
    PtrIterator.Key PtrIterator.Value PtrIterator.deref keyAt posAt
  cases hc : iter.currItem with
  | none => exact ⟨rfl, rfl, rfl⟩
  | some a =>
    have ha : a < heap.length := hin a (hs.current a hc)
    simp only [Option.some_bind, List.get?_eq_get ha]
    exact ⟨rfl, trivial, trivial⟩

end index
